import Mathlib

/-!
# A shallow embedding of the manual call-stack tracer (`trace.go`)

Go pointers are modelled as addresses into an explicit heap (a list of
cells); the tracer holds a slice of node pointers (`stack`) and the pointer to
the current scope (`where`).  A run-time panic of the Go code (nil dereference,
index out of range, failed type assertion) is the result `none`.
-/

namespace trace

/-! ## Data model -/

/-- A heap address: the value of a non-nil Go pointer. -/
abbrev Ptr := Nat

/-- Go interface `Node`: a non-nil pointer to an `Enter`, `Exit` or `Message`
cell; the dynamic type is the kind of the cell it points to. A nil interface
or nil pointer is `none : Option Node`. -/
abbrev Node := Ptr

def START_NODE : String := "<START>"

def END_NODE : String := "<END>"

/-- Go struct `Enter`. -/
structure Enter where
  name : String
  next : Option Node
  prev : Option Node
  parent : Option Ptr
deriving DecidableEq, Repr

/-- Go struct `Exit`; `parent` is the `Enter` this is an exit from. -/
structure Exit where
  name : String
  next : Option Node
  prev : Option Node
  parent : Option Ptr
deriving DecidableEq, Repr

set_option linter.dupNamespace false

/-- Go struct `Message`; `parent` is the `Enter` at which the message was recorded. -/
structure Message where
  Message : String
  next : Option Node
  prev : Option Node
  parent : Option Ptr
deriving DecidableEq, Repr

/-- A heap cell: one allocated node struct. -/
inductive Obj
  | enter (e : Enter)
  | exit (x : Exit)
  | message (m : Message)
deriving DecidableEq, Repr

/-- The heap: cell `p` is the struct a pointer with address `p` points to. -/
abbrev Heap := List Obj

/-- Allocation `&T{...}`: a fresh cell at the next free address. -/
def new (h : Heap) (o : Obj) : Heap × Ptr := (h ++ [o], h.length)

/-- Go `error` values as built by `fmt.Errorf`: a text, and for the `%w` verb
the wrapped error. -/
inductive GoError
  | errorf (text : String)
  | wrapf (text : String) (inner : GoError)
deriving DecidableEq, Repr

/-- Method `Error()` of an error value. -/
def GoError.Error : GoError → String
  | .errorf text => text
  | .wrapf text _ => text

/-- Method `Unwrap()` of an error value. -/
def GoError.Unwrap : GoError → Option GoError
  | .errorf _ => none
  | .wrapf _ inner => some inner

/-- A value passed as `any`: a `func() string` (taken to be pure and total), a
string, a `[]string`, a `rune`, or a value of some other type given by its
identity. -/
inductive AnyVal
  | func (f : Unit → String)
  | str (s : String)
  | strs (ss : List String)
  | rune (c : Char)
  | other (v : String)

/-- The two functions of Go's `fmt` package the tracer calls; the package is
not part of the repository and is taken as a parameter. -/
structure Fmt where
  Sprintf : String → List AnyVal → String
  Sprint : List AnyVal → String

/-- Go struct `tracer`: the chain (`stack`) and the pointer to the `Enter` of
the current scope (field `where` of the source). -/
structure tracer where
  stack : List Node
  where_ : Option Ptr
deriving DecidableEq, Repr

/-! ## Link setters -/

/-- The three `SetNext` methods: `t.next = n`. -/
def Obj.SetNext (o : Obj) (n : Node) : Obj :=
  match o with
  | .enter e => .enter { e with next := some n }
  | .exit x => .exit { x with next := some n }
  | .message m => .message { m with next := some n }

/-- The three `SetPrev` methods: `t.prev = n`. -/
def Obj.SetPrev (o : Obj) (n : Node) : Obj :=
  match o with
  | .enter e => .enter { e with prev := some n }
  | .exit x => .exit { x with prev := some n }
  | .message m => .message { m with prev := some n }

/-- Write through a pointer: the cell at `p` becomes `f` of itself. -/
def store (h : Heap) (p : Ptr) (f : Obj → Obj) : Option Heap :=
  match h[p]? with
  | some o => some (h.set p (f o))
  | none => none

/-! ## The tracer -/

/-- `NewTracer`: a chain of one node, the root `Enter` named `<START>`, which
is also the current scope. -/
def NewTracer (h : Heap) : Heap × tracer :=
  let (h1, root) := new h (.enter { name := START_NODE, next := none, prev := none, parent := none })
  (h1, { stack := [root], where_ := some root })

/-- One iteration of the loop of `tracer.append`, for the node `n`. -/
def tracer.append1 (h : Heap) (t : tracer) (n : Node) : Option (Heap × tracer) :=
  match t.stack.getLast? with
  | none => none
  | some top =>
    match store h top (fun o => o.SetNext n) with
    | none => none
    | some h1 =>
      match store h1 n (fun o => o.SetPrev top) with
      | none => none
      | some h2 =>
        match h2[n]? with
        | some (.enter e) =>
          some (h2.set n (.enter { e with parent := t.where_ }),
            { stack := t.stack ++ [n], where_ := some n })
        | some (.exit x) =>
          match x.parent with
          | none => none
          | some p =>
            match h2[p]? with
            | some (.enter pe) => some (h2, { stack := t.stack ++ [n], where_ := pe.parent })
            | _ => none
        | some (.message _) => some (h2, { stack := t.stack ++ [n], where_ := t.where_ })
        | none => none

/-- `tracer.append(node ...Node)`: append any number of nodes to the chain. -/
def tracer.append (h : Heap) (t : tracer) : List Node → Option (Heap × tracer)
  | [] => some (h, t)
  | n :: rest =>
    match t.append1 h n with
    | none => none
    | some (h1, t1) => t1.append h1 rest

/-- The part of `name` after its last `.` (all of it when there is none). -/
def afterLastDot : List Char → List Char → List Char
  | [], acc => acc
  | c :: cs, acc => if c = '.' then afterLastDot cs cs else afterLastDot cs acc

/-- Function `here`: `name[strings.LastIndex(name, ".")+1:]`. -/
def here (name : String) : String := String.mk (afterLastDot name.data name.data)

/-- Function `whereToString`; `caller` is what `callerName(2)` returns at the
call site (the Go runtime's name of the calling function). -/
def whereToString (fmt : Fmt) (caller : String) (where_args : List String) : String :=
  match where_args with
  | [] => here caller
  | [w] => w
  | format :: rest => fmt.Sprintf format [AnyVal.strs rest]

/-- `tracer.Trace`: append a new `Enter` and return a new, unappended `Exit`
paired with it. -/
def tracer.Trace (fmt : Fmt) (h : Heap) (t : tracer) (caller : String) (where_args : List String) :
    Option (Heap × tracer × Ptr) :=
  let where_str := whereToString fmt caller where_args
  let (h1, n) := new h (.enter { name := where_str, next := none, prev := none, parent := none })
  match t.append h1 [n] with
  | none => none
  | some (h2, t2) =>
    let (h3, x) := new h2 (.exit { name := where_str, next := none, prev := none, parent := some n })
    some (h3, t2, x)

/-- `tracer.Un`: `debug("< exiting", exit.name)` reads through `exit` (a nil
token panics), then the token is appended. -/
def tracer.Un (h : Heap) (t : tracer) (exit : Option Ptr) : Option (Heap × tracer) :=
  match exit with
  | none => none
  | some x =>
    match h[x]? with
    | some (.exit _) => t.append h [x]
    | _ => none

/-- Function `argsToMessage`. -/
def argsToMessage (fmt : Fmt) (args : List AnyVal) : String :=
  match args with
  | [] => "<empty message>"
  | [.func f] => f ()
  | [.str s] => s
  | [a] => fmt.Sprintf "%v" [a]
  | _ => fmt.Sprint args

/-- `tracer.Message`: `debug("  messaging", t.where.name)` reads through
`t.where` (nil panics), then a new `Message` parented to `t.where` is appended. -/
def tracer.Message (fmt : Fmt) (h : Heap) (t : tracer) (args : List AnyVal) : Option (Heap × tracer) :=
  match t.where_ with
  | none => none
  | some w =>
    match h[w]? with
    | some (.enter _) =>
      let message := argsToMessage fmt args
      let (h1, m) := new h (.message { Message := message, next := none, prev := none, parent := t.where_ })
      t.append h1 [m]
    | _ => none

/-- `tracer.Done`: append a new `Exit` named `<END>` whose parent is
`t.stack[0].(*Enter)`. -/
def tracer.Done (h : Heap) (t : tracer) : Option (Heap × tracer) :=
  match t.stack.head? with
  | none => none
  | some root =>
    match h[root]? with
    | some (.enter _) =>
      let (h1, x) := new h (.exit { name := END_NODE, next := none, prev := none, parent := some root })
      t.append h1 [x]
    | _ => none

/-- `tracer.ToWalkable`: panics on a nil stack; otherwise inspects the last
chain node and returns either an error or the tracer itself. -/
def tracer.ToWalkable (h : Heap) (t : tracer) : Option (Except GoError tracer) :=
  match t.stack.getLast? with
  | none => none
  | some last =>
    match h[last]? with
    | some (.enter n) =>
      some (.error (.errorf
        ("not walkable. tracer is not done. last node was an enter node: " ++ n.name)))
    | some (.exit n) =>
      if n.name ≠ END_NODE then
        some (.error (.errorf
          ("not walkable. tracer is not done. last node was not an exit node of the root node: "
            ++ n.name)))
      else some (.ok t)
    | some (.message _) => some (.ok t)
    | none => none

/-- The loop of `tracer.Walk` over the remaining nodes. The visitor `fn` is a
closure: it takes the node and its own captured state, and returns the new
state and the error it returns (`none` for nil). -/
def walkLoop {σ : Type} (fn : Node → σ → σ × Option GoError) : List Node → σ → σ × Option GoError
  | [], s => (s, none)
  | node :: rest, s =>
    match fn node s with
    | (s1, some err) => (s1, some (.wrapf ("error in walk function: " ++ err.Error) err))
    | (s1, none) => walkLoop fn rest s1

/-- `tracer.Walk`. -/
def tracer.Walk {σ : Type} (t : tracer) (fn : Node → σ → σ × Option GoError) (s : σ) :
    σ × Option GoError :=
  walkLoop fn t.stack s

/-- The visitor closure of `tracer.Messages`: appends a copy of every
`Message` node to the captured slice, and returns nil. -/
def collectMessage (h : Heap) (n : Node) (messages : List Message) :
    List Message × Option GoError :=
  match h[n]? with
  | some (.message m) => (messages ++ [m], none)
  | _ => (messages, none)

/-- `tracer.Messages`: nil (the empty list) when `ToWalkable` fails. -/
def tracer.Messages (h : Heap) (t : tracer) : Option (List trace.Message) :=
  match t.ToWalkable h with
  | none => none
  | some (.error _) => some []
  | some (.ok walkable) => some (walkable.Walk (collectMessage h) []).1

/-- `tracer.Len`. -/
def tracer.Len (t : tracer) : Nat := t.stack.length

/-- The loop of `Message.Stack`, from the `Enter` pointer `n`; the fuel bounds
the number of iterations, and running out of it (only possible on a cyclic
parent chain, where the Go loop does not end) is `none`. -/
def stackLoop (h : Heap) : Nat → Option Ptr → List String → Option (List String)
  | _, none, stack => some stack
  | 0, some _, _ => none
  | fuel + 1, some n, stack =>
    match h[n]? with
    | some (.enter e) =>
      if e.name = START_NODE then some stack else stackLoop h fuel e.parent (stack ++ [e.name])
    | _ => none

/-- `Message.Stack`: the names along the parent links from the message's
parent, up to and excluding the first scope named `<START>`. -/
def Message.Stack (h : Heap) (m : trace.Message) : Option (List String) :=
  stackLoop h h.length m.parent []

/-! ## Call sequences -/

/-- One call on the `Tracer` interface. `Un k` passes the token returned by
the `k`-th `Trace` call (counted from 0) made on this tracer. -/
inductive Call
  | Trace (caller : String) (where_args : List String)
  | Un (k : Nat)
  | Message (args : List AnyVal)
  | Done

/-- The heap, the tracer and the tokens its `Trace` calls have returned so far. -/
structure Sys where
  heap : Heap
  t : tracer
  tokens : List Ptr
deriving DecidableEq, Repr

/-- A new tracer on an empty heap. -/
def Sys.init : Sys :=
  let (h, t) := NewTracer []
  { heap := h, t := t, tokens := [] }

/-- Perform one call; `none` when the call panics. -/
def Sys.step (fmt : Fmt) (s : Sys) : Call → Option Sys
  | .Trace caller where_args =>
    match s.t.Trace fmt s.heap caller where_args with
    | none => none
    | some (h, t, x) => some { heap := h, t := t, tokens := s.tokens ++ [x] }
  | .Un k =>
    match s.t.Un s.heap s.tokens[k]? with
    | none => none
    | some (h, t) => some { heap := h, t := t, tokens := s.tokens }
  | .Message args =>
    match s.t.Message fmt s.heap args with
    | none => none
    | some (h, t) => some { heap := h, t := t, tokens := s.tokens }
  | .Done =>
    match s.t.Done s.heap with
    | none => none
    | some (h, t) => some { heap := h, t := t, tokens := s.tokens }

/-- Perform a sequence of calls, in order. -/
def Sys.run (fmt : Fmt) (s : Sys) : List Call → Option Sys
  | [] => some s
  | c :: cs =>
    match s.step fmt c with
    | none => none
    | some s1 => s1.run fmt cs


/-- The fields of a cell other than its chain links. -/
inductive View
  | enter (name : String) (parent : Option Ptr)
  | exit (name : String) (parent : Option Ptr)
  | message (payload : String) (parent : Option Ptr)
deriving DecidableEq, Repr

def Obj.view : Obj → View
  | .enter e => .enter e.name e.parent
  | .exit x => .exit x.name x.parent
  | .message m => .message m.Message m.parent

def viewAt (h : Heap) (p : Ptr) : Option View := (h[p]?).map Obj.view

/-- Well-formedness of the states a tracer reaches: the chain is non-empty,
starts at the root (address 0, named `<START>`, no parent) and holds valid
addresses; the current scope, when not nil, is an `Enter`; every token is an
`Exit` paired with an `Enter`; the parent of an `Enter` is an older `Enter`. -/
structure Sys.Inv (s : Sys) : Prop where
  last : ∃ top : Nat, s.t.stack.getLast? = some top
  stack_lt : ∀ p : Nat, p ∈ s.t.stack → p < s.heap.length
  head : s.t.stack.head? = some 0
  root : viewAt s.heap 0 = some (.enter START_NODE none)
  where_enter : ∀ w : Nat, s.t.where_ = some w → ∃ nm par, viewAt s.heap w = some (.enter nm par)
  tokens : ∀ x : Nat, x ∈ s.tokens → ∃ nm e enm epar,
    viewAt s.heap x = some (.exit nm (some e)) ∧ viewAt s.heap e = some (.enter enm epar)
  parents : ∀ (p : Nat) (nm : String) (g : Nat), viewAt s.heap p = some (.enter nm (some g)) →
    g < p ∧ ∃ gnm gpar, viewAt s.heap g = some (.enter gnm gpar)

/-- What holds in addition while `Done` has not been called: there is a
current scope, and the `Enter` of every token has a parent. -/
structure Sys.Live (s : Sys) : Prop where
  where_some : ∃ w : Nat, s.t.where_ = some w
  tokens : ∀ x : Nat, x ∈ s.tokens → ∃ nm e enm g,
    viewAt s.heap x = some (.exit nm (some e)) ∧ viewAt s.heap e = some (.enter enm (some g))

/-- The later state `s1` extends `s`: the heap only grows, the fields other
than the links of the cells of `s` are unchanged, and the tokens of `s` are
still the first tokens. -/
structure Sys.Ext (s s1 : Sys) : Prop where
  len : s.heap.length ≤ s1.heap.length
  view : ∀ q : Nat, q < s.heap.length → viewAt s1.heap q = viewAt s.heap q
  toks : ∃ more, s1.tokens = s.tokens ++ more
  stack : ∃ more, s1.t.stack = s.t.stack ++ more

/-- The calls `cs` are made before `Done` and pass to `Un` only tokens that
`Trace` has already returned, `n` tokens having been returned before `cs`. -/
def validFrom (n : Nat) : List Call → Bool
  | [] => true
  | .Trace _ _ :: cs => validFrom (n + 1) cs
  | .Un k :: cs => decide (k < n) && validFrom n cs
  | .Message _ :: cs => validFrom n cs
  | .Done :: _ => false

/-- Proper nesting: follow the calls `cs`, keeping the scopes that are open
(entered and not yet exited), innermost first, each with the index of its token
and a label `nm caller where_args`. `Un` must pass the token of the innermost
open scope; `n` tokens have been returned before `cs`. The result is `none`
when the calls are not properly nested or contain `Done`. -/
def nestFrom {α : Type} (nm : String → List String → α) :
    Nat → List (Nat × α) → List Call → Option (List (Nat × α))
  | _, os, [] => some os
  | n, os, .Trace caller where_args :: cs => nestFrom nm (n + 1) ((n, nm caller where_args) :: os) cs
  | n, o :: os, .Un k :: cs => if k = o.1 then nestFrom nm n os cs else none
  | _, [], .Un _ :: _ => none
  | n, os, .Message _ :: cs => nestFrom nm n os cs
  | _, _, .Done :: _ => none

/-- The calls are a properly nested sequence of `Trace`/`Un` pairs with
`Message` calls interleaved, every scope being exited. -/
def balanced (cs : List Call) : Bool :=
  match nestFrom (fun _ _ => ()) 0 [] cs with
  | some [] => true
  | _ => false

/-- The scopes open after the properly nested calls `cs` on a new tracer,
innermost first: token index and scope name. -/
def openScopes (fmt : Fmt) (cs : List Call) : Option (List (Nat × String)) :=
  nestFrom (whereToString fmt) 0 [] cs

/-- Number of `Trace` calls. -/
def countTrace : List Call → Nat
  | [] => 0
  | .Trace _ _ :: cs => countTrace cs + 1
  | _ :: cs => countTrace cs

/-- Number of `Un` calls. -/
def countUn : List Call → Nat
  | [] => 0
  | .Un _ :: cs => countUn cs + 1
  | _ :: cs => countUn cs

/-- Number of `Message` calls. -/
def countMessage : List Call → Nat
  | [] => 0
  | .Message _ :: cs => countMessage cs + 1
  | _ :: cs => countMessage cs

/-- The payloads of the `Message` calls, in call order. -/
def payloads (fmt : Fmt) : List Call → List String
  | [] => []
  | .Message args :: cs => argsToMessage fmt args :: payloads fmt cs
  | _ :: cs => payloads fmt cs

/-- The visitor `fn` instrumented to record each node it is invoked on. -/
def logged {σ : Type} (fn : Node → σ → σ × Option GoError) :
    Node → List Node × σ → (List Node × σ) × Option GoError :=
  fun node ls => ((ls.1 ++ [node], (fn node ls.2).1), (fn node ls.2).2)

/-- What the visitor returns on each node of a chain when it is called on
all of them in order, starting in the state `s`. -/
def visitorReturns {σ : Type} (fn : Node → σ → σ × Option GoError) : List Node → σ → List (Option GoError)
  | [], _ => []
  | node :: rest, s => (fn node s).2 :: visitorReturns fn rest (fn node s).1

/-- The payloads of the `Message` nodes of a chain, in chain order. -/
def chainPayloads (h : Heap) (stack : List Node) : List String :=
  stack.filterMap (fun p => match viewAt h p with
    | some (.message payload _) => some payload
    | _ => none)

/-- The parent links from the current scope `w` run through exactly the open
scopes `os` (innermost first) and end at the root: each open scope is the
`Enter` paired with its token, carries its name, and has an older parent. -/
def NChain (h : Heap) (tokens : List Ptr) : Option Ptr → List (Nat × String) → Prop
  | w, [] => w = some 0
  | w, o :: os => ∃ x e g : Nat, tokens[o.1]? = some x ∧
      viewAt h x = some (.exit o.2 (some e)) ∧ w = some e ∧
      viewAt h e = some (.enter o.2 (some g)) ∧ g < e ∧ NChain h tokens (some g) os

/-- Number of `Done` calls. -/
def countDone : List Call → Nat
  | [] => 0
  | .Done :: cs => countDone cs + 1
  | _ :: cs => countDone cs

/-! ## The fragment of Go's `fmt.Sprintf` the repository relies on -/

/-- What one verb prints for one operand, for the verbs and operand types the
repository uses: `%s` and `%v` print a string as it is and a `[]string` as its
elements separated by blanks inside brackets; `%c` prints a rune as its
character. Other combinations are outside the fragment (`none`). -/
def goVerb (v : Char) (o : AnyVal) : Option String :=
  match o with
  | .str s => if v = 's' ∨ v = 'v' then some s else none
  | .strs ss => if v = 's' ∨ v = 'v' then some ("[" ++ " ".intercalate ss ++ "]") else none
  | .rune c => if v = 'c' then some (String.singleton c) else none
  | _ => none

/-- Go's `fmt.Sprintf` on the characters of the format, `pct` telling that the
previous character was an unfinished `%`. Plain characters are copied, `%%`
is a percent sign, a verb consumes the next operand, and a verb with no
operand left prints `%!verb(MISSING)`. Flags, other verbs, a format ending in
`%` and surplus operands are outside the fragment (`none`). -/
def goSprintfLoop : Bool → List Char → List AnyVal → Option String
  | false, [], [] => some ""
  | false, [], _ :: _ => none
  | true, [], _ => none
  | false, c :: cs, ops =>
    if c = '%' then goSprintfLoop true cs ops
    else (goSprintfLoop false cs ops).map (fun r => String.singleton c ++ r)
  | true, v :: cs, ops =>
    if v = '%' then (goSprintfLoop false cs ops).map (fun r => "%" ++ r)
    else
      match ops with
      | [] =>
        if v = 's' ∨ v = 'v' ∨ v = 'c' then
          (goSprintfLoop false cs []).map (fun r => "%!" ++ String.singleton v ++ "(MISSING)" ++ r)
        else none
      | o :: ops1 =>
        match goVerb v o, goSprintfLoop false cs ops1 with
        | some a, some r => some (a ++ r)
        | _, _ => none

/-- Go's `fmt.Sprintf(format, operands...)` on the fragment. -/
def goSprintf (format : String) (ops : List AnyVal) : Option String :=
  goSprintfLoop false format.data ops

/-- The parameter `fmt` formats as Go's `fmt.Sprintf` does, wherever the
fragment says what that is. -/
def Fmt.GoSprintf (fmt : Fmt) : Prop :=
  ∀ (format : String) (ops : List AnyVal) (r : String),
    goSprintf format ops = some r → fmt.Sprintf format ops = r

/-! ## Rendering a message -/

/-- The loop of `Message.String`, `for j := len(stack) - 1; j >= 0; j--`, with
`n = j + 1`: each name is written followed by a colon. -/
def stringLoop (fmt : Fmt) (stack : List String) : Nat → String → Option String
  | 0, out => some out
  | j + 1, out =>
    match stack[j]? with
    | some name => stringLoop fmt stack j (out ++ fmt.Sprintf "%s:" [.str name])
    | none => none

/-- `Message.String`: the lineage from the outermost scope to the innermost,
each name followed by `:`, then a blank and the payload. -/
def Message.String (fmt : Fmt) (h : Heap) (m : trace.Message) : Option String :=
  match m.Stack h with
  | none => none
  | some stack =>
    match stringLoop fmt stack stack.length "" with
    | none => none
    | some out => some (out ++ fmt.Sprintf " %s" [.str m.Message])

namespace printer

/-- Go type `Flavour` (an `int`). -/
abbrev Flavour := Int

def ONELINE : Flavour := 0

def MULTILINE : Flavour := 1

/-- Go's `strings.Repeat(s, count)`; a negative count panics. -/
def Repeat (s : String) (count : Int) : Option String :=
  if count < 0 then none else some (String.join (List.replicate count.toNat s))

/-- Function `prettyPrintOneline`. -/
def prettyPrintOneline (fmt : Fmt) (h : Heap) (message : trace.Message) : Option String :=
  message.String fmt h

/-- The loop of `prettyPrintMultiline`, `for j := 0; j < len(stack); j++`, over
the names from index `j` on. -/
def multilineLoop (len : Nat) : List String → Nat → String → Option String
  | [], _, out => some out
  | name :: rest, j, out =>
    match Repeat " " (max ((j : Int) - 1) 0) with
    | none => none
    | some indent =>
      let out1 := out ++ indent
      let out2 := if j > 0 then out1 ++ "└" else out1
      let out3 := out2 ++ name
      let out4 := if (j : Int) < (len : Int) - 1 then out3 ++ "\n" else out3
      multilineLoop len rest (j + 1) out4

/-- Function `prettyPrintMultiline`. -/
def prettyPrintMultiline (fmt : Fmt) (h : Heap) (message : trace.Message) : Option String :=
  match message.Stack h with
  | none => none
  | some stack =>
    match multilineLoop stack.length stack 0 "" with
    | none => none
    | some out => some (out ++ fmt.Sprintf ": %s\n" [.str message.Message])

/-- Function `PrettySPrint`: with no flavour given the flavour is `ONELINE`;
an unknown flavour panics. -/
def PrettySPrint (fmt : Fmt) (h : Heap) (message : trace.Message) (flavour : List Flavour) :
    Option String :=
  let flavour := if flavour.length = 0 then flavour ++ [ONELINE] else flavour
  match flavour.head? with
  | none => none
  | some f =>
    if f = ONELINE then prettyPrintOneline fmt h message
    else if f = MULTILINE then prettyPrintMultiline fmt h message
    else none

end printer

/-- The strings of a list written one after the other. -/
def concatAll : List String → String
  | [] => ""
  | s :: rest => s ++ concatAll rest

/-! ## The trace printer -/

namespace printer

/-- What the visitor returned by `NewTracePrinter` has captured: the counter
`indent` and the writer `out`, modelled by the bytes written to it so far
(every `Write` is taken to succeed). -/
structure PrinterState where
  indent : Int
  out : String
deriving DecidableEq, Repr

/-- Method `writer.W`: write the line `indent*2` dots, the symbol, a blank, the
name and a newline; `strings.Repeat` panics on a negative count. The result
is the content of the writer afterwards. -/
def W (fmt : Fmt) (out : String) (symbol : Char) (indent : Int) (name : String) : Option String :=
  match Repeat "." (indent * 2) with
  | none => none
  | some dots => some (out ++ fmt.Sprintf "%s%c %s\n" [.str dots, .rune symbol, .str name])

/-- `NewTracePrinter(out, print_messages)`: the returned visitor, as a function
of the node and of the captured state; `hasOut` is `out != nil`. The state
`none` stands for a visitor that has panicked (the walk ends there in Go; here
the remaining calls leave it `none`). The visitor always returns nil. -/
def NewTracePrinter (fmt : Fmt) (h : Heap) (hasOut : Bool) (print_messages : Bool) :
    Node → Option PrinterState → Option PrinterState × Option GoError :=
  fun n st =>
    if hasOut = false then (st, none)
    else
      match st with
      | none => (none, none)
      | some s =>
        match h[n]? with
        | some (.enter e) =>
          if e.name = START_NODE then (some s, none)
          else
            match W fmt s.out '>' s.indent e.name with
            | none => (none, none)
            | some out => (some { indent := s.indent + 1, out := out }, none)
        | some (.exit x) =>
          if x.name = END_NODE then (some s, none)
          else
            match W fmt s.out '<' (s.indent - 1) x.name with
            | none => (none, none)
            | some out => (some { indent := s.indent - 1, out := out }, none)
        | some (.message m) =>
          if print_messages then
            match W fmt s.out '@' s.indent m.Message with
            | none => (none, none)
            | some out => (some { indent := s.indent, out := out }, none)
          else (some s, none)
        | none => (none, none)

/-- The line the printer writes for one node: `2*k` dots, the symbol, a
blank, the text and a newline. -/
def line (symbol : Char) (k : Nat) (text : String) : String :=
  String.join (List.replicate (2 * k) ".") ++ String.singleton symbol ++ " " ++ text ++ "\n"

/-- The expected output for the calls `cs`, made while the scopes named `os`
(innermost first) are open: a `Trace` gives a `>` line at the depth of the
scopes open around it, the matching `Un` a `<` line at the same depth, and a
`Message` an `@` line at the depth of the open scopes when `print_messages` is
set. -/
def render (fmt : Fmt) (print_messages : Bool) : List String → List Call → String
  | _, [] => ""
  | os, .Trace caller where_args :: cs =>
    line '>' os.length (whereToString fmt caller where_args) ++
      render fmt print_messages (whereToString fmt caller where_args :: os) cs
  | o :: os, .Un _ :: cs => line '<' os.length o ++ render fmt print_messages os cs
  | [], .Un _ :: cs => render fmt print_messages [] cs
  | os, .Message args :: cs =>
    (if print_messages then line '@' os.length (argsToMessage fmt args) else "") ++
      render fmt print_messages os cs
  | os, .Done :: cs => render fmt print_messages os cs

end printer

/-- The visitor `fn` instrumented to record the state it is in after each
invocation. -/
def recorded {σ : Type} (fn : Node → σ → σ × Option GoError) :
    Node → List σ × σ → (List σ × σ) × Option GoError :=
  fun node ls => ((ls.1 ++ [(fn node ls.2).1], (fn node ls.2).1), (fn node ls.2).2)

/-- The names of the scopes entered by the calls `cs`. -/
def scopeNames (fmt : Fmt) : List Call → List String
  | [] => []
  | .Trace caller where_args :: cs => whereToString fmt caller where_args :: scopeNames fmt cs
  | _ :: cs => scopeNames fmt cs

/-- What the printer looks at in a node: its kind and its name or payload. -/
inductive Event
  | enter (name : String)
  | exit (name : String)
  | message (payload : String)
deriving DecidableEq, Repr

/-- The event of the node at an address. -/
def eventAt (h : Heap) (p : Ptr) : Option Event :=
  match viewAt h p with
  | some (.enter name _) => some (.enter name)
  | some (.exit name _) => some (.exit name)
  | some (.message payload _) => some (.message payload)
  | none => none

/-- The events of the nodes that the properly nested calls `cs` append, the
scopes named `os` (innermost first) being open before them: `Un` appends the
`Exit` of the innermost open scope. -/
def eventsFrom (fmt : Fmt) : List String → List Call → List Event
  | _, [] => []
  | os, .Trace caller where_args :: cs =>
    .enter (whereToString fmt caller where_args) ::
      eventsFrom fmt (whereToString fmt caller where_args :: os) cs
  | o :: os, .Un _ :: cs => .exit o :: eventsFrom fmt os cs
  | [], .Un _ :: cs => eventsFrom fmt [] cs
  | os, .Message args :: cs => .message (argsToMessage fmt args) :: eventsFrom fmt os cs
  | os, .Done :: cs => eventsFrom fmt os cs

/-! ## Chain links -/

/-- The three `Next` methods: `return n.next`. -/
def Obj.Next : Obj → Option Node
  | .enter e => e.next
  | .exit x => x.next
  | .message m => m.next

/-- The three `Prev` methods: `return n.prev`. -/
def Obj.Prev : Obj → Option Node
  | .enter e => e.prev
  | .exit x => x.prev
  | .message m => m.prev

/-- The token indices that the `Un` calls of `cs` pass, in call order. -/
def unArgs : List Call → List Nat
  | [] => []
  | .Un k :: cs => k :: unArgs cs
  | _ :: cs => unArgs cs

/-- The chain `stack` is doubly linked in the heap `h`: the node at position
`i` has the node at position `i + 1` as its `Next()` (nil at the last
position) and the node at position `i - 1` as its `Prev()` (nil at position
0). -/
def Linked (h : Heap) (stack : List Node) : Prop :=
  ∀ (i : Nat) (p : Nat), stack[i]? = some p →
    ∃ o : Obj, h[p]? = some o ∧ o.Next = stack[i + 1]? ∧
      o.Prev = if i = 0 then none else stack[i - 1]?

/-- What holds of a state reached by the calls `pre` when no token has been
passed to `Un` twice: the well-formedness `Inv`; the tokens are distinct, each
an `Exit` whose `Enter` is in the chain, and a token is in the chain only if
`pre` has passed it to `Un`; no node is in the chain twice; the chain is
doubly linked; and a cell that is not in the chain has nil links. -/
structure Sys.Chained (s : Sys) (pre : List Call) : Prop where
  inv : s.Inv
  toks : s.tokens.Nodup
  redeemed : ∀ k x : Nat, s.tokens[k]? = some x → (x ∈ s.t.stack → Call.Un k ∈ pre) ∧
    ∃ nm e, viewAt s.heap x = some (.exit nm (some e)) ∧ e ∈ s.t.stack
  nodup : s.t.stack.Nodup
  linked : Linked s.heap s.t.stack
  free : ∀ (q : Nat) (o : Obj), s.heap[q]? = some o → q ∉ s.t.stack →
    o.Next = none ∧ o.Prev = none

theorem view_SetNext (o : Obj) (n : Node) : (o.SetNext n).view = o.view := by
  cases o <;> rfl

theorem view_SetPrev (o : Obj) (n : Node) : (o.SetPrev n).view = o.view := by
  cases o <;> rfl

theorem viewAt_set (h : Heap) (p q : Nat) (o : Obj) :
    viewAt (h.set p o) q = if p = q ∧ p < h.length then some o.view else viewAt h q := by
  unfold viewAt
  rw [List.getElem?_set]
  by_cases hpq : p = q
  · subst hpq
    by_cases hp : p < h.length
    · simp [hp]
    · simp [hp, List.getElem?_eq_none (Nat.le_of_not_lt hp)]
  · simp [hpq]

theorem viewAt_lt {h : Heap} {p : Nat} {v : View} (hv : viewAt h p = some v) : p < h.length := by
  unfold viewAt at hv
  by_contra hp
  rw [List.getElem?_eq_none (Nat.le_of_not_lt hp)] at hv
  simp at hv

theorem viewAt_some {h : Heap} {p : Nat} {v : View} (hv : viewAt h p = some v) :
    ∃ o, h[p]? = some o ∧ o.view = v := by
  unfold viewAt at hv
  cases ho : h[p]? with
  | none => simp [ho] at hv
  | some o => exact ⟨o, rfl, by simpa [ho] using hv⟩

theorem viewAt_enter {h : Heap} {p : Nat} {nm : String} {par : Option Ptr}
    (hv : viewAt h p = some (.enter nm par)) :
    ∃ e : Enter, h[p]? = some (.enter e) ∧ e.name = nm ∧ e.parent = par := by
  obtain ⟨o, ho, hov⟩ := viewAt_some hv
  cases o with
  | enter e =>
    simp only [Obj.view, View.enter.injEq] at hov
    exact ⟨e, ho, hov.1, hov.2⟩
  | exit x => simp [Obj.view] at hov
  | message m => simp [Obj.view] at hov

theorem viewAt_exit {h : Heap} {p : Nat} {nm : String} {par : Option Ptr}
    (hv : viewAt h p = some (.exit nm par)) :
    ∃ x : Exit, h[p]? = some (.exit x) ∧ x.name = nm ∧ x.parent = par := by
  obtain ⟨o, ho, hov⟩ := viewAt_some hv
  cases o with
  | exit x =>
    simp only [Obj.view, View.exit.injEq] at hov
    exact ⟨x, ho, hov.1, hov.2⟩
  | enter e => simp [Obj.view] at hov
  | message m => simp [Obj.view] at hov

theorem viewAt_message {h : Heap} {p : Nat} {msg : String} {par : Option Ptr}
    (hv : viewAt h p = some (.message msg par)) :
    ∃ m : Message, h[p]? = some (.message m) ∧ m.Message = msg ∧ m.parent = par := by
  obtain ⟨o, ho, hov⟩ := viewAt_some hv
  cases o with
  | message m =>
    simp only [Obj.view, View.message.injEq] at hov
    exact ⟨m, ho, hov.1, hov.2⟩
  | enter e => simp [Obj.view] at hov
  | exit x => simp [Obj.view] at hov

theorem store_keeps (h : Heap) (p : Nat) (f : Obj → Obj) (hf : ∀ o, (f o).view = o.view)
    (hp : p < h.length) :
    ∃ h1, store h p f = some h1 ∧ h1.length = h.length ∧ ∀ q, viewAt h1 q = viewAt h q := by
  obtain ⟨o, ho⟩ : ∃ o, h[p]? = some o := ⟨h[p], List.getElem?_eq_getElem hp⟩
  refine ⟨h.set p (f o), by simp [store, ho], by simp, ?_⟩
  intro q
  rw [viewAt_set]
  split
  · next hc =>
    rw [hf, ← hc.1]
    simp [viewAt, ho]
  · rfl

theorem append1_enter {h : Heap} {t : tracer} {n top : Nat} {nm : String} {par : Option Ptr}
    (hlast : t.stack.getLast? = some top) (htop : top < h.length)
    (hn : viewAt h n = some (.enter nm par)) :
    ∃ h1, t.append1 h n = some (h1, { stack := t.stack ++ [n], where_ := some n }) ∧
      h1.length = h.length ∧ viewAt h1 n = some (.enter nm t.where_) ∧
      ∀ q, q ≠ n → viewAt h1 q = viewAt h q := by
  obtain ⟨ha, hsa, hla, hva⟩ := store_keeps h top (fun o => o.SetNext n)
    (fun o => view_SetNext o n) htop
  obtain ⟨hb, hsb, hlb, hvb⟩ := store_keeps ha n (fun o => o.SetPrev top)
    (fun o => view_SetPrev o top) (by rw [hla]; exact viewAt_lt hn)
  have hnb : viewAt hb n = some (.enter nm par) := by rw [hvb, hva, hn]
  obtain ⟨o, ho, hov⟩ := viewAt_some hnb
  cases o with
  | enter e =>
    refine ⟨hb.set n (.enter { e with parent := t.where_ }), ?_, ?_, ?_, ?_⟩
    · simp [tracer.append1, hlast, hsa, hsb, ho]
    · simp [hlb, hla]
    · rw [viewAt_set]
      have hlt : n < hb.length := viewAt_lt hnb
      simp only [Obj.view, View.enter.injEq] at hov
      simp [hlt, Obj.view, hov.1]
    · intro q hq
      rw [viewAt_set, if_neg (fun hc => hq hc.1.symm), hvb, hva]
  | exit x => simp [Obj.view] at hov
  | message m => simp [Obj.view] at hov

theorem append1_exit {h : Heap} {t : tracer} {n top pp : Nat} {nm pnm : String}
    {ppar : Option Ptr}
    (hlast : t.stack.getLast? = some top) (htop : top < h.length)
    (hn : viewAt h n = some (.exit nm (some pp)))
    (hp : viewAt h pp = some (.enter pnm ppar)) :
    ∃ h1, t.append1 h n = some (h1, { stack := t.stack ++ [n], where_ := ppar }) ∧
      h1.length = h.length ∧ ∀ q, viewAt h1 q = viewAt h q := by
  obtain ⟨ha, hsa, hla, hva⟩ := store_keeps h top (fun o => o.SetNext n)
    (fun o => view_SetNext o n) htop
  obtain ⟨hb, hsb, hlb, hvb⟩ := store_keeps ha n (fun o => o.SetPrev top)
    (fun o => view_SetPrev o top) (by rw [hla]; exact viewAt_lt hn)
  have hnb : viewAt hb n = some (.exit nm (some pp)) := by rw [hvb, hva, hn]
  have hpb : viewAt hb pp = some (.enter pnm ppar) := by rw [hvb, hva, hp]
  obtain ⟨o, ho, hov⟩ := viewAt_some hnb
  obtain ⟨po, hpo, hpov⟩ := viewAt_some hpb
  cases o with
  | exit x =>
    cases po with
    | enter pe =>
      simp only [Obj.view, View.exit.injEq] at hov
      simp only [Obj.view, View.enter.injEq] at hpov
      refine ⟨hb, ?_, by rw [hlb, hla], fun q => by rw [hvb, hva]⟩
      simp [tracer.append1, hlast, hsa, hsb, ho, hov.2, hpo, hpov.2]
    | exit y => simp [Obj.view] at hpov
    | message m => simp [Obj.view] at hpov
  | enter e => simp [Obj.view] at hov
  | message m => simp [Obj.view] at hov

theorem append1_message {h : Heap} {t : tracer} {n top : Nat} {msg : String} {par : Option Ptr}
    (hlast : t.stack.getLast? = some top) (htop : top < h.length)
    (hn : viewAt h n = some (.message msg par)) :
    ∃ h1, t.append1 h n = some (h1, { stack := t.stack ++ [n], where_ := t.where_ }) ∧
      h1.length = h.length ∧ ∀ q, viewAt h1 q = viewAt h q := by
  obtain ⟨ha, hsa, hla, hva⟩ := store_keeps h top (fun o => o.SetNext n)
    (fun o => view_SetNext o n) htop
  obtain ⟨hb, hsb, hlb, hvb⟩ := store_keeps ha n (fun o => o.SetPrev top)
    (fun o => view_SetPrev o top) (by rw [hla]; exact viewAt_lt hn)
  have hnb : viewAt hb n = some (.message msg par) := by rw [hvb, hva, hn]
  obtain ⟨o, ho, hov⟩ := viewAt_some hnb
  cases o with
  | message m =>
    refine ⟨hb, ?_, by rw [hlb, hla], fun q => by rw [hvb, hva]⟩
    simp [tracer.append1, hlast, hsa, hsb, ho]
  | enter e => simp [Obj.view] at hov
  | exit x => simp [Obj.view] at hov

theorem viewAt_new_old (h : Heap) (o : Obj) (q : Nat) (hq : q < h.length) :
    viewAt (new h o).1 q = viewAt h q := by
  simp [viewAt, new, List.getElem?_append_left hq]

theorem viewAt_new_self (h : Heap) (o : Obj) : viewAt (new h o).1 h.length = some o.view := by
  simp [viewAt, new]

theorem getLast?_lt {stack : List Node} {top : Nat} {k : Nat}
    (hs : ∀ p ∈ stack, p < k) (hlast : stack.getLast? = some top) : top < k :=
  hs top (List.mem_of_getLast?_eq_some hlast)

theorem Trace_spec (fmt : Fmt) {h : Heap} {t : tracer} {top : Nat} (caller : String)
    (where_args : List String)
    (hlast : t.stack.getLast? = some top) (htop : top < h.length) :
    ∃ h1, t.Trace fmt h caller where_args =
        some (h1, { stack := t.stack ++ [h.length], where_ := some h.length }, h.length + 1) ∧
      h1.length = h.length + 2 ∧ (∀ q, q < h.length → viewAt h1 q = viewAt h q) ∧
      viewAt h1 h.length = some (.enter (whereToString fmt caller where_args) t.where_) ∧
      viewAt h1 (h.length + 1) =
        some (.exit (whereToString fmt caller where_args) (some h.length)) := by
  let o : Obj := .enter ⟨whereToString fmt caller where_args, none, none, none⟩
  have hlen : (new h o).1.length = h.length + 1 := by simp [new]
  obtain ⟨ha, hsa, hla, hna, hva⟩ := append1_enter (h := (new h o).1) (n := h.length) hlast
    (by rw [hlen]; omega) (viewAt_new_self h o)
  let x : Obj := .exit ⟨whereToString fmt caller where_args, none, none, some h.length⟩
  have hlena : ha.length = h.length + 1 := by rw [hla, hlen]
  refine ⟨(new ha x).1, ?_, ?_, ?_, ?_, ?_⟩
  · simp only [tracer.Trace]
    have : (new h o) = ((new h o).1, h.length) := rfl
    simp only [o] at this hsa
    rw [this]
    simp only [tracer.append, hsa]
    simp [new, hlena, x]
  · simp [new, hlena]
  · intro q hq
    rw [viewAt_new_old _ _ _ (by omega), hva q (by omega), viewAt_new_old _ _ _ hq]
  · rw [viewAt_new_old _ _ _ (by omega), hna]
  · have := viewAt_new_self ha x
    rw [hlena] at this
    exact this

theorem Un_spec {h : Heap} {t : tracer} {top x e : Nat} {nm enm : String} {epar : Option Ptr}
    (hlast : t.stack.getLast? = some top) (htop : top < h.length)
    (hx : viewAt h x = some (.exit nm (some e)))
    (he : viewAt h e = some (.enter enm epar)) :
    ∃ h1, t.Un h (some x) = some (h1, { stack := t.stack ++ [x], where_ := epar }) ∧
      h1.length = h.length ∧ ∀ q, viewAt h1 q = viewAt h q := by
  obtain ⟨ha, hsa, hla, hva⟩ := append1_exit hlast htop hx he
  obtain ⟨o, ho, hov⟩ := viewAt_some hx
  refine ⟨ha, ?_, hla, hva⟩
  cases o with
  | exit y => simp [tracer.Un, ho, tracer.append, hsa]
  | enter y => simp [Obj.view] at hov
  | message y => simp [Obj.view] at hov

theorem Message_spec (fmt : Fmt) {h : Heap} {t : tracer} {top w : Nat} {wnm : String}
    {wpar : Option Ptr} (args : List AnyVal)
    (hlast : t.stack.getLast? = some top) (htop : top < h.length)
    (hw : t.where_ = some w) (hwv : viewAt h w = some (.enter wnm wpar)) :
    ∃ h1, t.Message fmt h args =
        some (h1, { stack := t.stack ++ [h.length], where_ := t.where_ }) ∧
      h1.length = h.length + 1 ∧ (∀ q, q < h.length → viewAt h1 q = viewAt h q) ∧
      viewAt h1 h.length = some (.message (argsToMessage fmt args) t.where_) := by
  let o : Obj := .message ⟨argsToMessage fmt args, none, none, t.where_⟩
  have hlen : (new h o).1.length = h.length + 1 := by simp [new]
  obtain ⟨ha, hsa, hla, hva⟩ := append1_message (h := (new h o).1) (n := h.length) hlast
    (by rw [hlen]; omega) (viewAt_new_self h o)
  obtain ⟨wo, hwo, hwov⟩ := viewAt_some hwv
  refine ⟨ha, ?_, by rw [hla, hlen], ?_, ?_⟩
  · cases wo with
    | enter y =>
      simp only [tracer.Message, hw, hwo]
      have : (new h o) = ((new h o).1, h.length) := rfl
      simp only [o] at this hsa
      rw [← hw, this]
      simp [tracer.append, hsa]
    | exit y => simp [Obj.view] at hwov
    | message y => simp [Obj.view] at hwov
  · intro q hq
    rw [hva, viewAt_new_old _ _ _ hq]
  · rw [hva, viewAt_new_self]
    rfl

theorem Done_spec {h : Heap} {t : tracer} {top root : Nat} {rnm : String} {rpar : Option Ptr}
    (hlast : t.stack.getLast? = some top) (htop : top < h.length)
    (hhead : t.stack.head? = some root) (hr : viewAt h root = some (.enter rnm rpar)) :
    ∃ h1, t.Done h = some (h1, { stack := t.stack ++ [h.length], where_ := rpar }) ∧
      h1.length = h.length + 1 ∧ (∀ q, q < h.length → viewAt h1 q = viewAt h q) ∧
      viewAt h1 h.length = some (.exit END_NODE (some root)) := by
  let o : Obj := .exit { name := END_NODE, next := none, prev := none, parent := some root }
  have hlen : (new h o).1.length = h.length + 1 := by simp [new]
  have hr1 : viewAt (new h o).1 root = some (.enter rnm rpar) := by
    rw [viewAt_new_old _ _ _ (viewAt_lt hr), hr]
  obtain ⟨ha, hsa, hla, hva⟩ := append1_exit (h := (new h o).1) (n := h.length) hlast
    (by rw [hlen]; omega) (viewAt_new_self h o) hr1
  obtain ⟨ro, hro, hrov⟩ := viewAt_some hr
  refine ⟨ha, ?_, by rw [hla, hlen], ?_, ?_⟩
  · cases ro with
    | enter y =>
      simp only [tracer.Done, hhead, hro]
      have : (new h o) = ((new h o).1, h.length) := rfl
      simp only [o] at this hsa
      rw [this]
      simp [tracer.append, hsa]
    | exit y => simp [Obj.view] at hrov
    | message y => simp [Obj.view] at hrov
  · intro q hq
    rw [hva, viewAt_new_old _ _ _ hq]
  · rw [hva, viewAt_new_self]
    rfl

theorem Sys.Ext.refl (s : Sys) : s.Ext s :=
  ⟨Nat.le_refl _, fun _ _ => rfl, ⟨[], by simp⟩, ⟨[], by simp⟩⟩

theorem Sys.Ext.trans {a b c : Sys} (hab : a.Ext b) (hbc : b.Ext c) : a.Ext c := by
  obtain ⟨m1, h1⟩ := hab.toks
  obtain ⟨m2, h2⟩ := hbc.toks
  obtain ⟨n1, k1⟩ := hab.stack
  obtain ⟨n2, k2⟩ := hbc.stack
  refine ⟨Nat.le_trans hab.len hbc.len, fun q hq => ?_, ⟨m1 ++ m2, by rw [h2, h1]; simp⟩,
    ⟨n1 ++ n2, by rw [k2, k1]; simp⟩⟩
  rw [hbc.view q (Nat.lt_of_lt_of_le hq hab.len), hab.view q hq]

theorem Sys.init_Inv : Sys.init.Inv := by
  refine ⟨⟨0, rfl⟩, ?_, rfl, rfl, ?_, ?_, ?_⟩
  · intro p hp
    simp [Sys.init, NewTracer, new] at hp ⊢
    omega
  · intro w hw
    simp [Sys.init, NewTracer, new] at hw
    subst hw
    exact ⟨START_NODE, none, rfl⟩
  · intro x hx
    simp [Sys.init, NewTracer] at hx
  · intro p nm g hp
    have hlt := viewAt_lt hp
    simp [Sys.init, NewTracer, new] at hlt
    subst hlt
    simp [Sys.init, NewTracer, new, viewAt, Obj.view] at hp

theorem Sys.init_Live : Sys.init.Live := by
  refine ⟨⟨0, rfl⟩, ?_⟩
  intro x hx
  simp [Sys.init, NewTracer] at hx

theorem viewAt_ge {h : Heap} {q : Nat} (hq : h.length ≤ q) : viewAt h q = none := by
  simp [viewAt, List.getElem?_eq_none hq]

theorem step_Trace_eq (fmt : Fmt) {s : Sys} (hs : s.Inv) (caller : String)
    (where_args : List String) :
    ∃ h1, s.step fmt (.Trace caller where_args) =
        some { heap := h1, t := { stack := s.t.stack ++ [s.heap.length],
                                  where_ := some s.heap.length },
               tokens := s.tokens ++ [s.heap.length + 1] } ∧
      h1.length = s.heap.length + 2 ∧ (∀ q : Nat, q < s.heap.length → viewAt h1 q = viewAt s.heap q) ∧
      viewAt h1 s.heap.length = some (.enter (whereToString fmt caller where_args) s.t.where_) ∧
      viewAt h1 (s.heap.length + 1) =
        some (.exit (whereToString fmt caller where_args) (some s.heap.length)) := by
  obtain ⟨top, hlast⟩ := hs.last
  obtain ⟨h1, heq, hrest⟩ := Trace_spec fmt caller where_args hlast
    (getLast?_lt hs.stack_lt hlast)
  exact ⟨h1, by simp [Sys.step, heq], hrest⟩

theorem step_Un_eq (fmt : Fmt) {s : Sys} (hs : s.Inv) {k x : Nat} (hk : s.tokens[k]? = some x) :
    ∃ h1 nm e enm epar, s.step fmt (.Un k) =
        some { heap := h1, t := { stack := s.t.stack ++ [x], where_ := epar },
               tokens := s.tokens } ∧
      viewAt s.heap x = some (.exit nm (some e)) ∧ viewAt s.heap e = some (.enter enm epar) ∧
      h1.length = s.heap.length ∧ ∀ q : Nat, viewAt h1 q = viewAt s.heap q := by
  obtain ⟨top, hlast⟩ := hs.last
  obtain ⟨nm, e, enm, epar, hx, he⟩ := hs.tokens x (List.getElem?_mem hk)
  obtain ⟨h1, heq, hl, hv⟩ := Un_spec hlast (getLast?_lt hs.stack_lt hlast) hx he
  exact ⟨h1, nm, e, enm, epar, by simp [Sys.step, hk, heq], hx, he, hl, hv⟩

theorem step_Message_eq (fmt : Fmt) {s : Sys} (hs : s.Inv) {w : Nat} (hw : s.t.where_ = some w)
    (args : List AnyVal) :
    ∃ h1, s.step fmt (.Message args) =
        some { heap := h1, t := { stack := s.t.stack ++ [s.heap.length], where_ := s.t.where_ },
               tokens := s.tokens } ∧
      h1.length = s.heap.length + 1 ∧ (∀ q : Nat, q < s.heap.length → viewAt h1 q = viewAt s.heap q) ∧
      viewAt h1 s.heap.length = some (.message (argsToMessage fmt args) s.t.where_) := by
  obtain ⟨top, hlast⟩ := hs.last
  obtain ⟨wnm, wpar, hwv⟩ := hs.where_enter w hw
  obtain ⟨h1, heq, hrest⟩ := Message_spec fmt args hlast (getLast?_lt hs.stack_lt hlast) hw hwv
  exact ⟨h1, by simp [Sys.step, heq], hrest⟩

theorem step_Done_eq (fmt : Fmt) {s : Sys} (hs : s.Inv) :
    ∃ h1, s.step fmt .Done =
        some { heap := h1, t := { stack := s.t.stack ++ [s.heap.length], where_ := none },
               tokens := s.tokens } ∧
      h1.length = s.heap.length + 1 ∧ (∀ q : Nat, q < s.heap.length → viewAt h1 q = viewAt s.heap q) ∧
      viewAt h1 s.heap.length = some (.exit END_NODE (some 0)) := by
  obtain ⟨top, hlast⟩ := hs.last
  obtain ⟨h1, heq, hrest⟩ := Done_spec hlast (getLast?_lt hs.stack_lt hlast) hs.head hs.root
  exact ⟨h1, by simp [Sys.step, heq], hrest⟩

theorem step_Message_nil (fmt : Fmt) {s : Sys} (hw : s.t.where_ = none) (args : List AnyVal) :
    s.step fmt (.Message args) = none := by
  simp [Sys.step, tracer.Message, hw]

theorem step_Inv (fmt : Fmt) {s s1 : Sys} (c : Call) (hs : s.Inv) (hstep : s.step fmt c = some s1) :
    s1.Inv ∧ s.Ext s1 := by
  obtain ⟨top, hlast⟩ := hs.last
  have h0 : 0 < s.heap.length := viewAt_lt hs.root
  have hne : s.t.stack ≠ [] := by
    intro hnil
    simp [hnil] at hlast
  cases c with
  | Trace caller where_args =>
    obtain ⟨h1, heq, hl, hv, hen, hex⟩ := step_Trace_eq fmt hs caller where_args
    rw [heq] at hstep
    cases hstep
    refine ⟨⟨⟨s.heap.length, by simp⟩, ?_, ?_, ?_, ?_, ?_, ?_⟩,
      ⟨by simp only [hl]; omega, hv, ⟨_, rfl⟩, ⟨_, rfl⟩⟩⟩
    · intro p hp
      simp only [List.mem_append, List.mem_singleton] at hp
      rcases hp with hp | hp
      · have := hs.stack_lt p hp
        simp only [hl]
        omega
      · simp only [hl]
        omega
    · simp only [List.head?_append_of_ne_nil _ hne, hs.head]
    · simp only [hv 0 h0, hs.root]
    · intro w hw
      simp only [Option.some.injEq] at hw
      subst hw
      exact ⟨_, _, hen⟩
    · intro x hx
      simp only [List.mem_append, List.mem_singleton] at hx
      rcases hx with hx | hx
      · obtain ⟨nm, e, enm, epar, h1x, h1e⟩ := hs.tokens x hx
        exact ⟨nm, e, enm, epar, by simp only [hv x (viewAt_lt h1x), h1x],
          by simp only [hv e (viewAt_lt h1e), h1e]⟩
      · subst hx
        exact ⟨_, _, _, _, hex, hen⟩
    · intro p nm g hp
      have hplt := viewAt_lt hp
      simp only [hl] at hplt
      by_cases hpo : p < s.heap.length
      · simp only [hv p hpo] at hp
        obtain ⟨hg, gnm, gpar, hgv⟩ := hs.parents p nm g hp
        exact ⟨hg, gnm, gpar, by simp only [hv g (viewAt_lt hgv), hgv]⟩
      · by_cases hpe : p = s.heap.length
        · subst hpe
          simp only [hen, Option.some.injEq, View.enter.injEq] at hp
          obtain ⟨gnm, gpar, hgv⟩ := hs.where_enter g hp.2
          exact ⟨viewAt_lt hgv, gnm, gpar, by simp only [hv g (viewAt_lt hgv), hgv]⟩
        · have hpx : p = s.heap.length + 1 := by omega
          subst hpx
          simp [hex] at hp
  | Un k =>
    cases hk : s.tokens[k]? with
    | none => simp [Sys.step, tracer.Un, hk] at hstep
    | some x =>
      obtain ⟨h1, nm, e, enm, epar, heq, hx, he, hl, hv⟩ := step_Un_eq fmt hs hk
      rw [heq] at hstep
      cases hstep
      refine ⟨⟨⟨x, by simp⟩, ?_, ?_, ?_, ?_, ?_, ?_⟩,
        ⟨by simp only [hl]; omega, fun q _ => hv q, ⟨[], by simp⟩, ⟨_, rfl⟩⟩⟩
      · intro p hp
        simp only [List.mem_append, List.mem_singleton] at hp
        simp only [hl]
        rcases hp with hp | hp
        · exact hs.stack_lt p hp
        · subst hp
          exact viewAt_lt hx
      · simp only [List.head?_append_of_ne_nil _ hne, hs.head]
      · simp only [hv, hs.root]
      · intro w hw
        simp only at hw
        subst hw
        simp only [hv]
        exact (hs.parents e enm w he).2
      · intro y hy
        simp only [hv]
        exact hs.tokens y hy
      · intro p pnm g hp
        simp only [hv] at hp ⊢
        exact hs.parents p pnm g hp
  | Message args =>
    cases hw : s.t.where_ with
    | none => simp [step_Message_nil fmt hw] at hstep
    | some w =>
      obtain ⟨h1, heq, hl, hv, hm⟩ := step_Message_eq fmt hs hw args
      rw [heq] at hstep
      cases hstep
      refine ⟨⟨⟨s.heap.length, by simp⟩, ?_, ?_, ?_, ?_, ?_, ?_⟩,
        ⟨by simp only [hl]; omega, hv, ⟨[], by simp⟩, ⟨_, rfl⟩⟩⟩
      · intro p hp
        simp only [List.mem_append, List.mem_singleton] at hp
        simp only [hl]
        rcases hp with hp | hp
        · have := hs.stack_lt p hp
          omega
        · omega
      · simp only [List.head?_append_of_ne_nil _ hne, hs.head]
      · simp only [hv 0 h0, hs.root]
      · intro w1 hw1
        obtain ⟨wnm, wpar, hwv⟩ := hs.where_enter w1 hw1
        exact ⟨wnm, wpar, by simp only [hv w1 (viewAt_lt hwv), hwv]⟩
      · intro x hx
        obtain ⟨nm, e, enm, epar, h1x, h1e⟩ := hs.tokens x hx
        exact ⟨nm, e, enm, epar, by simp only [hv x (viewAt_lt h1x), h1x],
          by simp only [hv e (viewAt_lt h1e), h1e]⟩
      · intro p nm g hp
        have hplt := viewAt_lt hp
        simp only [hl] at hplt
        by_cases hpo : p < s.heap.length
        · simp only [hv p hpo] at hp
          obtain ⟨hg, gnm, gpar, hgv⟩ := hs.parents p nm g hp
          exact ⟨hg, gnm, gpar, by simp only [hv g (viewAt_lt hgv), hgv]⟩
        · have hpe : p = s.heap.length := by omega
          subst hpe
          simp [hm] at hp
  | Done =>
    obtain ⟨h1, heq, hl, hv, hx⟩ := step_Done_eq fmt hs
    rw [heq] at hstep
    cases hstep
    refine ⟨⟨⟨s.heap.length, by simp⟩, ?_, ?_, ?_, ?_, ?_, ?_⟩,
      ⟨by simp only [hl]; omega, hv, ⟨[], by simp⟩, ⟨_, rfl⟩⟩⟩
    · intro p hp
      simp only [List.mem_append, List.mem_singleton] at hp
      simp only [hl]
      rcases hp with hp | hp
      · have := hs.stack_lt p hp
        omega
      · omega
    · simp only [List.head?_append_of_ne_nil _ hne, hs.head]
    · simp only [hv 0 h0, hs.root]
    · intro w1 hw1
      simp at hw1
    · intro x hx
      obtain ⟨nm, e, enm, epar, h1x, h1e⟩ := hs.tokens x hx
      exact ⟨nm, e, enm, epar, by simp only [hv x (viewAt_lt h1x), h1x],
        by simp only [hv e (viewAt_lt h1e), h1e]⟩
    · intro p nm g hp
      have hplt := viewAt_lt hp
      simp only [hl] at hplt
      by_cases hpo : p < s.heap.length
      · simp only [hv p hpo] at hp
        obtain ⟨hg, gnm, gpar, hgv⟩ := hs.parents p nm g hp
        exact ⟨hg, gnm, gpar, by simp only [hv g (viewAt_lt hgv), hgv]⟩
      · have hpe : p = s.heap.length := by omega
        subst hpe
        simp [hx] at hp

theorem run_append (fmt : Fmt) (s : Sys) (cs ds : List Call) :
    s.run fmt (cs ++ ds) = (s.run fmt cs).bind (fun s1 => s1.run fmt ds) := by
  induction cs generalizing s with
  | nil => rfl
  | cons c cs ih =>
    simp only [List.cons_append, Sys.run]
    cases s.step fmt c with
    | none => rfl
    | some s1 => exact ih s1

theorem run_Inv (fmt : Fmt) {s s1 : Sys} (cs : List Call) (hs : s.Inv)
    (hrun : s.run fmt cs = some s1) : s1.Inv ∧ s.Ext s1 := by
  induction cs generalizing s with
  | nil =>
    simp only [Sys.run, Option.some.injEq] at hrun
    subst hrun
    exact ⟨hs, Sys.Ext.refl s⟩
  | cons c cs ih =>
    simp only [Sys.run] at hrun
    cases hstep : s.step fmt c with
    | none => simp [hstep] at hrun
    | some s2 =>
      simp only [hstep] at hrun
      obtain ⟨h2, e2⟩ := step_Inv fmt c hs hstep
      obtain ⟨h3, e3⟩ := ih h2 hrun
      exact ⟨h3, e2.trans e3⟩

theorem reach_Inv (fmt : Fmt) {s : Sys} (cs : List Call) (hrun : Sys.init.run fmt cs = some s) :
    s.Inv :=
  (run_Inv fmt cs Sys.init_Inv hrun).1

theorem step_Live (fmt : Fmt) {s : Sys} (c : Call) (hs : s.Inv) (hl : s.Live)
    (hv : validFrom s.tokens.length [c] = true) :
    ∃ s1, s.step fmt c = some s1 ∧ s1.Live ∧ s1.t.stack.length = s.t.stack.length + 1 ∧
      s1.tokens.length = s.tokens.length + countTrace [c] := by
  obtain ⟨w, hw⟩ := hl.where_some
  cases c with
  | Trace caller where_args =>
    obtain ⟨h1, heq, hlen, hvw, hen, hex⟩ := step_Trace_eq fmt hs caller where_args
    refine ⟨_, heq, ⟨⟨_, rfl⟩, ?_⟩, by simp, by simp [countTrace]⟩
    intro x hx
    simp only [List.mem_append, List.mem_singleton] at hx
    rcases hx with hx | hx
    · obtain ⟨nm, e, enm, g, h1x, h1e⟩ := hl.tokens x hx
      exact ⟨nm, e, enm, g, by simp only [hvw x (viewAt_lt h1x), h1x],
        by simp only [hvw e (viewAt_lt h1e), h1e]⟩
    · subst hx
      exact ⟨_, _, _, w, hex, by rw [hen, hw]⟩
  | Un k =>
    simp only [validFrom, Bool.and_true, decide_eq_true_eq] at hv
    obtain ⟨x, hk⟩ : ∃ x, s.tokens[k]? = some x := ⟨s.tokens[k], List.getElem?_eq_getElem hv⟩
    obtain ⟨h1, nm, e, enm, epar, heq, hx, he, hlen, hvw⟩ := step_Un_eq fmt hs hk
    obtain ⟨nm1, e1, enm1, g, h1x, h1e⟩ := hl.tokens x (List.getElem?_mem hk)
    rw [hx] at h1x
    simp only [Option.some.injEq, View.exit.injEq] at h1x
    obtain ⟨_, he1⟩ := h1x
    subst he1
    rw [he] at h1e
    simp only [Option.some.injEq, View.enter.injEq] at h1e
    refine ⟨_, heq, ⟨⟨g, h1e.2⟩, ?_⟩, by simp, by simp [countTrace]⟩
    intro y hy
    simp only [hvw]
    exact hl.tokens y hy
  | Message args =>
    obtain ⟨h1, heq, hlen, hvw, hm⟩ := step_Message_eq fmt hs hw args
    refine ⟨_, heq, ⟨⟨w, hw⟩, ?_⟩, by simp, by simp [countTrace]⟩
    intro x hx
    obtain ⟨nm, e, enm, g, h1x, h1e⟩ := hl.tokens x hx
    exact ⟨nm, e, enm, g, by simp only [hvw x (viewAt_lt h1x), h1x],
      by simp only [hvw e (viewAt_lt h1e), h1e]⟩
  | Done => simp [validFrom] at hv

theorem validFrom_cons (n : Nat) (c : Call) (cs : List Call) :
    validFrom n (c :: cs) = (validFrom n [c] && validFrom (n + countTrace [c]) cs) := by
  cases c <;> simp [validFrom, countTrace]

theorem run_Live (fmt : Fmt) {s : Sys} (cs : List Call) (hs : s.Inv) (hl : s.Live)
    (hv : validFrom s.tokens.length cs = true) :
    ∃ s1, s.run fmt cs = some s1 ∧ s1.Inv ∧ s1.Live ∧ s.Ext s1 ∧
      s1.t.stack.length = s.t.stack.length + cs.length := by
  induction cs generalizing s with
  | nil => exact ⟨s, rfl, hs, hl, Sys.Ext.refl s, rfl⟩
  | cons c cs ih =>
    rw [validFrom_cons, Bool.and_eq_true] at hv
    obtain ⟨s1, hstep, hl1, hlen1, htok1⟩ := step_Live fmt c hs hl hv.1
    obtain ⟨hs1, e1⟩ := step_Inv fmt c hs hstep
    obtain ⟨s2, hrun, hs2, hl2, e2, hlen2⟩ := ih hs1 hl1 (by rw [htok1]; exact hv.2)
    refine ⟨s2, by simp [Sys.run, hstep, hrun], hs2, hl2, e1.trans e2, ?_⟩
    rw [hlen2, hlen1, List.length_cons]
    omega

theorem nestFrom_valid {α : Type} (nm : String → List String → α) (cs : List Call) :
    ∀ (n : Nat) (os os1 : List (Nat × α)), nestFrom nm n os cs = some os1 →
      (∀ o ∈ os, o.1 < n) →
      validFrom n cs = true ∧ os1.length + countUn cs = os.length + countTrace cs ∧
        cs.length = countTrace cs + countUn cs + countMessage cs := by
  induction cs with
  | nil =>
    intro n os os1 h _
    simp only [nestFrom, Option.some.injEq] at h
    subst h
    simp [validFrom, countTrace, countUn, countMessage]
  | cons c cs ih =>
    intro n os os1 h hlt
    cases c with
    | Trace caller where_args =>
      simp only [nestFrom] at h
      have hlt1 : ∀ o ∈ (n, nm caller where_args) :: os, o.1 < n + 1 := by
        intro o ho
        simp only [List.mem_cons] at ho
        rcases ho with ho | ho
        · subst ho
          exact Nat.lt_succ_self n
        · exact Nat.lt_succ_of_lt (hlt o ho)
      obtain ⟨hv, hc, hlen⟩ := ih (n + 1) _ os1 h hlt1
      simp only [List.length_cons] at hc
      refine ⟨by simpa [validFrom] using hv, ?_, ?_⟩
      · simp only [countTrace, countUn]
        omega
      · simp only [List.length_cons, countTrace, countUn, countMessage]
        omega
    | Un k =>
      cases os with
      | nil => simp [nestFrom] at h
      | cons o os =>
        simp only [nestFrom] at h
        by_cases hk : k = o.1
        · simp only [hk, if_true] at h
          obtain ⟨hv, hc, hlen⟩ := ih n os os1 h (fun o1 ho1 => hlt o1 (List.mem_cons_of_mem _ ho1))
          have hko : k < n := by
            rw [hk]
            exact hlt o (List.mem_cons_self _ _)
          refine ⟨by simp [validFrom, hko, hv], ?_, ?_⟩
          · simp only [countTrace, countUn, List.length_cons]
            omega
          · simp only [List.length_cons, countTrace, countUn, countMessage]
            omega
        · simp [hk] at h
    | Message args =>
      simp only [nestFrom] at h
      obtain ⟨hv, hc, hlen⟩ := ih n os os1 h hlt
      refine ⟨by simpa [validFrom] using hv, ?_, ?_⟩
      · simp only [countTrace, countUn]
        omega
      · simp only [List.length_cons, countTrace, countUn, countMessage]
        omega
    | Done => simp [nestFrom] at h

theorem walkLoop_logged_nil {σ : Type} (fn : Node → σ → σ × Option GoError)
    (hnil : ∀ node x, (fn node x).2 = none) (stack : List Node) :
    ∀ (log : List Node) (s0 : σ), (walkLoop (logged fn) stack (log, s0)).2 = none ∧
      (walkLoop (logged fn) stack (log, s0)).1.1 = log ++ stack := by
  induction stack with
  | nil =>
    intro log s0
    simp [walkLoop]
  | cons node rest ih =>
    intro log s0
    have hstep : logged fn node (log, s0) = ((log ++ [node], (fn node s0).1), none) := by
      simp [logged, hnil]
    simp only [walkLoop, hstep]
    obtain ⟨h1, h2⟩ := ih (log ++ [node]) (fn node s0).1
    exact ⟨h1, by rw [h2]; simp⟩

theorem ToWalkable_exit_END {h : Heap} {t : tracer} {last : Nat} {par : Option Ptr}
    (hlast : t.stack.getLast? = some last) (hv : viewAt h last = some (.exit END_NODE par)) :
    t.ToWalkable h = some (.ok t) := by
  obtain ⟨o, ho, hov⟩ := viewAt_some hv
  cases o with
  | exit x =>
    simp only [Obj.view, View.exit.injEq] at hov
    simp [tracer.ToWalkable, hlast, ho, hov.1]
  | enter e => simp [Obj.view] at hov
  | message m => simp [Obj.view] at hov

theorem run_then_Done (fmt : Fmt) (cs : List Call) (hv : validFrom 0 cs = true) :
    ∃ s1 h1, Sys.init.run fmt cs = some s1 ∧ s1.Inv ∧ s1.Live ∧
      s1.t.stack.length = 1 + cs.length ∧
      Sys.init.run fmt (cs ++ [.Done]) =
        some { heap := h1, t := { stack := s1.t.stack ++ [s1.heap.length], where_ := none },
               tokens := s1.tokens } ∧
      h1.length = s1.heap.length + 1 ∧
      (∀ q : Nat, q < s1.heap.length → viewAt h1 q = viewAt s1.heap q) ∧
      viewAt h1 s1.heap.length = some (.exit END_NODE (some 0)) := by
  obtain ⟨s1, hrun, hs1, hl1, _, hlen⟩ := run_Live fmt cs Sys.init_Inv Sys.init_Live hv
  obtain ⟨h1, heq, hrest⟩ := step_Done_eq fmt hs1
  refine ⟨s1, h1, hrun, hs1, hl1, ?_, ?_, hrest⟩
  · rw [hlen]
    simp [Sys.init, NewTracer, new]
  · rw [run_append, hrun]
    simp [Sys.run, heq]

/-- Claim C1. For every balanced sequence of `Trace`/`Un` calls with `Message`
calls interleaved, made on a new tracer and followed by one `Done`, the run does
not panic, `ToWalkable` returns the tracer and no error, and `Walk` with a
visitor that returns nil invokes it on the chain nodes, exactly `2 + 2*D + M`
times (`D` scopes, `M` messages), and returns nil; the first node is the root
`Enter` and the last the root `Exit`, so with no calls at all these 2 nodes
are the walk. -/
theorem C1_balanced_walk_count (fmt : Fmt) (cs : List Call) (hb : balanced cs = true) :
    ∃ s, Sys.init.run fmt (cs ++ [.Done]) = some s ∧
      s.t.ToWalkable s.heap = some (.ok s.t) ∧
      (∃ (first last : Nat) (R : Enter) (X : Exit), s.t.stack.head? = some first ∧
        s.heap[first]? = some (.enter R) ∧ R.name = START_NODE ∧
        s.t.stack.getLast? = some last ∧ s.heap[last]? = some (.exit X) ∧
        X.name = END_NODE ∧ X.parent = some first) ∧
      ∀ (σ : Type) (fn : Node → σ → σ × Option GoError) (s0 : σ),
        (∀ node x, (fn node x).2 = none) →
        (s.t.Walk (logged fn) ([], s0)).2 = none ∧
        (s.t.Walk (logged fn) ([], s0)).1.1 = s.t.stack ∧
        (s.t.Walk (logged fn) ([], s0)).1.1.length = 2 + 2 * countTrace cs + countMessage cs := by
  unfold balanced at hb
  cases hn : nestFrom (fun _ _ => ()) 0 [] cs with
  | none => simp [hn] at hb
  | some os =>
    cases os with
    | cons o os => simp [hn] at hb
    | nil =>
      obtain ⟨hv, hc, hlen⟩ := nestFrom_valid _ cs 0 [] [] hn (by simp)
      obtain ⟨s1, h1, _, hs1, _, hslen, hrun, _, hview, hx⟩ := run_then_Done fmt cs hv
      obtain ⟨top, hlast⟩ := hs1.last
      have hne : s1.t.stack ≠ [] := by
        intro hnil
        simp [hnil] at hlast
      have hroot : viewAt h1 0 = some (.enter START_NODE none) := by
        rw [hview 0 (viewAt_lt hs1.root), hs1.root]
      obtain ⟨R, hR, hRn, _⟩ := viewAt_enter hroot
      obtain ⟨X, hX, hXn, hXp⟩ := viewAt_exit hx
      refine ⟨_, hrun, ToWalkable_exit_END (t := ⟨s1.t.stack ++ [s1.heap.length], none⟩)
        (by simp) hx, ⟨0, s1.heap.length, R, X, ?_, hR, hRn, by simp, hX, hXn, hXp⟩, ?_⟩
      · simp only [List.head?_append_of_ne_nil _ hne, hs1.head]
      · intro σ fn s0 hnil
        obtain ⟨ha, hb1⟩ := walkLoop_logged_nil fn hnil (s1.t.stack ++ [s1.heap.length]) [] s0
        refine ⟨ha, by simpa [tracer.Walk] using hb1, ?_⟩
        simp only [tracer.Walk, hb1, List.nil_append, List.length_append, List.length_singleton,
          hslen, hlen]
        simp only [List.length_nil, Nat.zero_add] at hc
        omega

/-- Scenario A of the specification as an instance of C1: two nested scopes
and two messages are walked in 8 nodes. -/
theorem C1_balanced_walk_count_witness :
    ∃ fmt : Fmt, balanced [.Trace "" ["first"], .Message [.str "First"], .Trace "" ["second"],
        .Message [.str "Second"], .Un 1, .Un 0] = true ∧
      ∃ s, Sys.init.run fmt ([.Trace "" ["first"], .Message [.str "First"],
          .Trace "" ["second"], .Message [.str "Second"], .Un 1, .Un 0] ++ [.Done]) = some s ∧
        s.t.ToWalkable s.heap = some (.ok s.t) ∧
        (∃ (first last : Nat) (R : Enter) (X : Exit), s.t.stack.head? = some first ∧
          s.heap[first]? = some (.enter R) ∧ R.name = START_NODE ∧
          s.t.stack.getLast? = some last ∧ s.heap[last]? = some (.exit X) ∧
          X.name = END_NODE ∧ X.parent = some first) ∧
        ∀ (σ : Type) (fn : Node → σ → σ × Option GoError) (s0 : σ),
          (∀ node x, (fn node x).2 = none) →
          (s.t.Walk (logged fn) ([], s0)).2 = none ∧
          (s.t.Walk (logged fn) ([], s0)).1.1 = s.t.stack ∧
          (s.t.Walk (logged fn) ([], s0)).1.1.length = 2 + 2 * 2 + 2 :=
  ⟨⟨fun _ _ => "", fun _ => ""⟩, by decide,
    C1_balanced_walk_count _ [.Trace "" ["first"], .Message [.str "First"], .Trace "" ["second"],
      .Message [.str "Second"], .Un 1, .Un 0] (by decide)⟩

theorem chainPayloads_snoc {h h1 : Heap} {stack : List Node} (n : Nat)
    (hv : ∀ q : Nat, q ∈ stack → viewAt h1 q = viewAt h q) :
    chainPayloads h1 (stack ++ [n]) = chainPayloads h stack ++ chainPayloads h1 [n] := by
  unfold chainPayloads
  rw [List.filterMap_append]
  congr 1
  apply List.filterMap_congr
  intro q hq
  rw [hv q hq]

theorem step_payloads (fmt : Fmt) {s s1 : Sys} (c : Call) (hs : s.Inv)
    (hstep : s.step fmt c = some s1) :
    chainPayloads s1.heap s1.t.stack = chainPayloads s.heap s.t.stack ++ payloads fmt [c] := by
  cases c with
  | Trace caller where_args =>
    obtain ⟨h1, heq, hl, hv, hen, hex⟩ := step_Trace_eq fmt hs caller where_args
    rw [heq] at hstep
    cases hstep
    rw [chainPayloads_snoc (h := s.heap) _ (fun q hq => hv q (hs.stack_lt q hq))]
    simp [chainPayloads, hen, payloads]
  | Un k =>
    cases hk : s.tokens[k]? with
    | none => simp [Sys.step, tracer.Un, hk] at hstep
    | some x =>
      obtain ⟨h1, nm, e, enm, epar, heq, hx, he, hl, hv⟩ := step_Un_eq fmt hs hk
      rw [heq] at hstep
      cases hstep
      rw [chainPayloads_snoc (h := s.heap) _ (fun q _ => hv q)]
      simp [chainPayloads, hv, hx, payloads]
  | Message args =>
    cases hw : s.t.where_ with
    | none => simp [step_Message_nil fmt hw] at hstep
    | some w =>
      obtain ⟨h1, heq, hl, hv, hm⟩ := step_Message_eq fmt hs hw args
      rw [heq] at hstep
      cases hstep
      rw [chainPayloads_snoc (h := s.heap) _ (fun q hq => hv q (hs.stack_lt q hq))]
      simp [chainPayloads, hm, payloads]
  | Done =>
    obtain ⟨h1, heq, hl, hv, hx⟩ := step_Done_eq fmt hs
    rw [heq] at hstep
    cases hstep
    rw [chainPayloads_snoc (h := s.heap) _ (fun q hq => hv q (hs.stack_lt q hq))]
    simp [chainPayloads, hx, payloads]

theorem payloads_cons (fmt : Fmt) (c : Call) (cs : List Call) :
    payloads fmt (c :: cs) = payloads fmt [c] ++ payloads fmt cs := by
  cases c <;> simp [payloads]

theorem payloads_append (fmt : Fmt) (cs ds : List Call) :
    payloads fmt (cs ++ ds) = payloads fmt cs ++ payloads fmt ds := by
  induction cs with
  | nil => simp [payloads]
  | cons c cs ih =>
    rw [List.cons_append, payloads_cons, ih, payloads_cons fmt c cs, List.append_assoc]

theorem payloads_length (fmt : Fmt) (cs : List Call) :
    (payloads fmt cs).length = countMessage cs := by
  induction cs with
  | nil => rfl
  | cons c cs ih => cases c <;> simp [payloads, countMessage, ih]

theorem run_payloads (fmt : Fmt) {s s1 : Sys} (cs : List Call) (hs : s.Inv)
    (hrun : s.run fmt cs = some s1) :
    chainPayloads s1.heap s1.t.stack = chainPayloads s.heap s.t.stack ++ payloads fmt cs := by
  induction cs generalizing s with
  | nil =>
    simp only [Sys.run, Option.some.injEq] at hrun
    subst hrun
    simp [payloads]
  | cons c cs ih =>
    simp only [Sys.run] at hrun
    cases hstep : s.step fmt c with
    | none => simp [hstep] at hrun
    | some s2 =>
      simp only [hstep] at hrun
      rw [ih (step_Inv fmt c hs hstep).1 hrun, step_payloads fmt c hs hstep, payloads_cons fmt c cs,
        List.append_assoc]

theorem walkLoop_collect (h : Heap) (stack : List Node) :
    ∀ acc : List Message, ((walkLoop (collectMessage h) stack acc).1).map (fun m => m.Message) =
      acc.map (fun m => m.Message) ++ chainPayloads h stack := by
  induction stack with
  | nil =>
    intro acc
    simp [walkLoop, chainPayloads]
  | cons n rest ih =>
    intro acc
    have hcons : chainPayloads h (n :: rest) = chainPayloads h [n] ++ chainPayloads h rest := by
      simp [chainPayloads, List.filterMap_cons]
      cases viewAt h n with
      | none => rfl
      | some v => cases v <;> rfl
    rw [hcons]
    cases ho : h[n]? with
    | none =>
      simp [walkLoop, collectMessage, ho, ih, chainPayloads, viewAt]
    | some o =>
      cases o with
      | enter e => simp [walkLoop, collectMessage, ho, ih, chainPayloads, viewAt, Obj.view]
      | exit x => simp [walkLoop, collectMessage, ho, ih, chainPayloads, viewAt, Obj.view]
      | message m => simp [walkLoop, collectMessage, ho, ih, chainPayloads, viewAt, Obj.view]

/-- Claim C2. For every sequence of `Trace`/`Un`/`Message` calls on a new
tracer (each `Un` passing a token some earlier `Trace` returned) followed by
`Done`, `Messages()` returns exactly one `Message` per `Message` call, and
their payloads are those of the calls, in call order, whatever the nesting. -/
theorem C2_messages_in_call_order (fmt : Fmt) (cs : List Call) (hv : validFrom 0 cs = true) :
    ∃ s ms, Sys.init.run fmt (cs ++ [.Done]) = some s ∧ s.t.Messages s.heap = some ms ∧
      ms.map (fun m => m.Message) = payloads fmt cs ∧ ms.length = countMessage cs := by
  obtain ⟨s1, h1, _, _, _, _, hrun, _, _, hx⟩ := run_then_Done fmt cs hv
  have hw := ToWalkable_exit_END (t := ⟨s1.t.stack ++ [s1.heap.length], none⟩) (by simp) hx
  have hp := run_payloads fmt (cs ++ [.Done]) Sys.init_Inv hrun
  have h0 : chainPayloads Sys.init.heap Sys.init.t.stack = [] := by decide
  rw [h0, payloads_append] at hp
  simp only [payloads, List.append_nil, List.nil_append] at hp
  have hm := walkLoop_collect h1 (s1.t.stack ++ [s1.heap.length]) []
  simp only [List.map_nil, List.nil_append] at hm
  refine ⟨_, (walkLoop (collectMessage h1) (s1.t.stack ++ [s1.heap.length]) []).1, hrun,
    by simp only [tracer.Messages, hw, tracer.Walk], ?_, ?_⟩
  · rw [hm, hp]
  · have hlen := congrArg List.length (hm.trans hp)
    simpa [payloads_length] using hlen

/-- The example of claim C2, as an instance: the payloads come out as
`[First, Second]`. -/
theorem C2_messages_in_call_order_witness :
    ∃ fmt : Fmt, validFrom 0 [.Trace "" ["first"], .Message [.str "First"],
        .Trace "" ["second"], .Message [.str "Second"], .Un 1, .Un 0] = true ∧
      ∃ s ms, Sys.init.run fmt ([.Trace "" ["first"], .Message [.str "First"],
          .Trace "" ["second"], .Message [.str "Second"], .Un 1, .Un 0] ++ [.Done]) = some s ∧
        s.t.Messages s.heap = some ms ∧
        ms.map (fun m => m.Message) = ["First", "Second"] ∧ ms.length = 2 :=
  ⟨⟨fun _ _ => "", fun _ => ""⟩, by decide,
    C2_messages_in_call_order _ [.Trace "" ["first"], .Message [.str "First"],
      .Trace "" ["second"], .Message [.str "Second"], .Un 1, .Un 0] (by decide)⟩

theorem stackLoop_enter {h : Heap} {n : Nat} {nm : String} {par : Option Ptr}
    (hv : viewAt h n = some (.enter nm par)) (fuel : Nat) (acc : List String) :
    stackLoop h (fuel + 1) (some n) acc =
      if nm = START_NODE then some acc else stackLoop h fuel par (acc ++ [nm]) := by
  obtain ⟨o, ho, hov⟩ := viewAt_some hv
  cases o with
  | enter e =>
    simp only [Obj.view, View.enter.injEq] at hov
    simp [stackLoop, ho, hov.1, hov.2]
  | exit x => simp [Obj.view] at hov
  | message m => simp [Obj.view] at hov

theorem NChain_ext {h : Heap} (h1 : Heap) {tokens : List Ptr} (more : List Ptr)
    (os : List (Nat × String)) :
    ∀ w : Option Ptr, NChain h tokens w os →
      (∀ q : Nat, q < h.length → viewAt h1 q = viewAt h q) →
      NChain h1 (tokens ++ more) w os := by
  induction os with
  | nil =>
    intro w hc _
    exact hc
  | cons o os ih =>
    intro w hc hv
    obtain ⟨x, e, g, hx, hxv, hw, hev, hg, hrest⟩ := hc
    refine ⟨x, e, g, ?_, ?_, hw, ?_, hg, ih _ hrest hv⟩
    · obtain ⟨hlt, _⟩ := List.getElem?_eq_some.mp hx
      rw [List.getElem?_append_left hlt]
      exact hx
    · rw [hv x (viewAt_lt hxv), hxv]
    · rw [hv e (viewAt_lt hev), hev]

theorem NChain_stackLoop {h : Heap} {tokens : List Ptr}
    (hroot : viewAt h 0 = some (.enter START_NODE none)) (os : List (Nat × String)) :
    ∀ (w : Option Ptr) (fuel : Nat) (acc : List String), NChain h tokens w os →
      (∀ e : Nat, w = some e → e < fuel) →
      stackLoop h fuel w acc =
        some (acc ++ (os.map (fun o => o.2)).takeWhile (fun nm => decide (nm ≠ START_NODE))) := by
  induction os with
  | nil =>
    intro w fuel acc hc hf
    simp only [NChain] at hc
    subst hc
    have h0 := hf 0 rfl
    obtain ⟨f, rfl⟩ : ∃ f, fuel = f + 1 := ⟨fuel - 1, by omega⟩
    rw [stackLoop_enter hroot]
    simp
  | cons o os ih =>
    intro w fuel acc hc hf
    obtain ⟨x, e, g, hx, hxv, hw, hev, hg, hrest⟩ := hc
    subst hw
    have h0 := hf e rfl
    obtain ⟨f, rfl⟩ : ∃ f, fuel = f + 1 := ⟨fuel - 1, by omega⟩
    rw [stackLoop_enter hev]
    by_cases hnm : o.2 = START_NODE
    · simp [hnm]
    · rw [if_neg hnm, ih (some g) f (acc ++ [o.2]) hrest (fun e1 he1 => by
        cases he1
        omega)]
      simp [hnm]

theorem nest_run (fmt : Fmt) (cs : List Call) :
    ∀ (s : Sys) (os os1 : List (Nat × String)), s.Inv → s.Live →
      NChain s.heap s.tokens s.t.where_ os →
      nestFrom (whereToString fmt) s.tokens.length os cs = some os1 →
      ∃ s1, s.run fmt cs = some s1 ∧ s1.Inv ∧ s1.Live ∧
        NChain s1.heap s1.tokens s1.t.where_ os1 := by
  induction cs with
  | nil =>
    intro s os os1 hs hl hc hn
    simp only [nestFrom, Option.some.injEq] at hn
    subst hn
    exact ⟨s, rfl, hs, hl, hc⟩
  | cons c cs ih =>
    intro s os os1 hs hl hc hn
    obtain ⟨w, hw⟩ := hl.where_some
    cases c with
    | Trace caller where_args =>
      obtain ⟨h1, heq, hlen, hv, hen, hex⟩ := step_Trace_eq fmt hs caller where_args
      obtain ⟨hs1, _⟩ := step_Inv fmt _ hs heq
      obtain ⟨s1, heq1, hl1, _, _⟩ := step_Live fmt (.Trace caller where_args) hs hl (by simp [validFrom])
      rw [heq] at heq1
      cases heq1
      simp only [nestFrom] at hn
      obtain ⟨wnm, wpar, hwv⟩ := hs.where_enter w hw
      have hc1 : NChain h1 (s.tokens ++ [s.heap.length + 1]) (some s.heap.length)
          ((s.tokens.length, whereToString fmt caller where_args) :: os) := by
        refine ⟨s.heap.length + 1, s.heap.length, w, by simp, hex, rfl, by rw [hen, hw],
          viewAt_lt hwv, ?_⟩
        rw [← hw]
        exact NChain_ext _ _ os _ hc hv
      obtain ⟨s2, hrun, hs2, hl2, hc2⟩ := ih _ _ os1 hs1 hl1 hc1 (by simpa using hn)
      exact ⟨s2, by simp [Sys.run, heq, hrun], hs2, hl2, hc2⟩
    | Un k =>
      cases os with
      | nil => simp [nestFrom] at hn
      | cons o os =>
        simp only [nestFrom] at hn
        by_cases hk : k = o.1
        · simp only [hk, if_true] at hn
          obtain ⟨x, e, g, hx, hxv, hwe, hev, hg, hrest⟩ := hc
          obtain ⟨h1, nm, e1, enm, epar, heq, hxv1, hev1, hlen, hv⟩ :=
            step_Un_eq fmt hs (k := k) (by rw [hk]; exact hx)
          rw [hxv] at hxv1
          simp only [Option.some.injEq, View.exit.injEq] at hxv1
          obtain ⟨_, he1⟩ := hxv1
          subst he1
          rw [hev] at hev1
          simp only [Option.some.injEq, View.enter.injEq] at hev1
          obtain ⟨_, hpar⟩ := hev1
          subst hpar
          obtain ⟨hs1, _⟩ := step_Inv fmt _ hs heq
          obtain ⟨s1, heq1, hl1, _, _⟩ := step_Live fmt (.Un k) hs hl (by
            simp only [validFrom, Bool.and_true, decide_eq_true_eq]
            rw [hk]
            exact (List.getElem?_eq_some.mp hx).1)
          rw [heq] at heq1
          cases heq1
          have hc1 : NChain h1 s.tokens (some g) os := by
            have := NChain_ext h1 [] os _ hrest (fun q _ => hv q)
            simpa using this
          obtain ⟨s2, hrun, hs2, hl2, hc2⟩ := ih _ _ os1 hs1 hl1 hc1 hn
          exact ⟨s2, by simp [Sys.run, heq, hrun], hs2, hl2, hc2⟩
        · simp [hk] at hn
    | Message args =>
      obtain ⟨h1, heq, hlen, hv, hm⟩ := step_Message_eq fmt hs hw args
      obtain ⟨hs1, _⟩ := step_Inv fmt _ hs heq
      obtain ⟨s1, heq1, hl1, _, _⟩ := step_Live fmt (.Message args) hs hl (by simp [validFrom])
      rw [heq] at heq1
      cases heq1
      simp only [nestFrom] at hn
      have hc1 : NChain h1 s.tokens s.t.where_ os := by
        have := NChain_ext h1 [] os _ hc hv
        simpa using this
      obtain ⟨s2, hrun, hs2, hl2, hc2⟩ := ih _ _ os1 hs1 hl1 hc1 hn
      exact ⟨s2, by simp [Sys.run, heq, hrun], hs2, hl2, hc2⟩
    | Done => simp [nestFrom] at hn

theorem init_NChain : NChain Sys.init.heap Sys.init.tokens Sys.init.t.where_ [] := by
  simp [NChain, Sys.init, NewTracer, new]

/-- Claim C3 (amended). For a message recorded after properly nested
`Trace`/`Un` calls, `Message.Stack()` (evaluated right away or after any later
calls) is the list of the names of the scopes open when it was recorded,
innermost first and without the root, cut before the first open scope named
`<START>`; it is the whole list when no open scope is named `<START>`, and it
is empty when no scope is open. -/
theorem C3_stack_lists_open_scopes (fmt : Fmt) (cs : List Call) (os : List (Nat × String))
    (args : List AnyVal) (hn : openScopes fmt cs = some os) :
    ∃ s1 s2, Sys.init.run fmt cs = some s1 ∧ s1.step fmt (.Message args) = some s2 ∧
      s2.t.stack.getLast? = some s1.heap.length ∧
      ∀ (cs1 : List Call) (s3 : Sys), s2.run fmt cs1 = some s3 →
        ∃ m : Message, s3.heap[s1.heap.length]? = some (.message m) ∧
          m.Message = argsToMessage fmt args ∧
          m.Stack s3.heap = some ((os.map (fun o => o.2)).takeWhile
            (fun nm => decide (nm ≠ START_NODE))) ∧
          ((∀ o ∈ os, o.2 ≠ START_NODE) → m.Stack s3.heap = some (os.map (fun o => o.2))) := by
  obtain ⟨s1, hrun, hs1, hl1, hc1⟩ := nest_run fmt cs Sys.init [] os Sys.init_Inv Sys.init_Live
    init_NChain hn
  obtain ⟨w, hw⟩ := hl1.where_some
  obtain ⟨h1, heq, hlen, hv, hm⟩ := step_Message_eq fmt hs1 hw args
  obtain ⟨hs2, _⟩ := step_Inv fmt _ hs1 heq
  refine ⟨s1, _, hrun, heq, by simp, ?_⟩
  intro cs1 s3 hrun3
  obtain ⟨hs3, e3⟩ := run_Inv fmt cs1 hs2 hrun3
  obtain ⟨more, hmore⟩ := e3.toks
  have hv3 : ∀ q : Nat, q < s1.heap.length → viewAt s3.heap q = viewAt s1.heap q := by
    intro q hq
    rw [e3.view q (by simp only [hlen]; omega), hv q hq]
  have hm3 : viewAt s3.heap s1.heap.length = some (.message (argsToMessage fmt args) (some w)) := by
    rw [e3.view _ (by simp only [hlen]; omega), hm, hw]
  have hc3 : NChain s3.heap s3.tokens (some w) os := by
    rw [hmore, ← hw]
    exact NChain_ext _ _ os _ hc1 hv3
  obtain ⟨wnm, wpar, hwv⟩ := hs1.where_enter w hw
  have hwlt : w < s3.heap.length := by
    have h1 := viewAt_lt hwv
    have h2 := e3.len
    simp only [hlen] at h2
    omega
  obtain ⟨o, ho, hov⟩ := viewAt_some hm3
  cases o with
  | message m =>
    simp only [Obj.view, View.message.injEq] at hov
    have hst : m.Stack s3.heap = some ((os.map (fun o => o.2)).takeWhile
        (fun nm => decide (nm ≠ START_NODE))) := by
      unfold Message.Stack
      rw [hov.2, NChain_stackLoop hs3.root os (some w) s3.heap.length [] hc3 (fun e he => by
        cases he
        exact hwlt)]
      simp
    refine ⟨m, ho, hov.1, hst, ?_⟩
    intro hall
    rw [hst, List.takeWhile_eq_self_iff.mpr]
    intro nm hnm
    obtain ⟨o, ho1, rfl⟩ := List.mem_map.mp hnm
    simpa using hall o ho1
  | enter e => simp [Obj.view] at hov
  | exit x => simp [Obj.view] at hov

/-- The example of claim C3, as an instance: after `Trace first; Message
First; Trace second` a message has the lineage `[second, first]`. -/
theorem C3_stack_lists_open_scopes_witness :
    ∃ fmt : Fmt, openScopes fmt [.Trace "" ["first"], .Message [.str "First"],
        .Trace "" ["second"]] = some [(1, "second"), (0, "first")] ∧
      ∃ s1 s2, Sys.init.run fmt [.Trace "" ["first"], .Message [.str "First"],
          .Trace "" ["second"]] = some s1 ∧
        s1.step fmt (.Message [.str "Second"]) = some s2 ∧
        s2.t.stack.getLast? = some s1.heap.length ∧
        ∀ (cs1 : List Call) (s3 : Sys), s2.run fmt cs1 = some s3 →
          ∃ m : Message, s3.heap[s1.heap.length]? = some (.message m) ∧
            m.Message = argsToMessage fmt [.str "Second"] ∧
            m.Stack s3.heap = some (([(1, "second"), (0, "first")].map (fun o => o.2)).takeWhile
              (fun nm => decide (nm ≠ START_NODE))) ∧
            ((∀ o ∈ [(1, "second"), (0, "first")], o.2 ≠ START_NODE) →
              m.Stack s3.heap = some ([(1, "second"), (0, "first")].map (fun o => o.2))) :=
  ⟨⟨fun _ _ => "", fun _ => ""⟩, by decide,
    C3_stack_lists_open_scopes _ [.Trace "" ["first"], .Message [.str "First"],
      .Trace "" ["second"]] [(1, "second"), (0, "first")] [.str "Second"] (by decide)⟩

/-- Claim C3 as stated fails when a scope is named `<START>`: after
`Trace("<START>")` that scope is open, yet the lineage of a message recorded in
it is empty. -/
theorem C3_counterexample :
    ∃ (fmt : Fmt) (s : Sys) (m : Message),
      openScopes fmt [.Trace "" ["<START>"]] = some [(0, "<START>")] ∧
      Sys.init.run fmt [.Trace "" ["<START>"], .Message [.str "m"]] = some s ∧
      s.heap[3]? = some (.message m) ∧ s.t.stack.getLast? = some 3 ∧
      m.Stack s.heap = some [] ∧ m.Stack s.heap ≠ some ["<START>"] :=
  ⟨⟨fun _ _ => "", fun _ => ""⟩, _, _, by decide, rfl, rfl, by decide, by decide, by decide⟩

/-- Claim C4 fails on the code: on a new tracer, after one `Message` call and
no `Done`, the last chain node is a `Message`, which the type switch of
`ToWalkable` does not handle, and `ToWalkable` returns the tracer and no error. -/
theorem C4_ToWalkable_without_Done :
    ∃ (fmt : Fmt) (s : Sys), Sys.init.run fmt [.Message [.str "x"]] = some s ∧
      s.t.stack = [0, 1] ∧
      s.heap[1]? = some (.message { Message := "x", next := none, prev := some 0, parent := some 0 }) ∧
      s.t.ToWalkable s.heap = some (.ok s.t) :=
  ⟨⟨fun _ _ => "", fun _ => ""⟩, _, rfl, rfl, rfl, rfl⟩

theorem countTrace_cons (c : Call) (cs : List Call) :
    countTrace (c :: cs) = countTrace [c] + countTrace cs := by
  cases c <;> simp [countTrace, Nat.add_comm]

theorem run_tokens_length (fmt : Fmt) {s s1 : Sys} (cs : List Call) (hs : s.Inv) (hl : s.Live)
    (hv : validFrom s.tokens.length cs = true) (hrun : s.run fmt cs = some s1) :
    s1.tokens.length = s.tokens.length + countTrace cs := by
  induction cs generalizing s with
  | nil =>
    simp only [Sys.run, Option.some.injEq] at hrun
    subst hrun
    rfl
  | cons c cs ih =>
    rw [validFrom_cons, Bool.and_eq_true] at hv
    obtain ⟨s2, hstep, hl2, _, htok⟩ := step_Live fmt c hs hl hv.1
    obtain ⟨hs2, _⟩ := step_Inv fmt c hs hstep
    simp only [Sys.run, hstep] at hrun
    rw [ih hs2 hl2 (by rw [htok]; exact hv.2) hrun, htok, countTrace_cons c cs]
    omega

theorem step_unredeemed (fmt : Fmt) {s s1 : Sys} (c : Call) (pre : List Call) (hs : s.Inv)
    (hnd : s.tokens.Nodup)
    (hJ : ∀ k x : Nat, s.tokens[k]? = some x → (x ∈ s.t.stack → Call.Un k ∈ pre) ∧
      ∃ nm e, viewAt s.heap x = some (.exit nm (some e)) ∧ e ∈ s.t.stack)
    (hstep : s.step fmt c = some s1) :
    s1.tokens.Nodup ∧ ∀ k x : Nat, s1.tokens[k]? = some x →
      (x ∈ s1.t.stack → Call.Un k ∈ pre ++ [c]) ∧
      ∃ nm e, viewAt s1.heap x = some (.exit nm (some e)) ∧ e ∈ s1.t.stack := by
  have hfresh : ∀ k x : Nat, s.tokens[k]? = some x → x < s.heap.length := by
    intro k x hk
    obtain ⟨_, _, _, hxv, _⟩ := hJ k x hk
    exact viewAt_lt hxv
  have hold : ∀ (h1 : Heap) (more : List Node), (∀ q : Nat, q < s.heap.length →
      viewAt h1 q = viewAt s.heap q) → (∀ y : Nat, y ∈ more → s.heap.length ≤ y) →
      ∀ k x : Nat, s.tokens[k]? = some x →
        (x ∈ s.t.stack ++ more → Call.Un k ∈ pre ++ [c]) ∧
        ∃ nm e, viewAt h1 x = some (.exit nm (some e)) ∧ e ∈ s.t.stack ++ more := by
    intro h1 more hv hmore k x hk
    obtain ⟨hin, nm, e, hxv, he⟩ := hJ k x hk
    refine ⟨fun hmem => ?_, nm, e, by rw [hv x (viewAt_lt hxv), hxv],
      List.mem_append_left _ he⟩
    rcases List.mem_append.mp hmem with hmem | hmem
    · exact List.mem_append_left _ (hin hmem)
    · exact absurd (hfresh k x hk) (Nat.not_lt.mpr (hmore x hmem))
  cases c with
  | Trace caller where_args =>
    obtain ⟨h1, heq, hl, hv, hen, hex⟩ := step_Trace_eq fmt hs caller where_args
    rw [heq] at hstep
    cases hstep
    refine ⟨?_, ?_⟩
    · refine List.Nodup.append hnd (List.nodup_singleton _) ?_
      intro x hx hx1
      obtain ⟨k, hk⟩ := List.getElem?_of_mem hx
      have := hfresh k x hk
      simp only [List.mem_singleton] at hx1
      subst hx1
      omega
    · intro k x hk
      by_cases hkl : k < s.tokens.length
      · rw [List.getElem?_append_left hkl] at hk
        exact hold h1 [s.heap.length] hv (fun y hy => by
          simp only [List.mem_singleton] at hy
          omega) k x hk
      · rw [List.getElem?_append_right (Nat.le_of_not_lt hkl)] at hk
        have hx : x = s.heap.length + 1 := by
          cases hd : k - s.tokens.length with
          | zero => simpa [hd] using hk.symm
          | succ d => simp [hd] at hk
        subst hx
        refine ⟨fun hmem => ?_, _, _, hex, by simp⟩
        rcases List.mem_append.mp hmem with hmem | hmem
        · have := hs.stack_lt _ hmem
          omega
        · simp only [List.mem_singleton] at hmem
          omega
  | Un j =>
    cases hj : s.tokens[j]? with
    | none => simp [Sys.step, tracer.Un, hj] at hstep
    | some y =>
      obtain ⟨h1, nm, e, enm, epar, heq, hx, he, hl, hv⟩ := step_Un_eq fmt hs hj
      rw [heq] at hstep
      cases hstep
      refine ⟨hnd, ?_⟩
      intro k x hk
      obtain ⟨hin, nm1, e1, hxv, he1⟩ := hJ k x hk
      refine ⟨fun hmem => ?_, nm1, e1, by rw [hv x, hxv], List.mem_append_left _ he1⟩
      rcases List.mem_append.mp hmem with hmem | hmem
      · exact List.mem_append_left _ (hin hmem)
      · simp only [List.mem_singleton] at hmem
        subst hmem
        have hkj : k = j := List.getElem?_inj (List.getElem?_eq_some.mp hk).1 hnd (hk.trans hj.symm)
        subst hkj
        simp
  | Message args =>
    cases hw : s.t.where_ with
    | none => simp [step_Message_nil fmt hw] at hstep
    | some w =>
      obtain ⟨h1, heq, hl, hv, hm⟩ := step_Message_eq fmt hs hw args
      rw [heq] at hstep
      cases hstep
      exact ⟨hnd, hold h1 [s.heap.length] hv (fun y hy => by
        simp only [List.mem_singleton] at hy
        omega)⟩
  | Done =>
    obtain ⟨h1, heq, hl, hv, hx⟩ := step_Done_eq fmt hs
    rw [heq] at hstep
    cases hstep
    exact ⟨hnd, hold h1 [s.heap.length] hv (fun y hy => by
      simp only [List.mem_singleton] at hy
      omega)⟩

theorem run_unredeemed (fmt : Fmt) (cs : List Call) :
    ∀ (s s1 : Sys) (pre : List Call), s.Inv → s.tokens.Nodup →
      (∀ k x : Nat, s.tokens[k]? = some x → (x ∈ s.t.stack → Call.Un k ∈ pre) ∧
        ∃ nm e, viewAt s.heap x = some (.exit nm (some e)) ∧ e ∈ s.t.stack) →
      s.run fmt cs = some s1 →
      ∀ k x : Nat, s1.tokens[k]? = some x → (x ∈ s1.t.stack → Call.Un k ∈ pre ++ cs) ∧
        ∃ nm e, viewAt s1.heap x = some (.exit nm (some e)) ∧ e ∈ s1.t.stack := by
  induction cs with
  | nil =>
    intro s s1 pre _ _ hJ hrun
    simp only [Sys.run, Option.some.injEq] at hrun
    subst hrun
    simpa using hJ
  | cons c cs ih =>
    intro s s1 pre hs hnd hJ hrun
    simp only [Sys.run] at hrun
    cases hstep : s.step fmt c with
    | none => simp [hstep] at hrun
    | some s2 =>
      simp only [hstep] at hrun
      obtain ⟨hnd2, hJ2⟩ := step_unredeemed fmt c pre hs hnd hJ hstep
      have := ih s2 s1 (pre ++ [c]) (step_Inv fmt c hs hstep).1 hnd2 hJ2 hrun
      simpa using this

/-- Claim C5 as stated fails: after `Trace("a")` with no `Un`, then `Done`,
the last chain node is the `Exit` named `<END>` and `ToWalkable` returns the
tracer, not an error. -/
theorem C5_counterexample :
    ∃ (fmt : Fmt) (s : Sys), Sys.init.run fmt [.Trace "" ["a"], .Done] = some s ∧
      s.t.stack = [0, 1, 3] ∧
      s.heap[3]? = some (.exit { name := "<END>", next := none, prev := some 1, parent := some 0 }) ∧
      s.t.ToWalkable s.heap = some (.ok s.t) ∧
      ¬ ∃ e, s.t.ToWalkable s.heap = some (.error e) :=
  ⟨⟨fun _ _ => "", fun _ => ""⟩, _, rfl, rfl, rfl, rfl,
    fun ⟨_, he⟩ => Except.noConfusion (Option.some.inj he)⟩

/-- Claim C5 (amended). If a scope is entered with `Trace` and never exited
with `Un` (its token, the `k`-th, is never passed to `Un`), and `Done` is then
called, the chain holds the scope's `Enter` but not its `Exit`, the last chain
node is the root's closing `Exit` (named `<END>`, paired with the root `Enter`
at the head of the chain), and `ToWalkable` succeeds: it returns the tracer and
no error. -/
theorem C5_unexited_scope_walkable (fmt : Fmt) (cs : List Call) (k : Nat)
    (hv : validFrom 0 cs = true) (hk : k < countTrace cs) (hun : Call.Un k ∉ cs) :
    ∃ (s : Sys) (last : Nat) (x : Exit), Sys.init.run fmt (cs ++ [.Done]) = some s ∧
      (∃ (tok e : Nat) (X : Exit), s.tokens[k]? = some tok ∧ s.heap[tok]? = some (.exit X) ∧
        X.parent = some e ∧ e ∈ s.t.stack ∧ tok ∉ s.t.stack) ∧
      s.t.stack.getLast? = some last ∧ s.heap[last]? = some (.exit x) ∧
      x.name = END_NODE ∧ x.parent = s.t.stack.head? ∧
      s.t.ToWalkable s.heap = some (.ok s.t) := by
  obtain ⟨s1, h1, hrun1, hs1, hl1, _, hrun, _, _, hx⟩ := run_then_Done fmt cs hv
  have hw := ToWalkable_exit_END (t := ⟨s1.t.stack ++ [s1.heap.length], none⟩) (by simp) hx
  have htl := run_tokens_length fmt cs Sys.init_Inv Sys.init_Live hv hrun1
  have hJ := run_unredeemed fmt (cs ++ [.Done]) Sys.init _ [] Sys.init_Inv
    (by simp [Sys.init, NewTracer]) (by simp [Sys.init, NewTracer]) hrun
  have hklt : k < s1.tokens.length := by
    rw [htl]
    simpa [Sys.init, NewTracer] using hk
  obtain ⟨tok, htok⟩ : ∃ tok : Nat, s1.tokens[k]? = some tok :=
    ⟨s1.tokens[k], List.getElem?_eq_getElem hklt⟩
  obtain ⟨hin, nm, e, hxv, he⟩ := hJ k tok htok
  obtain ⟨X, hX, _, hXp⟩ := viewAt_exit hxv
  obtain ⟨x, hxc, hxn, hxp⟩ := viewAt_exit hx
  obtain ⟨top, hlast⟩ := hs1.last
  have hne : s1.t.stack ≠ [] := by
    intro hnil
    simp [hnil] at hlast
  refine ⟨_, s1.heap.length, x, hrun, ⟨tok, e, X, htok, hX, hXp, he, ?_⟩, by simp, hxc, hxn, ?_, hw⟩
  · intro hmem
    have := hin hmem
    simp only [List.nil_append, List.mem_append, List.mem_singleton, or_false] at this
    rcases this with h | h
    · exact hun h
    · cases h
  · simp only [List.head?_append_of_ne_nil _ hne, hs1.head, hxp]

/-- An instance of the amended claim C5: `Trace("a")`, no `Un`, `Done`. -/
theorem C5_unexited_scope_walkable_witness :
    ∃ fmt : Fmt, validFrom 0 [.Trace "" ["a"]] = true ∧ 0 < countTrace [.Trace "" ["a"]] ∧
      Call.Un 0 ∉ [Call.Trace "" ["a"]] ∧
      ∃ (s : Sys) (last : Nat) (x : Exit),
        Sys.init.run fmt ([.Trace "" ["a"]] ++ [.Done]) = some s ∧
        (∃ (tok e : Nat) (X : Exit), s.tokens[0]? = some tok ∧
          s.heap[tok]? = some (.exit X) ∧ X.parent = some e ∧ e ∈ s.t.stack ∧
          tok ∉ s.t.stack) ∧
        s.t.stack.getLast? = some last ∧ s.heap[last]? = some (.exit x) ∧
        x.name = END_NODE ∧ x.parent = s.t.stack.head? ∧
        s.t.ToWalkable s.heap = some (.ok s.t) :=
  ⟨⟨fun _ _ => "", fun _ => ""⟩, by decide, by decide, by simp,
    C5_unexited_scope_walkable _ [.Trace "" ["a"]] 0 (by decide) (by decide) (by simp)⟩

/-- Claim C6 fails on the code: on a new tracer, after one `Message` call and
no `Done`, `Messages()` returns that message (length 1), not an empty result. -/
theorem C6_Messages_without_Done :
    ∃ (fmt : Fmt) (s : Sys) (ms : List Message),
      Sys.init.run fmt [.Message [.str "x"]] = some s ∧
      s.t.Messages s.heap = some ms ∧ ms.length = 1 ∧ ms.map (fun m => m.Message) = ["x"] :=
  ⟨⟨fun _ _ => "", fun _ => ""⟩, _, _, rfl, rfl, rfl, rfl⟩

/-- Claim C7. In every tracer state whose chain is non-empty (its nodes being
allocated), `Trace(s)` with the single argument `s` does not panic and appends
exactly one node, so `Len` grows by 1: an `Enter` named `s` whose parent is the
previous current scope; the current scope becomes that `Enter`; the returned
token is an `Exit` named `s`, paired with the new `Enter`, and not in the chain. -/
theorem C7_Trace_single_name (fmt : Fmt) (h : Heap) (t : tracer) (caller s : String) (top : Nat)
    (hlast : t.stack.getLast? = some top) (hlt : ∀ p : Nat, p ∈ t.stack → p < h.length) :
    ∃ (h1 : Heap) (t1 : tracer) (x n : Nat) (e : Enter) (X : Exit),
      t.Trace fmt h caller [s] = some (h1, t1, x) ∧
      t1.stack = t.stack ++ [n] ∧ t1.Len = t.Len + 1 ∧
      h1[n]? = some (.enter e) ∧ e.name = s ∧ e.parent = t.where_ ∧ t1.where_ = some n ∧
      h1[x]? = some (.exit X) ∧ X.name = s ∧ X.parent = some n ∧ x ∉ t1.stack := by
  obtain ⟨h1, heq, hlen, hv, hen, hex⟩ := Trace_spec fmt caller [s] hlast (getLast?_lt hlt hlast)
  obtain ⟨o, ho, hov⟩ := viewAt_some hen
  obtain ⟨ox, hox, hoxv⟩ := viewAt_some hex
  cases o with
  | enter e =>
    cases ox with
    | exit X =>
      simp only [Obj.view, View.enter.injEq, View.exit.injEq, whereToString] at hov hoxv
      refine ⟨h1, _, h.length + 1, h.length, e, X, heq, rfl, by simp [tracer.Len], ho, hov.1,
        hov.2, rfl, hox, hoxv.1, hoxv.2, ?_⟩
      intro hmem
      simp only [List.mem_append, List.mem_singleton] at hmem
      rcases hmem with hmem | hmem
      · have := hlt _ hmem
        omega
      · omega
    | enter y => simp [Obj.view] at hoxv
    | message y => simp [Obj.view] at hoxv
  | exit y => simp [Obj.view] at hov
  | message y => simp [Obj.view] at hov

/-- An instance of claim C7: `Trace("first")` on a new tracer. -/
theorem C7_Trace_single_name_witness :
    ∃ fmt : Fmt, Sys.init.t.stack.getLast? = some 0 ∧
      (∀ p : Nat, p ∈ Sys.init.t.stack → p < Sys.init.heap.length) ∧
      ∃ (h1 : Heap) (t1 : tracer) (x n : Nat) (e : Enter) (X : Exit),
        Sys.init.t.Trace fmt Sys.init.heap "" ["first"] = some (h1, t1, x) ∧
        t1.stack = Sys.init.t.stack ++ [n] ∧ t1.Len = Sys.init.t.Len + 1 ∧
        h1[n]? = some (.enter e) ∧ e.name = "first" ∧ e.parent = Sys.init.t.where_ ∧
        t1.where_ = some n ∧
        h1[x]? = some (.exit X) ∧ X.name = "first" ∧ X.parent = some n ∧ x ∉ t1.stack :=
  ⟨⟨fun _ _ => "", fun _ => ""⟩, rfl, by decide,
    C7_Trace_single_name _ Sys.init.heap Sys.init.t "" "first" 0 rfl (by decide)⟩

/-- Claim C9 fails on the code: after `Done` the current scope is nil, and
`Message` reads `t.where.name` before it appends, so `Message` after `Done`
panics and appends nothing. -/
theorem C9_Message_after_Done_panics :
    ∃ (fmt : Fmt) (s : Sys), Sys.init.run fmt [.Done] = some s ∧ s.t.where_ = none ∧
      s.t.Message fmt s.heap [.str "x"] = none ∧
      Sys.init.run fmt [.Done, .Message [.str "x"]] = none :=
  ⟨⟨fun _ _ => "", fun _ => ""⟩, _, rfl, rfl, rfl, rfl⟩

theorem walkLoop_logged {σ : Type} (fn : Node → σ → σ × Option GoError) (stack : List Node) :
    ∀ (log : List Node) (s : σ),
      (walkLoop (logged fn) stack (log, s)).2 = (walkLoop fn stack s).2 ∧
      (walkLoop (logged fn) stack (log, s)).1.2 = (walkLoop fn stack s).1 := by
  induction stack with
  | nil =>
    intro log s
    simp [walkLoop]
  | cons node rest ih =>
    intro log s
    cases hr : (fn node s).2 with
    | none =>
      have h1 : fn node s = ((fn node s).1, none) := by rw [← hr]
      have h2 : logged fn node (log, s) = ((log ++ [node], (fn node s).1), none) := by
        simp [logged, hr]
      simp only [walkLoop, h2]
      rw [h1]
      exact ih _ _
    | some err =>
      have h1 : fn node s = ((fn node s).1, some err) := by rw [← hr]
      have h2 : logged fn node (log, s) = ((log ++ [node], (fn node s).1), some err) := by
        simp [logged, hr]
      simp only [walkLoop, h2]
      rw [h1]
      simp

theorem walkLoop_logged_abort {σ : Type} (fn : Node → σ → σ × Option GoError)
    (stack : List Node) :
    ∀ (log : List Node) (s : σ) (k : Nat) (e : GoError),
      (visitorReturns fn stack s)[k]? = some (some e) →
      (∀ j : Nat, j < k → (visitorReturns fn stack s)[j]? = some none) →
      (walkLoop (logged fn) stack (log, s)).1.1 = log ++ stack.take (k + 1) ∧
      (walkLoop (logged fn) stack (log, s)).2 =
        some (.wrapf ("error in walk function: " ++ e.Error) e) := by
  induction stack with
  | nil =>
    intro log s k e hk _
    simp [visitorReturns] at hk
  | cons node rest ih =>
    intro log s k e hk hj
    cases k with
    | zero =>
      simp only [visitorReturns, List.getElem?_cons_zero, Option.some.injEq] at hk
      have h2 : logged fn node (log, s) = ((log ++ [node], (fn node s).1), some e) := by
        simp [logged, hk]
      simp [walkLoop, h2]
    | succ k =>
      have h0 := hj 0 (Nat.succ_pos k)
      simp only [visitorReturns, List.getElem?_cons_zero, Option.some.injEq] at h0
      have h2 : logged fn node (log, s) = ((log ++ [node], (fn node s).1), none) := by
        simp [logged, h0]
      simp only [visitorReturns, List.getElem?_cons_succ] at hk
      obtain ⟨ha, hb⟩ := ih (log ++ [node]) (fn node s).1 k e hk (fun j hjk => by
        have := hj (j + 1) (Nat.succ_lt_succ hjk)
        simpa [visitorReturns] using this)
      simp only [walkLoop, h2]
      exact ⟨by rw [ha]; simp, hb⟩

theorem walkLoop_logged_all {σ : Type} (fn : Node → σ → σ × Option GoError)
    (stack : List Node) :
    ∀ (log : List Node) (s : σ), (∀ r ∈ visitorReturns fn stack s, r = none) →
      (walkLoop (logged fn) stack (log, s)).1.1 = log ++ stack ∧
      (walkLoop (logged fn) stack (log, s)).2 = none := by
  induction stack with
  | nil =>
    intro log s _
    simp [walkLoop]
  | cons node rest ih =>
    intro log s hall
    have h0 : (fn node s).2 = none := hall _ (by simp [visitorReturns])
    have h2 : logged fn node (log, s) = ((log ++ [node], (fn node s).1), none) := by
      simp [logged, h0]
    obtain ⟨ha, hb⟩ := ih (log ++ [node]) (fn node s).1 (fun r hr =>
      hall r (by simp [visitorReturns, hr]))
    simp only [walkLoop, h2]
    exact ⟨by rw [ha]; simp, hb⟩

/-- Claim C10. `Walk` calls the visitor on the chain nodes in append order,
once per node. If the visitor returns nil on every node, it has been called on
all `Len()` nodes and `Walk` returns nil. If it first returns an error `e` at
the node with index `k`, it has been called on exactly the nodes `0..k`, in
order, and `Walk` returns a non-nil error that wraps `e`. The instrumented
visitor `logged fn` records the calls and leaves the result of `Walk` and the
visitor's own state as they are with `fn`. -/
theorem C10_Walk_in_order_until_error {σ : Type} (t : tracer)
    (fn : Node → σ → σ × Option GoError) (s0 : σ) :
    (t.Walk (logged fn) ([], s0)).2 = (t.Walk fn s0).2 ∧
    (t.Walk (logged fn) ([], s0)).1.2 = (t.Walk fn s0).1 ∧
    ((∀ r ∈ visitorReturns fn t.stack s0, r = none) →
      (t.Walk (logged fn) ([], s0)).1.1 = t.stack ∧
      (t.Walk (logged fn) ([], s0)).1.1.length = t.Len ∧ (t.Walk fn s0).2 = none) ∧
    (∀ (k : Nat) (e : GoError), (visitorReturns fn t.stack s0)[k]? = some (some e) →
      (∀ j : Nat, j < k → (visitorReturns fn t.stack s0)[j]? = some none) →
      (t.Walk (logged fn) ([], s0)).1.1 = t.stack.take (k + 1) ∧
      ∃ w : GoError, (t.Walk fn s0).2 = some w ∧ w.Unwrap = some e ∧
        w.Error = "error in walk function: " ++ e.Error) := by
  obtain ⟨hA, hB⟩ := walkLoop_logged fn t.stack [] s0
  refine ⟨hA, hB, ?_, ?_⟩
  · intro hall
    obtain ⟨ha, hb⟩ := walkLoop_logged_all fn t.stack [] s0 hall
    simp only [tracer.Walk, tracer.Len]
    refine ⟨by simpa using ha, by rw [ha]; simp, ?_⟩
    rw [← hA, hb]
  · intro k e hk hj
    obtain ⟨ha, hb⟩ := walkLoop_logged_abort fn t.stack [] s0 k e hk hj
    simp only [tracer.Walk]
    refine ⟨by simpa using ha, .wrapf ("error in walk function: " ++ e.Error) e, ?_, rfl, rfl⟩
    rw [← hA, hb]

theorem stackLoop_nil (h : Heap) (fuel : Nat) (acc : List String) :
    stackLoop h fuel none acc = some acc := by
  cases fuel <;> rfl

theorem stackLoop_ext {h : Heap}
    (hp : ∀ (p : Nat) (nm : String) (g : Nat), viewAt h p = some (.enter nm (some g)) →
      g < p ∧ ∃ gnm gpar, viewAt h g = some (.enter gnm gpar)) :
    ∀ (w : Nat) (nm : String) (par : Option Ptr), viewAt h w = some (.enter nm par) →
      ∃ L : List String, ∀ h1 : Heap, (∀ q : Nat, q < h.length → viewAt h1 q = viewAt h q) →
        ∀ (fuel : Nat) (acc : List String), w < fuel →
          stackLoop h1 fuel (some w) acc = some (acc ++ L) := by
  intro w
  induction w using Nat.strong_induction_on with
  | _ w ih =>
    intro nm par hw
    by_cases hnm : nm = START_NODE
    · refine ⟨[], fun h1 hv fuel acc hf => ?_⟩
      obtain ⟨f, rfl⟩ : ∃ f, fuel = f + 1 := ⟨fuel - 1, by omega⟩
      have hw1 : viewAt h1 w = some (.enter nm par) := by rw [hv w (viewAt_lt hw), hw]
      rw [stackLoop_enter hw1, if_pos hnm]
      simp
    · cases par with
      | none =>
        refine ⟨[nm], fun h1 hv fuel acc hf => ?_⟩
        obtain ⟨f, rfl⟩ : ∃ f, fuel = f + 1 := ⟨fuel - 1, by omega⟩
        have hw1 : viewAt h1 w = some (.enter nm none) := by rw [hv w (viewAt_lt hw), hw]
        rw [stackLoop_enter hw1, if_neg hnm, stackLoop_nil]
      | some g =>
        obtain ⟨hg, gnm, gpar, hgv⟩ := hp w nm g hw
        obtain ⟨Lg, hLg⟩ := ih g hg gnm gpar hgv
        refine ⟨nm :: Lg, fun h1 hv fuel acc hf => ?_⟩
        obtain ⟨f, rfl⟩ : ∃ f, fuel = f + 1 := ⟨fuel - 1, by omega⟩
        have hw1 : viewAt h1 w = some (.enter nm (some g)) := by rw [hv w (viewAt_lt hw), hw]
        rw [stackLoop_enter hw1, if_neg hnm, hLg h1 hv f (acc ++ [nm]) (by omega)]
        simp

theorem Trace_run_Un (fmt : Fmt) {s sa sb : Sys} (hs : s.Inv) (caller : String)
    (where_args : List String) (cs1 : List Call)
    (hsa : s.step fmt (.Trace caller where_args) = some sa) (hsb : sa.run fmt cs1 = some sb) :
    ∃ h1, sb.step fmt (.Un s.tokens.length) =
        some { heap := h1, t := { stack := sb.t.stack ++ [s.heap.length + 1],
                                  where_ := s.t.where_ },
               tokens := sb.tokens } ∧
      h1.length = sb.heap.length ∧ (∀ q : Nat, viewAt h1 q = viewAt sb.heap q) ∧
      sb.Inv ∧ s.Ext sb := by
  obtain ⟨h1, heq, hlen, hv, hen, hex⟩ := step_Trace_eq fmt hs caller where_args
  obtain ⟨hsaI, esa⟩ := step_Inv fmt _ hs hsa
  rw [heq] at hsa
  cases hsa
  obtain ⟨hsbI, esb⟩ := run_Inv fmt cs1 hsaI hsb
  obtain ⟨more, hmore⟩ := esb.toks
  have hk : sb.tokens[s.tokens.length]? = some (s.heap.length + 1) := by
    rw [hmore]
    simp only [List.append_assoc, List.singleton_append]
    rw [List.getElem?_append_right (Nat.le_refl _)]
    simp
  have hxv : viewAt sb.heap (s.heap.length + 1) =
      some (.exit (whereToString fmt caller where_args) (some s.heap.length)) := by
    rw [esb.view _ (by simp only [hlen]; omega), hex]
  have hev : viewAt sb.heap s.heap.length =
      some (.enter (whereToString fmt caller where_args) s.t.where_) := by
    rw [esb.view _ (by simp only [hlen]; omega), hen]
  obtain ⟨h2, nm, e, enm, epar, heq2, hx2, he2, hlen2, hv2⟩ := step_Un_eq fmt hsbI hk
  rw [hxv] at hx2
  simp only [Option.some.injEq, View.exit.injEq] at hx2
  obtain ⟨_, he⟩ := hx2
  subst he
  rw [hev] at he2
  simp only [Option.some.injEq, View.enter.injEq] at he2
  obtain ⟨_, hpar⟩ := he2
  subst hpar
  exact ⟨h2, heq2, hlen2, hv2, hsbI, esa.trans esb⟩

/-- Claim C8. In every state a tracer reaches, for every token `x` returned
by an earlier `Trace` (the `k`-th), `Un(x)` does not panic, appends exactly
that `Exit` as the new last node (`Len` grows by 1) and sets the current scope
to the parent of the token's `Enter`. Consequently after `Trace(nm)`, any
calls, and `Un` of that token, the current scope is the one from before the
`Trace`; and a message recorded then has the same lineage as a message
recorded just before the `Trace` (as computed when that one was recorded and
as computed at the end). -/
theorem C8_Un_restores_scope (fmt : Fmt) (cs : List Call) (s : Sys)
    (hrun : Sys.init.run fmt cs = some s) :
    (∀ k x : Nat, s.tokens[k]? = some x →
      ∃ (s1 : Sys) (X : Exit) (e : Nat) (E : Enter), s.step fmt (.Un k) = some s1 ∧
        s1.t.stack = s.t.stack ++ [x] ∧ s1.t.Len = s.t.Len + 1 ∧
        s.heap[x]? = some (.exit X) ∧ X.parent = some e ∧ s.heap[e]? = some (.enter E) ∧
        s1.t.where_ = E.parent) ∧
    (∀ (caller nm : String) (cs1 : List Call) (sa sb : Sys),
      s.step fmt (.Trace caller [nm]) = some sa → sa.run fmt cs1 = some sb →
      ∃ sc : Sys, sb.step fmt (.Un s.tokens.length) = some sc ∧ sc.t.where_ = s.t.where_ ∧
        sc.t.stack = sb.t.stack ++ [s.heap.length + 1]) ∧
    (∀ (args args1 : List AnyVal) (caller nm : String) (cs1 : List Call) (sm sa sb : Sys),
      s.step fmt (.Message args) = some sm → sm.step fmt (.Trace caller [nm]) = some sa →
      sa.run fmt cs1 = some sb →
      ∃ (sc sd : Sys) (m m0 m1 : Message) (L : List String),
        sb.step fmt (.Un sm.tokens.length) = some sc ∧
        sc.step fmt (.Message args1) = some sd ∧
        sm.heap[s.heap.length]? = some (.message m) ∧ m.Message = argsToMessage fmt args ∧
        sd.heap[s.heap.length]? = some (.message m0) ∧ m0.Message = argsToMessage fmt args ∧
        sd.heap[sc.heap.length]? = some (.message m1) ∧ m1.Message = argsToMessage fmt args1 ∧
        m.Stack sm.heap = some L ∧ m0.Stack sd.heap = some L ∧ m1.Stack sd.heap = some L) := by
  have hs := reach_Inv fmt cs hrun
  refine ⟨?_, ?_, ?_⟩
  · intro k x hk
    obtain ⟨h1, nm, e, enm, epar, heq, hx, he, _, _⟩ := step_Un_eq fmt hs hk
    obtain ⟨X, hX, _, hXp⟩ := viewAt_exit hx
    obtain ⟨E, hE, _, hEp⟩ := viewAt_enter he
    exact ⟨_, X, e, E, heq, rfl, by simp [tracer.Len], hX, hXp, hE, hEp.symm⟩
  · intro caller nm cs1 sa sb hsa hsb
    obtain ⟨h1, heq, _, _, _, _⟩ := Trace_run_Un fmt hs caller [nm] cs1 hsa hsb
    exact ⟨_, heq, rfl, rfl⟩
  · intro args args1 caller nm cs1 sm sa sb hsm hsa hsb
    cases hw0 : s.t.where_ with
    | none => simp [step_Message_nil fmt hw0] at hsm
    | some w0 =>
      obtain ⟨w, hw⟩ : ∃ w : Nat, s.t.where_ = some w := ⟨w0, hw0⟩
      obtain ⟨hm1, hmeq, hmlen, hmv, hmm⟩ := step_Message_eq fmt hs hw args
      obtain ⟨hsmI, esm⟩ := step_Inv fmt _ hs hsm
      rw [hmeq] at hsm
      cases hsm
      obtain ⟨h2, heq2, hlen2, hv2, hsbI, esb⟩ := Trace_run_Un fmt hsmI caller [nm] cs1 hsa hsb
      obtain ⟨hscI, esc⟩ := step_Inv fmt _ hsbI heq2
      obtain ⟨h3, heq3, hlen3, hv3, hm3⟩ := step_Message_eq fmt hscI (w := w) hw args1
      obtain ⟨_, esd⟩ := step_Inv fmt _ hscI heq3
      have e0d := (esb.trans esc).trans esd
      have e0v : ∀ q : Nat, q < hm1.length → viewAt h3 q = viewAt hm1 q := e0d.view
      obtain ⟨wnm, wpar, hwv⟩ := hs.where_enter w hw
      obtain ⟨L, hL⟩ := stackLoop_ext hs.parents w wnm wpar hwv
      have hwlt : w < s.heap.length := viewAt_lt hwv
      have hvd : ∀ q : Nat, q < s.heap.length → viewAt h3 q = viewAt s.heap q := by
        intro q hq
        rw [e0v q (by omega), hmv q hq]
      have hd0 : viewAt h3 s.heap.length = some (.message (argsToMessage fmt args) (some w)) := by
        rw [e0v s.heap.length (by omega), hmm, hw]
      have hd1 : viewAt h3 h2.length = some (.message (argsToMessage fmt args1) (some w)) := by
        rw [← hw]
        exact hm3
      have hlen_d : s.heap.length < h3.length := viewAt_lt hd0
      obtain ⟨m, hmc, hmp, hmpar⟩ := viewAt_message hmm
      obtain ⟨m0, hm0c, hm0p, hm0par⟩ := viewAt_message hd0
      obtain ⟨m1, hm1c, hm1p, hm1par⟩ := viewAt_message hd1
      refine ⟨_, _, m, m0, m1, L, heq2, heq3, hmc, hmp, hm0c, hm0p, hm1c, hm1p, ?_, ?_, ?_⟩
      · unfold Message.Stack
        rw [hmpar, hw, hL hm1 hmv hm1.length [] (by omega)]
        simp
      · unfold Message.Stack
        rw [hm0par, hL h3 hvd h3.length [] (by omega)]
        simp
      · unfold Message.Stack
        rw [hm1par, hL h3 hvd h3.length [] (by omega)]
        simp

/-- An instance of claim C8: in the state after `Trace first; Trace second`
the tokens are at the addresses 2 and 4. -/
theorem C8_Un_restores_scope_witness :
    ∃ (fmt : Fmt) (s : Sys),
      Sys.init.run fmt [.Trace "" ["first"], .Trace "" ["second"]] = some s ∧
      s.tokens = [2, 4] ∧
      (∀ k x : Nat, s.tokens[k]? = some x →
        ∃ (s1 : Sys) (X : Exit) (e : Nat) (E : Enter), s.step fmt (.Un k) = some s1 ∧
          s1.t.stack = s.t.stack ++ [x] ∧ s1.t.Len = s.t.Len + 1 ∧
          s.heap[x]? = some (.exit X) ∧ X.parent = some e ∧ s.heap[e]? = some (.enter E) ∧
          s1.t.where_ = E.parent) :=
  ⟨⟨fun _ _ => "", fun _ => ""⟩, _, rfl, rfl,
    (C8_Un_restores_scope _ [.Trace "" ["first"], .Trace "" ["second"]] _ rfl).1⟩

theorem step_len (fmt : Fmt) {s s1 : Sys} (c : Call) (hs : s.Inv)
    (hstep : s.step fmt c = some s1) : s1.t.stack.length = s.t.stack.length + 1 := by
  cases c with
  | Trace caller where_args =>
    obtain ⟨h1, heq, _⟩ := step_Trace_eq fmt hs caller where_args
    rw [heq] at hstep
    cases hstep
    simp
  | Un k =>
    cases hk : s.tokens[k]? with
    | none => simp [Sys.step, tracer.Un, hk] at hstep
    | some x =>
      obtain ⟨h1, nm, e, enm, epar, heq, _⟩ := step_Un_eq fmt hs hk
      rw [heq] at hstep
      cases hstep
      simp
  | Message args =>
    cases hw : s.t.where_ with
    | none => simp [step_Message_nil fmt hw] at hstep
    | some w =>
      obtain ⟨h1, heq, _⟩ := step_Message_eq fmt hs hw args
      rw [heq] at hstep
      cases hstep
      simp
  | Done =>
    obtain ⟨h1, heq, _⟩ := step_Done_eq fmt hs
    rw [heq] at hstep
    cases hstep
    simp

theorem run_len (fmt : Fmt) {s s1 : Sys} (cs : List Call) (hs : s.Inv)
    (hrun : s.run fmt cs = some s1) : s1.t.stack.length = s.t.stack.length + cs.length := by
  induction cs generalizing s with
  | nil =>
    simp only [Sys.run, Option.some.injEq] at hrun
    subst hrun
    rfl
  | cons c cs ih =>
    simp only [Sys.run] at hrun
    cases hstep : s.step fmt c with
    | none => simp [hstep] at hrun
    | some s2 =>
      simp only [hstep] at hrun
      rw [ih (step_Inv fmt c hs hstep).1 hrun, step_len fmt c hs hstep, List.length_cons]
      omega

theorem length_eq_counts (cs : List Call) :
    cs.length = countTrace cs + countUn cs + countMessage cs + countDone cs := by
  induction cs with
  | nil => rfl
  | cons c cs ih =>
    cases c <;> simp only [List.length_cons, countTrace, countUn, countMessage, countDone, ih] <;>
      omega

/-- Claim C11. `Len()` is the number of nodes appended to the chain, the
initial root `Enter` included: a new tracer has `Len` 1, and after any sequence
of calls that do not fail, `a` of them `Trace`, `b` `Un`, `c` `Message` and `d`
`Done`, `Len() = 1 + a + b + c + d`. -/
theorem C11_Len_counts_appended_nodes (fmt : Fmt) (cs : List Call) (s : Sys)
    (hrun : Sys.init.run fmt cs = some s) :
    Sys.init.t.Len = 1 ∧
      s.t.Len = 1 + countTrace cs + countUn cs + countMessage cs + countDone cs := by
  refine ⟨rfl, ?_⟩
  have hlen := run_len fmt cs Sys.init_Inv hrun
  have hc := length_eq_counts cs
  have h0 : Sys.init.t.stack.length = 1 := rfl
  simp only [tracer.Len, hlen, h0]
  omega

/-- An instance of claim C11: one `Trace`, one `Message` and one `Un` give
`Len() = 4`. -/
theorem C11_Len_counts_appended_nodes_witness :
    ∃ (fmt : Fmt) (s : Sys),
      Sys.init.run fmt [.Trace "" ["a"], .Message [.str "m"], .Un 0] = some s ∧
      Sys.init.t.Len = 1 ∧ s.t.Len = 1 + 1 + 1 + 1 + 0 := by
  obtain ⟨s, hrun, _⟩ := run_Live ⟨fun _ _ => "", fun _ => ""⟩
    [.Trace "" ["a"], .Message [.str "m"], .Un 0] Sys.init_Inv Sys.init_Live (by decide)
  exact ⟨_, s, hrun, C11_Len_counts_appended_nodes _ _ s hrun⟩

theorem run_Messages (fmt : Fmt) (argss : List (List AnyVal)) :
    ∀ (s : Sys) (w : Nat), s.Inv → s.t.where_ = some w →
      ∃ s1, s.run fmt (argss.map Call.Message) = some s1 ∧ s1.Inv ∧ s.Ext s1 ∧
        s1.t.where_ = s.t.where_ ∧ s1.heap.length = s.heap.length + argss.length ∧
        ∀ (i : Nat) (args : List AnyVal), argss[i]? = some args →
          viewAt s1.heap (s.heap.length + i) =
            some (.message (argsToMessage fmt args) s.t.where_) ∧
          s1.t.stack[s.t.stack.length + i]? = some (s.heap.length + i) := by
  induction argss with
  | nil =>
    intro s w hs _
    exact ⟨s, rfl, hs, Sys.Ext.refl s, rfl, rfl, fun i args hi => by simp at hi⟩
  | cons a argss ih =>
    intro s w hs hw
    obtain ⟨h1, heq, hlen, hv, hm⟩ := step_Message_eq fmt hs hw a
    obtain ⟨hs1, e1⟩ := step_Inv fmt _ hs heq
    obtain ⟨s2, hrun, hs2, e2, hw2, hlen2, hmsg⟩ := ih _ w hs1 hw
    refine ⟨s2, by simp [Sys.run, heq, hrun], hs2, e1.trans e2, hw2, ?_, ?_⟩
    · simp only [hlen2, hlen, List.length_cons]
      omega
    · intro i args hi
      cases i with
      | zero =>
        simp only [List.getElem?_cons_zero, Option.some.injEq] at hi
        subst hi
        have hview := e2.view s.heap.length (by simp only [hlen]; omega)
        simp only at hview
        obtain ⟨more, hmore⟩ := e2.stack
        simp only at hmore
        refine ⟨by rw [Nat.add_zero, hview, hm], ?_⟩
        rw [hmore, Nat.add_zero, List.append_assoc,
          List.getElem?_append_right (Nat.le_refl _)]
        simp
      | succ i =>
        simp only [List.getElem?_cons_succ] at hi
        obtain ⟨hA, hB⟩ := hmsg i args hi
        simp only [hlen, List.length_append, List.length_singleton] at hA hB
        rw [show s.heap.length + (i + 1) = s.heap.length + 1 + i by omega,
          show s.t.stack.length + (i + 1) = s.t.stack.length + 1 + i by omega]
        exact ⟨hA, hB⟩

/-- Claim C12. `Message` does not change the current scope: in every state a
tracer reaches, consecutive `Message` calls (no `Trace` or `Un` between them)
leave the current scope as it is, and the messages they record all have the
same parent and the same lineage `Stack()`; when the calls before them were
properly nested with the scopes `os` open, that lineage is the list of the
names of `os` (cut before a scope named `<START>`), so messages emitted by
uninstrumented helpers inside scope `first` all have the lineage `[first]`. -/
theorem C12_Message_keeps_scope (fmt : Fmt) (cs : List Call) (s : Sys)
    (hrun : Sys.init.run fmt cs = some s) :
    (∀ (args : List AnyVal) (s1 : Sys), s.step fmt (.Message args) = some s1 →
      s1.t.where_ = s.t.where_) ∧
    (∀ (argss : List (List AnyVal)) (s1 : Sys),
      s.run fmt (argss.map Call.Message) = some s1 →
      s1.t.where_ = s.t.where_ ∧
      ∃ L : List String,
        (∀ (i : Nat) (args : List AnyVal), argss[i]? = some args →
          ∃ m : Message, s1.heap[s.heap.length + i]? = some (.message m) ∧
            s1.t.stack[s.t.stack.length + i]? = some (s.heap.length + i) ∧
            m.Message = argsToMessage fmt args ∧ m.parent = s.t.where_ ∧
            m.Stack s1.heap = some L) ∧
        (∀ os : List (Nat × String), openScopes fmt cs = some os →
          L = (os.map (fun o => o.2)).takeWhile (fun nm => decide (nm ≠ START_NODE)))) := by
  have hs := reach_Inv fmt cs hrun
  refine ⟨?_, ?_⟩
  · intro args s1 hstep
    rcases Option.eq_none_or_eq_some s.t.where_ with hw | ⟨w, hw⟩
    · simp [step_Message_nil fmt hw] at hstep
    · obtain ⟨h1, heq, _⟩ := step_Message_eq fmt hs hw args
      rw [heq] at hstep
      cases hstep
      rfl
  · intro argss s1 hrun1
    rcases Option.eq_none_or_eq_some s.t.where_ with hw0 | ⟨w0, hw0⟩
    · cases argss with
      | nil =>
        simp only [List.map_nil, Sys.run, Option.some.injEq] at hrun1
        subst hrun1
        refine ⟨rfl, [], fun i args hi => by simp at hi, ?_⟩
        intro os hos
        obtain ⟨s2, hrun2, _, hl2, _⟩ := nest_run fmt cs Sys.init [] os Sys.init_Inv
          Sys.init_Live init_NChain hos
        rw [hrun] at hrun2
        cases hrun2
        obtain ⟨w, hw⟩ := hl2.where_some
        rw [hw0] at hw
        cases hw
      | cons a argss =>
        simp [Sys.run, step_Message_nil fmt hw0] at hrun1
    · obtain ⟨w, hw⟩ : ∃ w : Nat, s.t.where_ = some w := ⟨w0, hw0⟩
      obtain ⟨s2, hrun2, hs2, e2, hw2, hlen2, hmsg⟩ := run_Messages fmt argss s w hs hw
      rw [hrun1] at hrun2
      cases hrun2
      obtain ⟨wnm, wpar, hwv⟩ := hs.where_enter w hw
      obtain ⟨L, hL⟩ := stackLoop_ext hs.parents w wnm wpar hwv
      have hwlt : w < s.heap.length := viewAt_lt hwv
      refine ⟨hw2, L, ?_, ?_⟩
      · intro i args hi
        obtain ⟨hv, hpos⟩ := hmsg i args hi
        obtain ⟨m, hmc, hmp, hmpar⟩ := viewAt_message hv
        refine ⟨m, hmc, hpos, hmp, hmpar, ?_⟩
        unfold Message.Stack
        rw [hmpar, hw, hL s1.heap e2.view s1.heap.length [] (by omega)]
        simp
      · intro os hos
        obtain ⟨s3, hrun3, hs3, _, hc3⟩ := nest_run fmt cs Sys.init [] os Sys.init_Inv
          Sys.init_Live init_NChain hos
        rw [hrun] at hrun3
        cases hrun3
        have h1 := hL s.heap (fun _ _ => rfl) s.heap.length [] hwlt
        rw [← hw, NChain_stackLoop hs.root os _ s.heap.length [] hc3 (fun e he => by
          rw [hw] at he
          cases he
          exact hwlt)] at h1
        simpa using h1.symm

/-- Scenario D of the specification as an instance of claim C12: after
`Trace first`, three consecutive messages have the lineage `[first]`. -/
theorem C12_Message_keeps_scope_witness :
    ∃ (fmt : Fmt) (s s1 : Sys) (L : List String),
      Sys.init.run fmt [.Trace "" ["first"]] = some s ∧
      openScopes fmt [.Trace "" ["first"]] = some [(0, "first")] ∧
      s.run fmt ([[.str "First"], [.str "Second"], [.str "Third"]].map Call.Message) = some s1 ∧
      s1.t.where_ = s.t.where_ ∧ L = ["first"] ∧
      ∀ (i : Nat) (args : List AnyVal),
        [[AnyVal.str "First"], [.str "Second"], [.str "Third"]][i]? = some args →
        ∃ m : Message, s1.heap[s.heap.length + i]? = some (.message m) ∧
          s1.t.stack[s.t.stack.length + i]? = some (s.heap.length + i) ∧
          m.Message = argsToMessage fmt args ∧ m.parent = s.t.where_ ∧
          m.Stack s1.heap = some L := by
  obtain ⟨s, hrun, hs, hl, _⟩ := run_Live ⟨fun _ _ => "", fun _ => ""⟩
    [.Trace "" ["first"]] Sys.init_Inv Sys.init_Live (by decide)
  obtain ⟨w, hw⟩ := hl.where_some
  obtain ⟨s1, hrun1, _⟩ := run_Messages ⟨fun _ _ => "", fun _ => ""⟩
    [[.str "First"], [.str "Second"], [.str "Third"]] s w hs hw
  obtain ⟨hwe, L, hmsgs, hL⟩ := (C12_Message_keeps_scope _ _ s hrun).2 _ s1 hrun1
  have hos : openScopes ⟨fun _ _ => "", fun _ => ""⟩ [.Trace "" ["first"]] =
      some [(0, "first")] := by decide
  have hLe : L = ["first"] := by
    rw [hL _ hos]
    decide
  exact ⟨_, s, s1, L, hrun, hos, hrun1, hwe, hLe, hmsgs⟩

theorem ToWalkable_error_text {h : Heap} {t : tracer} {e : GoError}
    (he : t.ToWalkable h = some (.error e)) : ∃ rest : String, e.Error = "not walkable" ++ rest := by
  unfold tracer.ToWalkable at he
  cases hl : t.stack.getLast? with
  | none => simp [hl] at he
  | some last =>
    simp only [hl] at he
    cases ho : h[last]? with
    | none => simp [ho] at he
    | some o =>
      cases o with
      | enter n =>
        simp only [ho, Option.some.injEq, Except.error.injEq] at he
        subst he
        exact ⟨". tracer is not done. last node was an enter node: " ++ n.name, by
          rw [← String.append_assoc]
          rfl⟩
      | exit n =>
        simp only [ho] at he
        by_cases hn : n.name = END_NODE
        · simp [hn] at he
        · simp only [ne_eq, hn, not_false_eq_true, if_true, Option.some.injEq,
            Except.error.injEq] at he
          subst he
          exact ⟨". tracer is not done. last node was not an exit node of the root node: "
            ++ n.name, by
            rw [← String.append_assoc]
            rfl⟩
      | message m => simp [ho] at he

theorem ToWalkable_ok_self {h : Heap} {t w : tracer} (hw : t.ToWalkable h = some (.ok w)) :
    w = t := by
  unfold tracer.ToWalkable at hw
  cases hl : t.stack.getLast? with
  | none => simp [hl] at hw
  | some last =>
    simp only [hl] at hw
    cases ho : h[last]? with
    | none => simp [ho] at hw
    | some o =>
      cases o with
      | enter n => simp [ho] at hw
      | exit n =>
        simp only [ho] at hw
        by_cases hn : n.name = END_NODE
        · simp only [ne_eq, hn, not_true_eq_false, if_false, Option.some.injEq,
            Except.ok.injEq] at hw
          exact hw.symm
        · simp [hn] at hw
      | message m =>
        simp only [ho, Option.some.injEq, Except.ok.injEq] at hw
        exact hw.symm

/-- Claim C14. `ToWalkable` fails whenever the last chain node is an `Enter`,
with the not-finalized error naming that scope, and whenever the last chain
node is an `Exit` whose name is not `<END>`, with the not-root-exit error
naming that scope; the text of every error it returns contains "not walkable";
and when it succeeds, the returned walkable is the tracer itself, so that
walking it visits the tracer's own nodes in append order. -/
theorem C14_ToWalkable_outcomes (h : Heap) (t : tracer) (last : Nat) :
    (∀ n : Enter, t.stack.getLast? = some last → h[last]? = some (.enter n) →
      t.ToWalkable h = some (.error (.errorf
        ("not walkable. tracer is not done. last node was an enter node: " ++ n.name)))) ∧
    (∀ n : Exit, t.stack.getLast? = some last → h[last]? = some (.exit n) →
      n.name ≠ END_NODE →
      t.ToWalkable h = some (.error (.errorf
        ("not walkable. tracer is not done. last node was not an exit node of the root node: "
          ++ n.name)))) ∧
    (∀ e : GoError, t.ToWalkable h = some (.error e) →
      ∃ rest : String, e.Error = "not walkable" ++ rest) ∧
    (∀ w : tracer, t.ToWalkable h = some (.ok w) →
      w = t ∧ w.stack = t.stack ∧
      ∀ (σ : Type) (fn : Node → σ → σ × Option GoError) (s0 : σ),
        w.Walk fn s0 = t.Walk fn s0 ∧
        ((∀ node x, (fn node x).2 = none) → (w.Walk (logged fn) ([], s0)).1.1 = t.stack)) := by
  refine ⟨?_, ?_, fun e he => ToWalkable_error_text he, ?_⟩
  · intro n hl ho
    simp [tracer.ToWalkable, hl, ho]
  · intro n hl ho hn
    simp [tracer.ToWalkable, hl, ho, hn]
  · intro w hw
    have hwt := ToWalkable_ok_self hw
    subst hwt
    refine ⟨rfl, rfl, fun σ fn s0 => ⟨rfl, fun hnil => ?_⟩⟩
    have := (walkLoop_logged_nil fn hnil w.stack [] s0).2
    simpa [tracer.Walk] using this

theorem step_enters_parented (fmt : Fmt) {s s1 : Sys} (c : Call) (hs : s.Inv) (hl : s.Live)
    (hP : ∀ (p : Nat) (nm : String) (par : Option Ptr), viewAt s.heap p = some (.enter nm par) →
      p ≠ 0 → par ≠ none)
    (hstep : s.step fmt c = some s1) :
    ∀ (p : Nat) (nm : String) (par : Option Ptr), viewAt s1.heap p = some (.enter nm par) →
      p ≠ 0 → par ≠ none := by
  obtain ⟨w, hw⟩ := hl.where_some
  intro p nm par hp hp0
  cases c with
  | Trace caller where_args =>
    obtain ⟨h1, heq, hlen, hv, hen, hex⟩ := step_Trace_eq fmt hs caller where_args
    rw [heq] at hstep
    cases hstep
    have hplt := viewAt_lt hp
    simp only [hlen] at hplt
    by_cases hpo : p < s.heap.length
    · simp only [hv p hpo] at hp
      exact hP p nm par hp hp0
    · by_cases hpe : p = s.heap.length
      · subst hpe
        simp only [hen, Option.some.injEq, View.enter.injEq] at hp
        rw [← hp.2, hw]
        simp
      · have hpx : p = s.heap.length + 1 := by omega
        subst hpx
        simp [hex] at hp
  | Un k =>
    cases hk : s.tokens[k]? with
    | none => simp [Sys.step, tracer.Un, hk] at hstep
    | some x =>
      obtain ⟨h1, _, _, _, _, heq, _, _, _, hv⟩ := step_Un_eq fmt hs hk
      rw [heq] at hstep
      cases hstep
      simp only [hv] at hp
      exact hP p nm par hp hp0
  | Message args =>
    obtain ⟨h1, heq, hlen, hv, hm⟩ := step_Message_eq fmt hs hw args
    rw [heq] at hstep
    cases hstep
    have hplt := viewAt_lt hp
    simp only [hlen] at hplt
    by_cases hpo : p < s.heap.length
    · simp only [hv p hpo] at hp
      exact hP p nm par hp hp0
    · have hpe : p = s.heap.length := by omega
      subst hpe
      simp [hm] at hp
  | Done =>
    obtain ⟨h1, heq, hlen, hv, hx⟩ := step_Done_eq fmt hs
    rw [heq] at hstep
    cases hstep
    have hplt := viewAt_lt hp
    simp only [hlen] at hplt
    by_cases hpo : p < s.heap.length
    · simp only [hv p hpo] at hp
      exact hP p nm par hp hp0
    · have hpe : p = s.heap.length := by omega
      subst hpe
      simp [hx] at hp

theorem run_enters_parented (fmt : Fmt) (cs : List Call) :
    ∀ (s s1 : Sys), s.Inv → s.Live →
      (∀ (p : Nat) (nm : String) (par : Option Ptr),
        viewAt s.heap p = some (.enter nm par) → p ≠ 0 → par ≠ none) →
      validFrom s.tokens.length cs = true → s.run fmt cs = some s1 →
      ∀ (p : Nat) (nm : String) (par : Option Ptr), viewAt s1.heap p = some (.enter nm par) →
        p ≠ 0 → par ≠ none := by
  induction cs with
  | nil =>
    intro s s1 _ _ hP _ hrun
    simp only [Sys.run, Option.some.injEq] at hrun
    subst hrun
    exact hP
  | cons c cs ih =>
    intro s s1 hs hl hP hv hrun
    rw [validFrom_cons, Bool.and_eq_true] at hv
    obtain ⟨s2, hstep, hl2, _, htok⟩ := step_Live fmt c hs hl hv.1
    simp only [Sys.run, hstep] at hrun
    exact ih s2 s1 (step_Inv fmt c hs hstep).1 hl2
      (step_enters_parented fmt c hs hl hP hstep) (by rw [htok]; exact hv.2) hrun

/-- Claim C20. In every state reached from `NewTracer` by `Trace`, `Un` and
`Message` calls without `Done`, each `Un` passing a token that an earlier
`Trace` on this tracer returned (in any order, also repeatedly), no call has
panicked, the chain is non-empty, its first node is the root `Enter` named
`<START>` with no parent, every other `Enter` has a parent (itself an
`Enter`), and the current scope is a non-nil `Enter`; hence `Trace`, `Message`
and `Un` of any issued token do not dereference a nil scope: they succeed. -/
theorem C20_no_nil_scope_before_Done (fmt : Fmt) (cs : List Call)
    (hv : validFrom 0 cs = true) :
    ∃ s : Sys, Sys.init.run fmt cs = some s ∧ s.t.stack ≠ [] ∧
      (∃ (root : Nat) (R : Enter), s.t.stack.head? = some root ∧
        s.heap[root]? = some (.enter R) ∧ R.name = START_NODE ∧ R.parent = none ∧
        ∀ (p : Nat) (E : Enter), s.heap[p]? = some (.enter E) → p ≠ root →
          ∃ (g : Nat) (G : Enter), E.parent = some g ∧ s.heap[g]? = some (.enter G)) ∧
      (∃ (w : Nat) (W : Enter), s.t.where_ = some w ∧ s.heap[w]? = some (.enter W)) ∧
      s.tokens.length = countTrace cs ∧
      (∀ (caller : String) (where_args : List String),
        ∃ s1, s.step fmt (.Trace caller where_args) = some s1) ∧
      (∀ args : List AnyVal, ∃ s1, s.step fmt (.Message args) = some s1) ∧
      (∀ k : Nat, k < s.tokens.length → ∃ s1, s.step fmt (.Un k) = some s1) := by
  obtain ⟨s, hrun, hs, hl, _, _⟩ := run_Live fmt cs Sys.init_Inv Sys.init_Live hv
  have hP := run_enters_parented fmt cs Sys.init s Sys.init_Inv Sys.init_Live
    (by
      intro p nm par hp hp0
      have hlt := viewAt_lt hp
      simp [Sys.init, NewTracer, new] at hlt
      exact absurd hlt hp0) hv hrun
  obtain ⟨top, hlast⟩ := hs.last
  obtain ⟨R, hR, hRn, hRp⟩ := viewAt_enter hs.root
  obtain ⟨w, hw⟩ := hl.where_some
  obtain ⟨wnm, wpar, hwv⟩ := hs.where_enter w hw
  obtain ⟨W, hW, _, _⟩ := viewAt_enter hwv
  have htl := run_tokens_length fmt cs Sys.init_Inv Sys.init_Live hv hrun
  refine ⟨s, hrun, ?_, ⟨0, R, hs.head, hR, hRn, hRp, ?_⟩, ⟨w, W, hw, hW⟩, ?_, ?_, ?_, ?_⟩
  · intro hnil
    simp [hnil] at hlast
  · intro p E hE hp0
    have hview : viewAt s.heap p = some (.enter E.name E.parent) := by
      simp [viewAt, hE, Obj.view]
    rcases Option.eq_none_or_eq_some E.parent with hpar | ⟨g0, hpar⟩
    · rw [hpar] at hview
      exact absurd rfl (hP p E.name none hview hp0)
    · obtain ⟨g, hg⟩ : ∃ g : Nat, E.parent = some g := ⟨g0, hpar⟩
      rw [hg] at hview
      obtain ⟨_, gnm, gpar, hgv⟩ := hs.parents p E.name g hview
      obtain ⟨G, hG, _, _⟩ := viewAt_enter hgv
      exact ⟨g, G, hg, hG⟩
  · simpa [Sys.init, NewTracer] using htl
  · intro caller where_args
    obtain ⟨s1, hstep, _⟩ := step_Live fmt (.Trace caller where_args) hs hl (by simp [validFrom])
    exact ⟨s1, hstep⟩
  · intro args
    obtain ⟨s1, hstep, _⟩ := step_Live fmt (.Message args) hs hl (by simp [validFrom])
    exact ⟨s1, hstep⟩
  · intro k hk
    obtain ⟨s1, hstep, _⟩ := step_Live fmt (.Un k) hs hl (by simp [validFrom, hk])
    exact ⟨s1, hstep⟩

/-- An instance of claim C20: out-of-order and repeated `Un` calls. -/
theorem C20_no_nil_scope_before_Done_witness :
    ∃ fmt : Fmt, validFrom 0 [.Trace "" ["a"], .Trace "" ["b"], .Un 0, .Un 1, .Un 0,
        .Message [.str "m"]] = true ∧
      ∃ s : Sys, Sys.init.run fmt [.Trace "" ["a"], .Trace "" ["b"], .Un 0, .Un 1, .Un 0,
          .Message [.str "m"]] = some s ∧ s.t.stack ≠ [] ∧
        (∃ (root : Nat) (R : Enter), s.t.stack.head? = some root ∧
          s.heap[root]? = some (.enter R) ∧ R.name = START_NODE ∧ R.parent = none ∧
          ∀ (p : Nat) (E : Enter), s.heap[p]? = some (.enter E) → p ≠ root →
            ∃ (g : Nat) (G : Enter), E.parent = some g ∧ s.heap[g]? = some (.enter G)) ∧
        (∃ (w : Nat) (W : Enter), s.t.where_ = some w ∧ s.heap[w]? = some (.enter W)) ∧
        s.tokens.length = 2 ∧
        (∀ (caller : String) (where_args : List String),
          ∃ s1, s.step fmt (.Trace caller where_args) = some s1) ∧
        (∀ args : List AnyVal, ∃ s1, s.step fmt (.Message args) = some s1) ∧
        (∀ k : Nat, k < s.tokens.length → ∃ s1, s.step fmt (.Un k) = some s1) :=
  ⟨⟨fun _ _ => "", fun _ => ""⟩, by decide,
    C20_no_nil_scope_before_Done _ [.Trace "" ["a"], .Trace "" ["b"], .Un 0, .Un 1, .Un 0,
      .Message [.str "m"]] (by decide)⟩

/-- Claim C15 as stated fails: after `Trace a; Trace b` the innermost open
scope is `b`, yet `Un` of the token of `a` (out of order) does not fail: it
appends that `Exit` and sets the current scope to the root; and `Un` of an
already redeemed token appends the same `Exit` a second time. -/
theorem C15_counterexample :
    ∃ (fmt : Fmt) (s s1 s2 s3 : Sys),
      Sys.init.run fmt [.Trace "" ["a"], .Trace "" ["b"]] = some s ∧
      s.t.stack = [0, 1, 3] ∧ s.t.where_ = some 3 ∧ s.tokens = [2, 4] ∧
      s.step fmt (.Un 0) = some s1 ∧ s1.t.stack = [0, 1, 3, 2] ∧ s1.t.where_ = some 0 ∧
      Sys.init.run fmt [.Trace "" ["a"], .Un 0] = some s2 ∧ s2.t.stack = [0, 1, 2] ∧
      s2.step fmt (.Un 0) = some s3 ∧ s3.t.stack = [0, 1, 2, 2] :=
  ⟨⟨fun _ _ => "", fun _ => ""⟩, _, _, _, _, rfl, rfl, rfl, rfl, rfl, rfl, rfl, rfl, rfl, rfl,
    rfl⟩

/-- Claim C15 (amended). `Un` does not validate its token. For every tracer
with a non-empty chain and every token that is an `Exit` paired with an
`Enter` (whether or not that `Enter` is the innermost open scope, whether or
not the token has been redeemed before, and whichever tracer issued it), `Un`
does not fail: it appends the token as the new last node (`Len` grows by 1)
and sets the current scope to the parent of the token's `Enter`. -/
theorem C15_Un_accepts_any_token (h : Heap) (t : tracer) (top x e : Nat) (X : Exit) (E : Enter)
    (hlast : t.stack.getLast? = some top) (htop : top < h.length)
    (hx : h[x]? = some (.exit X)) (hXp : X.parent = some e) (he : h[e]? = some (.enter E)) :
    ∃ (h1 : Heap) (t1 : tracer), t.Un h (some x) = some (h1, t1) ∧
      t1.stack = t.stack ++ [x] ∧ t1.Len = t.Len + 1 ∧ t1.where_ = E.parent ∧
      h1.length = h.length := by
  have hxv : viewAt h x = some (.exit X.name (some e)) := by
    simp [viewAt, hx, Obj.view, hXp]
  have hev : viewAt h e = some (.enter E.name E.parent) := by
    simp [viewAt, he, Obj.view]
  obtain ⟨h1, heq, hlen, _⟩ := Un_spec hlast htop hxv hev
  exact ⟨h1, _, heq, rfl, by simp [tracer.Len], rfl, hlen⟩

/-- An instance of the amended claim C15 with a foreign token: two tracers
are created, the second one enters scope `a` and gets the token at address 3;
`Un` of that token on the first tracer appends it to the first tracer's chain
and makes the second tracer's root the first tracer's current scope. -/
theorem C15_Un_accepts_any_token_witness :
    ∃ (fmt : Fmt) (h : Heap) (t1 t2 : tracer),
      NewTracer [] = ([.enter ⟨"<START>", none, none, none⟩], t1) ∧
      NewTracer [.enter ⟨"<START>", none, none, none⟩] =
        ([.enter ⟨"<START>", none, none, none⟩, .enter ⟨"<START>", none, none, none⟩], t2) ∧
      t2.Trace fmt [.enter ⟨"<START>", none, none, none⟩, .enter ⟨"<START>", none, none, none⟩]
        "" ["a"] = some (h, ⟨[1, 2], some 2⟩, 3) ∧
      t1.stack.getLast? = some 0 ∧ 0 < h.length ∧
      h[3]? = some (.exit ⟨"a", none, none, some 2⟩) ∧
      h[2]? = some (.enter ⟨"a", none, some 1, some 1⟩) ∧
      ∃ (h1 : Heap) (t3 : tracer), t1.Un h (some 3) = some (h1, t3) ∧
        t3.stack = t1.stack ++ [3] ∧ t3.Len = t1.Len + 1 ∧ t3.where_ = some 1 ∧
        h1.length = h.length :=
  ⟨⟨fun _ _ => "", fun _ => ""⟩, _, _, _, rfl, rfl, rfl, rfl, by decide, rfl, rfl,
    C15_Un_accepts_any_token _ ⟨[0], some 0⟩ 0 3 2 ⟨"a", none, none, some 2⟩
      ⟨"a", none, some 1, some 1⟩ rfl (by decide) rfl rfl rfl⟩

theorem goSprintf_name (s : String) : goSprintf "%s:" [.str s] = some (s ++ ":") := by
  have hd : "%s:".data = ['%', 's', ':'] := rfl
  simp [goSprintf, hd, goSprintfLoop, goVerb]
  rfl

theorem goSprintf_payload (s : String) : goSprintf " %s" [.str s] = some (" " ++ s) := by
  have hd : " %s".data = [' ', '%', 's'] := rfl
  simp [goSprintf, hd, goSprintfLoop, goVerb]
  rfl

theorem goSprintf_W (dots name : String) (symbol : Char) :
    goSprintf "%s%c %s\n" [.str dots, .rune symbol, .str name] =
      some (dots ++ String.singleton symbol ++ " " ++ name ++ "\n") := by
  have hd : "%s%c %s\n".data = ['%', 's', '%', 'c', ' ', '%', 's', '\n'] := rfl
  simp [goSprintf, hd, goSprintfLoop, goVerb]
  simp only [String.append_assoc]
  rfl

theorem goFmt_GoSprintf (sprint : List AnyVal → String) :
    Fmt.GoSprintf ⟨fun format ops => (goSprintf format ops).getD "", sprint⟩ := by
  intro format ops r hr
  simp [hr]

/-- Claim C13 fails on the code: with more than one argument `whereToString`
passes the remaining arguments to `fmt.Sprintf` as ONE operand, the slice
`where_args[1:]`, so `Trace("%s.%s", "a", "b")` names the scope
`[a b].%!s(MISSING)`, where `fmt.Sprintf("%s.%s", "a", "b")` is `a.b`. -/
theorem C13_Trace_format_operands :
    (∀ (fmt : Fmt) (caller format a : String) (rest : List String),
      whereToString fmt caller (format :: a :: rest) =
        fmt.Sprintf format [AnyVal.strs (a :: rest)]) ∧
    goSprintf "%s.%s" [.strs ["a", "b"]] = some "[a b].%!s(MISSING)" ∧
    goSprintf "%s.%s" [.str "a", .str "b"] = some "a.b" ∧
    ∃ (fmt : Fmt) (s : Sys) (e : Enter), fmt.GoSprintf ∧
      Sys.init.run fmt [.Trace "" ["%s.%s", "a", "b"]] = some s ∧
      s.t.where_ = some 1 ∧ s.heap[1]? = some (.enter e) ∧
      e.name = "[a b].%!s(MISSING)" ∧ e.name ≠ "a.b" :=
  ⟨fun _ _ _ _ _ => rfl, rfl, rfl,
    ⟨fun format ops => (goSprintf format ops).getD "", fun _ => ""⟩, _, _,
    goFmt_GoSprintf _, rfl, rfl, rfl, rfl, by decide⟩

theorem stringLoop_eq {fmt : Fmt} (hfmt : fmt.GoSprintf) (stack : List String) :
    ∀ (n : Nat) (out : String), n ≤ stack.length →
      stringLoop fmt stack n out =
        some (out ++ concatAll (((stack.take n).reverse).map (fun nm => nm ++ ":"))) := by
  intro n
  induction n with
  | zero =>
    intro out _
    simp [stringLoop, concatAll]
  | succ n ih =>
    intro out hn
    have hlt : n < stack.length := hn
    have hget : stack[n]? = some stack[n] := List.getElem?_eq_getElem hlt
    have htake : stack.take (n + 1) = stack.take n ++ [stack[n]] := by
      rw [List.take_succ, hget]
      rfl
    simp only [stringLoop, hget]
    rw [ih _ (Nat.le_of_lt hlt), hfmt _ _ _ (goSprintf_name _), htake]
    simp only [List.reverse_append, List.reverse_singleton, List.singleton_append,
      List.map_cons, concatAll, String.append_assoc]

theorem intercalate_go (s : String) (as : List String) :
    ∀ acc : String, String.intercalate.go acc s as =
      acc ++ concatAll (as.map (fun a => s ++ a)) := by
  induction as with
  | nil =>
    intro acc
    simp [String.intercalate.go, concatAll]
  | cons a as ih =>
    intro acc
    simp [String.intercalate.go, ih, concatAll, String.append_assoc]

theorem concatAll_colon (as : List String) :
    ":" ++ concatAll (as.map (fun a => a ++ ":")) =
      concatAll (as.map (fun a => ":" ++ a)) ++ ":" := by
  induction as with
  | nil => simp [concatAll]
  | cons a as ih =>
    simp only [List.map_cons, concatAll, String.append_assoc]
    rw [ih]

theorem concatAll_intercalate (l : List String) (hl : l ≠ []) :
    concatAll (l.map (fun nm => nm ++ ":")) = ":".intercalate l ++ ":" := by
  cases l with
  | nil => exact absurd rfl hl
  | cons a as =>
    simp only [List.map_cons, concatAll, String.intercalate, intercalate_go,
      String.append_assoc]
    rw [concatAll_colon]

/-- For every `Message` whose lineage `m.Stack()` is not empty, `m.String()`
equals the names of the lineage in reverse order (outermost first) joined by
`:` and followed by `: ` and the payload; the printer's `ONELINE` flavour, also
the default when no flavour is given, returns `m.String()` for every message. -/
theorem String_renders_lineage (fmt : Fmt) (h : Heap) (m : Message) (stack : List String)
    (hfmt : fmt.GoSprintf) (hst : m.Stack h = some stack) :
    (stack ≠ [] →
      m.String fmt h = some (":".intercalate stack.reverse ++ ": " ++ m.Message)) ∧
    printer.PrettySPrint fmt h m [printer.ONELINE] = m.String fmt h ∧
    printer.PrettySPrint fmt h m [] = m.String fmt h := by
  have hmain : m.String fmt h =
      some (concatAll (stack.reverse.map (fun nm => nm ++ ":")) ++ " " ++ m.Message) := by
    unfold Message.String
    rw [hst]
    simp only [stringLoop_eq hfmt stack stack.length "" (Nat.le_refl _), List.take_length,
      hfmt _ _ _ (goSprintf_payload _), String.empty_append, String.append_assoc]
  refine ⟨?_, ?_, ?_⟩
  · intro hne
    have hr : stack.reverse ≠ [] := by simpa using hne
    rw [hmain, concatAll_intercalate _ hr]
    simp only [String.append_assoc]
    rfl
  · simp [printer.PrettySPrint, printer.prettyPrintOneline]
  · simp [printer.PrettySPrint, printer.prettyPrintOneline]

/-- The example of the specification: in the heap after `Trace first; Trace
second; Message Second` the message at address 5 has the lineage `[second,
first]` and renders as `first:second: Second`. -/
theorem String_renders_lineage_example :
    ∃ (fmt : Fmt) (h : Heap) (m : Message), fmt.GoSprintf ∧
      Sys.init.run fmt [.Trace "" ["first"], .Trace "" ["second"], .Message [.str "Second"]] =
        some ⟨h, ⟨[0, 1, 3, 5], some 3⟩, [2, 4]⟩ ∧
      h[5]? = some (.message m) ∧ m.Message = "Second" ∧
      m.Stack h = some ["second", "first"] ∧
      m.String fmt h = some "first:second: Second" ∧
      printer.PrettySPrint fmt h m [printer.ONELINE] = m.String fmt h ∧
      printer.PrettySPrint fmt h m [] = m.String fmt h := by
  have key := String_renders_lineage
    ⟨fun format ops => (goSprintf format ops).getD "", fun _ => ""⟩
    [.enter ⟨"<START>", some 1, none, none⟩, .enter ⟨"first", some 3, some 0, some 0⟩,
      .exit ⟨"first", none, none, some 1⟩, .enter ⟨"second", some 5, some 1, some 1⟩,
      .exit ⟨"second", none, none, some 3⟩, .message ⟨"Second", none, some 3, some 3⟩]
    ⟨"Second", none, some 3, some 3⟩ ["second", "first"] (goFmt_GoSprintf _) rfl
  exact ⟨⟨fun format ops => (goSprintf format ops).getD "", fun _ => ""⟩,
    [.enter ⟨"<START>", some 1, none, none⟩, .enter ⟨"first", some 3, some 0, some 0⟩,
      .exit ⟨"first", none, none, some 1⟩, .enter ⟨"second", some 5, some 1, some 1⟩,
      .exit ⟨"second", none, none, some 3⟩, .message ⟨"Second", none, some 3, some 3⟩],
    ⟨"Second", none, some 3, some 3⟩, goFmt_GoSprintf _, rfl, rfl, rfl, rfl,
    key.1 (by decide), key.2⟩

/-- Claim C17 fails in the code for a message recorded with no open scope.
After `Message First; Done` (the calls of `TestTraceWithout`) the one message
has the empty lineage, and `String()`, which is also what the `ONELINE` flavour
and the default flavour return, is a blank followed by the payload, ` First`,
not `: First`; the `MULTILINE` flavour writes `: First` for the same message. -/
theorem C17_String_empty_lineage :
    ∃ (fmt : Fmt) (s : Sys) (m : Message), fmt.GoSprintf ∧
      Sys.init.run fmt [.Message [.str "First"], .Done] = some s ∧
      s.t.Messages s.heap = some [m] ∧ m.Message = "First" ∧ m.Stack s.heap = some [] ∧
      m.String fmt s.heap = some " First" ∧
      m.String fmt s.heap ≠
        some (":".intercalate ([] : List String).reverse ++ ": " ++ "First") ∧
      printer.PrettySPrint fmt s.heap m [printer.ONELINE] = some " First" ∧
      printer.PrettySPrint fmt s.heap m [] = some " First" ∧
      printer.PrettySPrint fmt s.heap m [printer.MULTILINE] = some ": First\n" :=
  ⟨⟨fun format ops => (goSprintf format ops).getD "", fun _ => ""⟩, _, _,
    goFmt_GoSprintf _, rfl, rfl, rfl, rfl, rfl, by decide, rfl, rfl, rfl⟩

theorem printer_error_nil (fmt : Fmt) (h : Heap) (hasOut flag : Bool) (n : Node)
    (st : Option printer.PrinterState) :
    (printer.NewTracePrinter fmt h hasOut flag n st).2 = none := by
  unfold printer.NewTracePrinter
  cases hasOut with
  | false => rfl
  | true =>
    simp only [Bool.true_eq_false, if_false]
    cases st with
    | none => rfl
    | some s =>
      simp only
      cases h[n]? with
      | none => rfl
      | some o =>
        cases o with
        | enter e =>
          simp only
          split
          · rfl
          · cases printer.W fmt s.out '>' s.indent e.name <;> rfl
        | exit x =>
          simp only
          split
          · rfl
          · cases printer.W fmt s.out '<' (s.indent - 1) x.name <;> rfl
        | message m =>
          simp only
          split
          · cases printer.W fmt s.out '@' s.indent m.Message <;> rfl
          · rfl

theorem walkLoop_recorded {σ : Type} (fn : Node → σ → σ × Option GoError) (stack : List Node) :
    ∀ (log : List σ) (s : σ),
      (walkLoop (recorded fn) stack (log, s)).2 = (walkLoop fn stack s).2 ∧
      (walkLoop (recorded fn) stack (log, s)).1.2 = (walkLoop fn stack s).1 := by
  induction stack with
  | nil =>
    intro log s
    simp [walkLoop]
  | cons node rest ih =>
    intro log s
    cases hr : (fn node s).2 with
    | none =>
      have h1 : fn node s = ((fn node s).1, none) := by rw [← hr]
      have h2 : recorded fn node (log, s) =
          ((log ++ [(fn node s).1], (fn node s).1), none) := by
        simp [recorded, hr]
      simp only [walkLoop, h2]
      rw [h1]
      exact ih _ _
    | some err =>
      have h1 : fn node s = ((fn node s).1, some err) := by rw [← hr]
      have h2 : recorded fn node (log, s) =
          ((log ++ [(fn node s).1], (fn node s).1), some err) := by
        simp [recorded, hr]
      simp only [walkLoop, h2]
      rw [h1]
      simp

theorem Repeat_dots (k : Nat) :
    printer.Repeat "." ((k : Int) * 2) = some (String.join (List.replicate (2 * k) ".")) := by
  have h1 : ¬ ((k : Int) * 2 < 0) := by omega
  have h2 : ((k : Int) * 2).toNat = 2 * k := by omega
  simp [printer.Repeat, h1, h2]

theorem W_line {fmt : Fmt} (hfmt : fmt.GoSprintf) (out : String) (symbol : Char) (k : Nat)
    (name : String) :
    printer.W fmt out symbol (k : Int) name = some (out ++ printer.line symbol k name) := by
  simp only [printer.W, Repeat_dots, hfmt _ _ _ (goSprintf_W _ name symbol), printer.line]

theorem eventAt_enter {h : Heap} {n : Nat} {nm : String} (he : eventAt h n = some (.enter nm)) :
    ∃ e : Enter, h[n]? = some (.enter e) ∧ e.name = nm := by
  unfold eventAt at he
  cases hv : viewAt h n with
  | none => simp [hv] at he
  | some v =>
    cases v with
    | enter name par =>
      simp only [hv, Option.some.injEq, Event.enter.injEq] at he
      obtain ⟨e, hc, hn, _⟩ := viewAt_enter hv
      exact ⟨e, hc, hn.trans he⟩
    | exit name par => simp [hv] at he
    | message p par => simp [hv] at he

theorem eventAt_exit {h : Heap} {n : Nat} {nm : String} (he : eventAt h n = some (.exit nm)) :
    ∃ x : Exit, h[n]? = some (.exit x) ∧ x.name = nm := by
  unfold eventAt at he
  cases hv : viewAt h n with
  | none => simp [hv] at he
  | some v =>
    cases v with
    | exit name par =>
      simp only [hv, Option.some.injEq, Event.exit.injEq] at he
      obtain ⟨x, hc, hn, _⟩ := viewAt_exit hv
      exact ⟨x, hc, hn.trans he⟩
    | enter name par => simp [hv] at he
    | message p par => simp [hv] at he

theorem eventAt_message {h : Heap} {n : Nat} {p : String}
    (he : eventAt h n = some (.message p)) :
    ∃ m : Message, h[n]? = some (.message m) ∧ m.Message = p := by
  unfold eventAt at he
  cases hv : viewAt h n with
  | none => simp [hv] at he
  | some v =>
    cases v with
    | message payload par =>
      simp only [hv, Option.some.injEq, Event.message.injEq] at he
      obtain ⟨m, hc, hn, _⟩ := viewAt_message hv
      exact ⟨m, hc, hn.trans he⟩
    | enter name par => simp [hv] at he
    | exit name par => simp [hv] at he

theorem printer_enter {fmt : Fmt} (hfmt : fmt.GoSprintf) {h : Heap} {n : Nat} {nm : String}
    (flag : Bool) (he : eventAt h n = some (.enter nm)) (hnm : nm ≠ START_NODE) (k : Nat)
    (out : String) :
    printer.NewTracePrinter fmt h true flag n (some ⟨(k : Int), out⟩) =
      (some ⟨((k + 1 : Nat) : Int), out ++ printer.line '>' k nm⟩, none) := by
  obtain ⟨e, hc, hn⟩ := eventAt_enter he
  subst hn
  simp [printer.NewTracePrinter, hc, hnm, W_line hfmt]

theorem printer_exit {fmt : Fmt} (hfmt : fmt.GoSprintf) {h : Heap} {n : Nat} {nm : String}
    (flag : Bool) (he : eventAt h n = some (.exit nm)) (hnm : nm ≠ END_NODE) (k : Nat)
    (out : String) :
    printer.NewTracePrinter fmt h true flag n (some ⟨((k + 1 : Nat) : Int), out⟩) =
      (some ⟨(k : Int), out ++ printer.line '<' k nm⟩, none) := by
  obtain ⟨x, hc, hn⟩ := eventAt_exit he
  subst hn
  have hk : ((k + 1 : Nat) : Int) - 1 = (k : Int) := by omega
  simp [printer.NewTracePrinter, hc, hnm, hk, W_line hfmt]

theorem printer_message {fmt : Fmt} (hfmt : fmt.GoSprintf) {h : Heap} {n : Nat} {p : String}
    (flag : Bool) (he : eventAt h n = some (.message p)) (k : Nat) (out : String) :
    printer.NewTracePrinter fmt h true flag n (some ⟨(k : Int), out⟩) =
      (some ⟨(k : Int), out ++ (if flag then printer.line '@' k p else "")⟩, none) := by
  obtain ⟨m, hc, hn⟩ := eventAt_message he
  subst hn
  cases flag with
  | true => simp [printer.NewTracePrinter, hc, W_line hfmt]
  | false => simp [printer.NewTracePrinter, hc]

theorem printer_root {fmt : Fmt} {h : Heap} {n : Nat} (flag : Bool)
    (he : eventAt h n = some (.enter START_NODE)) (st : printer.PrinterState) :
    printer.NewTracePrinter fmt h true flag n (some st) = (some st, none) := by
  obtain ⟨e, hc, hn⟩ := eventAt_enter he
  simp [printer.NewTracePrinter, hc, hn]

theorem printer_end {fmt : Fmt} {h : Heap} {n : Nat} (flag : Bool)
    (he : eventAt h n = some (.exit END_NODE)) (st : printer.PrinterState) :
    printer.NewTracePrinter fmt h true flag n (some st) = (some st, none) := by
  obtain ⟨x, hc, hn⟩ := eventAt_exit he
  simp [printer.NewTracePrinter, hc, hn]

theorem walkLoop_recorded_cons {σ : Type} (fn : Node → σ → σ × Option GoError) (node : Node)
    (rest : List Node) (log : List σ) (s s1 : σ) (hstep : fn node s = (s1, none)) :
    walkLoop (recorded fn) (node :: rest) (log, s) =
      walkLoop (recorded fn) rest (log ++ [s1], s1) := by
  have h2 : recorded fn node (log, s) = ((log ++ [s1], s1), none) := by
    simp [recorded, hstep]
  simp only [walkLoop, h2]

theorem map_eq_cons_some {α β : Type} {f : α → Option β} {l : List α} {b : β}
    {bs : List β} (hl : l.map f = (b :: bs).map some) :
    ∃ a rest, l = a :: rest ∧ f a = some b ∧ rest.map f = bs.map some := by
  cases l with
  | nil => simp at hl
  | cons a rest =>
    simp only [List.map_cons, List.cons.injEq] at hl
    exact ⟨a, rest, rfl, hl.1, hl.2⟩

theorem walk_printer_nested {fmt : Fmt} (hfmt : fmt.GoSprintf) (h : Heap) (flag : Bool)
    (cs : List Call) :
    ∀ (n : Nat) (os os1 : List (Nat × String)) (nodes : List Node)
      (log : List (Option printer.PrinterState)) (out : String),
      nestFrom (whereToString fmt) n os cs = some os1 →
      (∀ nm ∈ scopeNames fmt cs, nm ≠ START_NODE ∧ nm ≠ END_NODE) →
      (∀ o ∈ os, o.2 ≠ END_NODE) →
      nodes.map (eventAt h) = (eventsFrom fmt (os.map (fun o => o.2)) cs).map some →
      ∃ states : List (Option printer.PrinterState),
        walkLoop (recorded (printer.NewTracePrinter fmt h true flag)) nodes
            (log, some ⟨(os.length : Int), out⟩) =
          ((log ++ states, some ⟨(os1.length : Int),
            out ++ printer.render fmt flag (os.map (fun o => o.2)) cs⟩), none) ∧
        states.length = nodes.length ∧
        ∀ st ∈ states, ∃ p : printer.PrinterState, st = some p ∧ 0 ≤ p.indent := by
  induction cs with
  | nil =>
    intro n os os1 nodes log out hn _ _ hev
    simp only [nestFrom, Option.some.injEq] at hn
    subst hn
    have hnil : nodes = [] := by simpa [eventsFrom] using hev
    subst hnil
    exact ⟨[], by simp [walkLoop, printer.render], rfl, fun st hst => by simp at hst⟩
  | cons c cs ih =>
    intro n os os1 nodes log out hn hnames hos hev
    cases c with
    | Trace caller where_args =>
      simp only [nestFrom] at hn
      simp only [eventsFrom] at hev
      obtain ⟨node, rest, rfl, he, hrest⟩ := map_eq_cons_some hev
      have hnm := hnames (whereToString fmt caller where_args) (by simp [scopeNames])
      have hos1 : ∀ o ∈ (n, whereToString fmt caller where_args) :: os, o.2 ≠ END_NODE := by
        intro o ho
        simp only [List.mem_cons] at ho
        rcases ho with ho | ho
        · subst ho
          exact hnm.2
        · exact hos o ho
      obtain ⟨states, hw, hlen, hall⟩ := ih (n + 1) _ os1 rest
        (log ++ [some ⟨((os.length + 1 : Nat) : Int),
          out ++ printer.line '>' os.length (whereToString fmt caller where_args)⟩])
        (out ++ printer.line '>' os.length (whereToString fmt caller where_args)) hn
        (fun nm hmem => hnames nm (by simp [scopeNames, hmem])) hos1 hrest
      refine ⟨some ⟨((os.length + 1 : Nat) : Int),
          out ++ printer.line '>' os.length (whereToString fmt caller where_args)⟩ :: states,
        ?_, by simp [hlen], ?_⟩
      · rw [walkLoop_recorded_cons _ _ _ _ _ _ (printer_enter hfmt flag he hnm.1 os.length out)]
        simp only [List.length_cons, List.map_cons] at hw
        rw [hw]
        simp [printer.render, String.append_assoc]
      · intro st hst
        simp only [List.mem_cons] at hst
        rcases hst with hst | hst
        · exact ⟨_, hst, by simp; omega⟩
        · exact hall st hst
    | Un k =>
      cases os with
      | nil => simp [nestFrom] at hn
      | cons o os =>
        simp only [nestFrom] at hn
        by_cases hk : k = o.1
        · simp only [hk, if_true] at hn
          simp only [List.map_cons, eventsFrom] at hev
          obtain ⟨node, rest, rfl, he, hrest⟩ := map_eq_cons_some hev
          have ho := hos o (List.mem_cons_self _ _)
          obtain ⟨states, hw, hlen, hall⟩ := ih n os os1 rest
            (log ++ [some ⟨(os.length : Int), out ++ printer.line '<' os.length o.2⟩])
            (out ++ printer.line '<' os.length o.2) hn
            (fun nm hmem => hnames nm (by simp [scopeNames, hmem]))
            (fun o1 ho1 => hos o1 (List.mem_cons_of_mem _ ho1)) hrest
          refine ⟨some ⟨(os.length : Int), out ++ printer.line '<' os.length o.2⟩ :: states,
            ?_, by simp [hlen], ?_⟩
          · simp only [List.length_cons]
            rw [walkLoop_recorded_cons _ _ _ _ _ _ (printer_exit hfmt flag he ho os.length out),
              hw]
            simp [printer.render, String.append_assoc]
          · intro st hst
            simp only [List.mem_cons] at hst
            rcases hst with hst | hst
            · exact ⟨_, hst, by simp⟩
            · exact hall st hst
        · simp [hk] at hn
    | Message args =>
      simp only [nestFrom] at hn
      simp only [eventsFrom] at hev
      obtain ⟨node, rest, rfl, he, hrest⟩ := map_eq_cons_some hev
      obtain ⟨states, hw, hlen, hall⟩ := ih n os os1 rest
        (log ++ [some ⟨(os.length : Int),
          out ++ (if flag then printer.line '@' os.length (argsToMessage fmt args) else "")⟩])
        (out ++ (if flag then printer.line '@' os.length (argsToMessage fmt args) else "")) hn
        (fun nm hmem => hnames nm (by simp [scopeNames, hmem])) hos hrest
      refine ⟨some ⟨(os.length : Int),
          out ++ (if flag then printer.line '@' os.length (argsToMessage fmt args) else "")⟩ ::
          states, ?_, by simp [hlen], ?_⟩
      · rw [walkLoop_recorded_cons _ _ _ _ _ _ (printer_message hfmt flag he os.length out), hw]
        simp [printer.render, String.append_assoc]
      · intro st hst
        simp only [List.mem_cons] at hst
        rcases hst with hst | hst
        · exact ⟨_, hst, by simp⟩
        · exact hall st hst
    | Done => simp [nestFrom] at hn

theorem eventAt_of_view {h h1 : Heap} {q : Nat} (hv : viewAt h1 q = viewAt h q) :
    eventAt h1 q = eventAt h q := by
  simp only [eventAt, hv]

theorem run_singleton (fmt : Fmt) (s : Sys) (c : Call) : s.run fmt [c] = s.step fmt c := by
  simp only [Sys.run]
  cases s.step fmt c <;> rfl

theorem nest_events (fmt : Fmt) (cs : List Call) :
    ∀ (s : Sys) (os os1 : List (Nat × String)), s.Inv → s.Live →
      NChain s.heap s.tokens s.t.where_ os →
      nestFrom (whereToString fmt) s.tokens.length os cs = some os1 →
      ∃ (s1 : Sys) (nodes : List Node), s.run fmt cs = some s1 ∧ s1.Inv ∧ s1.Live ∧ s.Ext s1 ∧
        s1.t.stack = s.t.stack ++ nodes ∧
        nodes.map (eventAt s1.heap) = (eventsFrom fmt (os.map (fun o => o.2)) cs).map some := by
  induction cs with
  | nil =>
    intro s os os1 hs hl _ _
    exact ⟨s, [], rfl, hs, hl, Sys.Ext.refl s, by simp, by simp [eventsFrom]⟩
  | cons c cs ih =>
    intro s os os1 hs hl hc hn
    cases c with
    | Trace caller where_args =>
      obtain ⟨h1, heq, hlen, hv, hen, hex⟩ := step_Trace_eq fmt hs caller where_args
      obtain ⟨s2, hrun2, hs2, hl2, hc2⟩ := nest_run fmt [.Trace caller where_args] s os
        ((s.tokens.length, whereToString fmt caller where_args) :: os) hs hl hc
        (by simp [nestFrom])
      rw [run_singleton, heq] at hrun2
      cases hrun2
      simp only [nestFrom] at hn
      obtain ⟨s1, nodes, hrun, hs1, hl1, e1, hst, hev⟩ := ih _ _ os1 hs2 hl2 hc2
        (by simpa using hn)
      refine ⟨s1, s.heap.length :: nodes, by simp [Sys.run, heq, hrun], hs1, hl1,
        (step_Inv fmt _ hs heq).2.trans e1, by simp [hst], ?_⟩
      simp only [List.map_cons, eventsFrom, List.cons.injEq]
      refine ⟨?_, by simpa using hev⟩
      rw [eventAt_of_view (e1.view s.heap.length (by simp only [hlen]; omega))]
      simp [eventAt, hen]
    | Un k =>
      cases os with
      | nil => simp [nestFrom] at hn
      | cons o os =>
        simp only [nestFrom] at hn
        by_cases hk : k = o.1
        · simp only [hk, if_true] at hn
          obtain ⟨x, e, g, hx, hxv, hwe, hev0, hg, hrest⟩ := hc
          obtain ⟨h1, nm, e1, enm, epar, heq, hxv1, _, hlen, hv⟩ :=
            step_Un_eq fmt hs (k := k) (by rw [hk]; exact hx)
          obtain ⟨s2, hrun2, hs2, hl2, hc2⟩ := nest_run fmt [.Un k] s (o :: os) os hs hl
            ⟨x, e, g, hx, hxv, hwe, hev0, hg, hrest⟩ (by simp [nestFrom, hk])
          rw [run_singleton, heq] at hrun2
          cases hrun2
          obtain ⟨s1, nodes, hrun, hs1, hl1, e1, hst, hev⟩ := ih _ _ os1 hs2 hl2 hc2 hn
          refine ⟨s1, x :: nodes, by simp [Sys.run, heq, hrun], hs1, hl1,
            (step_Inv fmt _ hs heq).2.trans e1, by simp [hst], ?_⟩
          simp only [List.map_cons, eventsFrom, List.cons.injEq]
          refine ⟨?_, by simpa using hev⟩
          rw [eventAt_of_view (e1.view x (by simp only [hlen]; exact viewAt_lt hxv))]
          simp [eventAt, hv, hxv]
        · simp [hk] at hn
    | Message args =>
      obtain ⟨w, hw⟩ := hl.where_some
      obtain ⟨h1, heq, hlen, hv, hm⟩ := step_Message_eq fmt hs hw args
      obtain ⟨s2, hrun2, hs2, hl2, hc2⟩ := nest_run fmt [.Message args] s os os hs hl hc
        (by simp [nestFrom])
      rw [run_singleton, heq] at hrun2
      cases hrun2
      simp only [nestFrom] at hn
      obtain ⟨s1, nodes, hrun, hs1, hl1, e1, hst, hev⟩ := ih _ _ os1 hs2 hl2 hc2 hn
      refine ⟨s1, s.heap.length :: nodes, by simp [Sys.run, heq, hrun], hs1, hl1,
        (step_Inv fmt _ hs heq).2.trans e1, by simp [hst], ?_⟩
      simp only [List.map_cons, eventsFrom, List.cons.injEq]
      refine ⟨?_, by simpa using hev⟩
      rw [eventAt_of_view (e1.view s.heap.length (by simp only [hlen]; omega))]
      simp [eventAt, hm]
    | Done => simp [nestFrom] at hn

theorem walkLoop_append {σ : Type} (fn : Node → σ → σ × Option GoError) (a b : List Node) :
    ∀ (s s1 : σ), walkLoop fn a s = (s1, none) → walkLoop fn (a ++ b) s = walkLoop fn b s1 := by
  induction a with
  | nil =>
    intro s s1 h
    simp only [walkLoop, Prod.mk.injEq, and_true] at h
    subst h
    rfl
  | cons node rest ih =>
    intro s s1 h
    cases hr : fn node s with
    | mk s2 err =>
      cases err with
      | none =>
        simp only [walkLoop, hr] at h
        simp only [List.cons_append, walkLoop, hr]
        exact ih s2 s1 h
      | some e => simp [walkLoop, hr] at h

theorem printer_walk_finalized (fmt : Fmt) (cs : List Call) (flag : Bool)
    (os : List (Nat × String)) (hfmt : fmt.GoSprintf) (hb : openScopes fmt cs = some os)
    (hnames : ∀ nm ∈ scopeNames fmt cs, nm ≠ START_NODE ∧ nm ≠ END_NODE) :
    ∃ s : Sys, Sys.init.run fmt (cs ++ [.Done]) = some s ∧
      s.t.ToWalkable s.heap = some (.ok s.t) ∧
      ∀ (log : List (Option printer.PrinterState)) (out : String),
        ∃ states : List (Option printer.PrinterState),
          s.t.Walk (recorded (printer.NewTracePrinter fmt s.heap true flag))
              (log, some ⟨0, out⟩) =
            ((log ++ states, some ⟨(os.length : Int), out ++ printer.render fmt flag [] cs⟩),
              none) ∧
          states.length = s.t.Len ∧
          ∀ st ∈ states, ∃ p : printer.PrinterState, st = some p ∧ 0 ≤ p.indent := by
  obtain ⟨s1, nodes, hrun1, hs1, _, _, hst, hev⟩ := nest_events fmt cs Sys.init [] os Sys.init_Inv
    Sys.init_Live init_NChain hb
  obtain ⟨h1, heq, hlen, hv, hx⟩ := step_Done_eq fmt hs1
  have hrun : Sys.init.run fmt (cs ++ [.Done]) = some ⟨h1,
      ⟨s1.t.stack ++ [s1.heap.length], none⟩, s1.tokens⟩ := by
    rw [run_append, hrun1]
    simp [Sys.run, heq]
  have hstack : s1.t.stack = [0] ++ nodes := by
    rw [hst]
    rfl
  have hroot : eventAt h1 0 = some (.enter START_NODE) := by
    rw [eventAt_of_view (hv 0 (viewAt_lt hs1.root))]
    simp [eventAt, hs1.root]
  have hend : eventAt h1 s1.heap.length = some (.exit END_NODE) := by
    simp [eventAt, hx]
  have hnodes : nodes.map (eventAt h1) =
      (eventsFrom fmt (([] : List (Nat × String)).map (fun o => o.2)) cs).map some := by
    rw [← hev]
    apply List.map_congr_left
    intro q hq
    exact eventAt_of_view (hv q (hs1.stack_lt q (by rw [hstack]; simp [hq])))
  refine ⟨_, hrun, ToWalkable_exit_END (t := ⟨s1.t.stack ++ [s1.heap.length], none⟩)
    (by simp) hx, ?_⟩
  intro log out
  obtain ⟨states, hw, hlens, hall⟩ := walk_printer_nested hfmt h1 flag cs 0 [] os nodes
    (log ++ [some ⟨0, out⟩]) out hb hnames (by simp) hnodes
  simp only [List.length_nil, Nat.cast_zero, List.map_nil] at hw
  refine ⟨[some ⟨0, out⟩] ++ states ++
    [some ⟨(os.length : Int), out ++ printer.render fmt flag [] cs⟩], ?_, ?_, ?_⟩
  · have h0 := walkLoop_recorded_cons (printer.NewTracePrinter fmt h1 true flag) 0
      (nodes ++ [s1.heap.length]) log _ _ (printer_root flag hroot ⟨0, out⟩)
    have h2 := walkLoop_recorded_cons (printer.NewTracePrinter fmt h1 true flag) s1.heap.length
      [] (log ++ [some ⟨0, out⟩] ++ states) _ _
      (printer_end flag hend ⟨(os.length : Int), out ++ printer.render fmt flag [] cs⟩)
    simp only [tracer.Walk, hstack]
    refine Eq.trans h0 ?_
    rw [walkLoop_append _ _ _ _ _ hw]
    refine Eq.trans h2 ?_
    simp [walkLoop]
  · simp [tracer.Len, hstack, hlens]
  · intro st hst
    simp only [List.append_assoc, List.mem_append, List.mem_singleton] at hst
    rcases hst with hst | hst | hst
    · exact ⟨_, hst, by simp⟩
    · exact hall st hst
    · exact ⟨_, hst, by simp⟩

/-- Claim C18. For every finalized chain built by properly nested `Trace`/`Un`
usage (scopes may still be open when `Done` is called) in which no scope is
named `<START>` or `<END>`, walking it with the visitor from
`NewTracePrinter(out, flag)` with a non-nil `out` writes exactly the lines of
`render`: `2*k` dots and `> name` for each `Enter`, `2*k` dots and `< name` for
each `Exit` with the `k` of its `Enter`, and, only if `flag` is set, `2*k` dots
and `@ payload` for each `Message`, `k` being the number of scopes open around
the node; nothing is written for the root `Enter` and `Exit`; after every
visitor call the indentation is at least 0 (at the end it is the number of
scopes left open), and the visitor never returns an error. -/
theorem C18_printer_writes_indented_lines (fmt : Fmt) (cs : List Call) (print_messages : Bool)
    (os : List (Nat × String)) (hfmt : fmt.GoSprintf) (hb : openScopes fmt cs = some os)
    (hnames : ∀ nm ∈ scopeNames fmt cs, nm ≠ START_NODE ∧ nm ≠ END_NODE) :
    ∃ s : Sys, Sys.init.run fmt (cs ++ [.Done]) = some s ∧
      s.t.ToWalkable s.heap = some (.ok s.t) ∧
      s.t.Walk (printer.NewTracePrinter fmt s.heap true print_messages) (some ⟨0, ""⟩) =
        (some ⟨(os.length : Int), printer.render fmt print_messages [] cs⟩, none) ∧
      (∀ (n : Node) (st : Option printer.PrinterState),
        (printer.NewTracePrinter fmt s.heap true print_messages n st).2 = none) ∧
      ∃ states : List (Option printer.PrinterState),
        (s.t.Walk (recorded (printer.NewTracePrinter fmt s.heap true print_messages))
          ([], some ⟨0, ""⟩)).1.1 = states ∧
        states.length = s.t.Len ∧
        ∀ st ∈ states, ∃ p : printer.PrinterState, st = some p ∧ 0 ≤ p.indent := by
  obtain ⟨s, hrun, hwalkable, hwalk⟩ :=
    printer_walk_finalized fmt cs print_messages os hfmt hb hnames
  obtain ⟨states, hw, hlen, hall⟩ := hwalk [] ""
  obtain ⟨hA, hB⟩ := walkLoop_recorded (printer.NewTracePrinter fmt s.heap true print_messages)
    s.t.stack [] (some ⟨0, ""⟩)
  simp only [tracer.Walk] at hw
  rw [hw] at hA hB
  refine ⟨s, hrun, hwalkable, ?_, fun n st => printer_error_nil fmt s.heap true print_messages n st,
    states, ?_, hlen, hall⟩
  · simp only [tracer.Walk]
    rw [Prod.ext_iff]
    exact ⟨by simpa using hB.symm, hA.symm⟩
  · simp only [tracer.Walk, hw, List.nil_append]

/-- Scenario A of the specification as an instance of claim C18. -/
theorem C18_printer_writes_indented_lines_witness :
    ∃ fmt : Fmt, fmt.GoSprintf ∧
      openScopes fmt [.Trace "" ["first"], .Message [.str "First"], .Trace "" ["second"],
        .Message [.str "Second"], .Un 1, .Un 0] = some [] ∧
      (∀ nm ∈ scopeNames fmt [.Trace "" ["first"], .Message [.str "First"],
        .Trace "" ["second"], .Message [.str "Second"], .Un 1, .Un 0],
        nm ≠ START_NODE ∧ nm ≠ END_NODE) ∧
      printer.render fmt true [] [.Trace "" ["first"], .Message [.str "First"],
        .Trace "" ["second"], .Message [.str "Second"], .Un 1, .Un 0] =
        "> first\n..@ First\n..> second\n....@ Second\n..< second\n< first\n" ∧
      ∃ s : Sys, Sys.init.run fmt ([.Trace "" ["first"], .Message [.str "First"],
          .Trace "" ["second"], .Message [.str "Second"], .Un 1, .Un 0] ++ [.Done]) = some s ∧
        s.t.ToWalkable s.heap = some (.ok s.t) ∧
        s.t.Walk (printer.NewTracePrinter fmt s.heap true true) (some ⟨0, ""⟩) =
          (some ⟨0, printer.render fmt true [] [.Trace "" ["first"], .Message [.str "First"],
            .Trace "" ["second"], .Message [.str "Second"], .Un 1, .Un 0]⟩, none) ∧
        (∀ (n : Node) (st : Option printer.PrinterState),
          (printer.NewTracePrinter fmt s.heap true true n st).2 = none) ∧
        ∃ states : List (Option printer.PrinterState),
          (s.t.Walk (recorded (printer.NewTracePrinter fmt s.heap true true))
            ([], some ⟨0, ""⟩)).1.1 = states ∧
          states.length = s.t.Len ∧
          ∀ st ∈ states, ∃ p : printer.PrinterState, st = some p ∧ 0 ≤ p.indent :=
  ⟨⟨fun format ops => (goSprintf format ops).getD "", fun _ => ""⟩, goFmt_GoSprintf _,
    by decide, by decide, by decide,
    C18_printer_writes_indented_lines _ [.Trace "" ["first"], .Message [.str "First"],
      .Trace "" ["second"], .Message [.str "Second"], .Un 1, .Un 0] true [] (goFmt_GoSprintf _)
      (by decide) (by decide)⟩

theorem Next_SetNext (o : Obj) (n : Node) : (o.SetNext n).Next = some n := by
  cases o <;> rfl

theorem Prev_SetNext (o : Obj) (n : Node) : (o.SetNext n).Prev = o.Prev := by
  cases o <;> rfl

theorem Next_SetPrev (o : Obj) (n : Node) : (o.SetPrev n).Next = o.Next := by
  cases o <;> rfl

theorem Prev_SetPrev (o : Obj) (n : Node) : (o.SetPrev n).Prev = some n := by
  cases o <;> rfl

theorem unArgs_append (cs ds : List Call) : unArgs (cs ++ ds) = unArgs cs ++ unArgs ds := by
  induction cs with
  | nil => rfl
  | cons c cs ih => cases c <;> simp [unArgs, ih]

theorem mem_unArgs (cs : List Call) (k : Nat) : k ∈ unArgs cs ↔ Call.Un k ∈ cs := by
  induction cs with
  | nil => simp [unArgs]
  | cons c cs ih => cases c <;> simp [unArgs, ih]

/-- What one iteration of `tracer.append` does to the heap when the appended
node `n` is not the last chain node: the cell of the old last node gets
`next = n`, the cell of `n` gets `prev = top` (and, for an `Enter`, its
parent), and every other cell is left as it is. -/
theorem append1_cells {h h1 : Heap} {t t1 : tracer} {n top : Nat}
    (hlast : t.stack.getLast? = some top) (hne : top ≠ n)
    (hres : t.append1 h n = some (h1, t1)) :
    t1.stack = t.stack ++ [n] ∧ h1.length = h.length ∧
    (∀ q : Nat, q ≠ top → q ≠ n → h1[q]? = h[q]?) ∧
    (∃ ot : Obj, h[top]? = some ot ∧ h1[top]? = some (ot.SetNext n)) ∧
    ∃ oc o1 : Obj, h[n]? = some oc ∧ h1[n]? = some o1 ∧ o1.Next = oc.Next ∧
      o1.Prev = some top ∧ ((∀ e : Enter, oc ≠ .enter e) → o1 = oc.SetPrev top) := by
  unfold tracer.append1 at hres
  simp only [hlast] at hres
  cases hot : h[top]? with
  | none => simp [store, hot] at hres
  | some ot =>
    simp only [store, hot] at hres
    have hn1 : (h.set top (ot.SetNext n))[n]? = h[n]? := by
      rw [List.getElem?_set_ne hne]
    cases hoc : h[n]? with
    | none => simp [hn1, hoc] at hres
    | some oc =>
      simp only [hn1, hoc] at hres
      have hnlt : n < h.length := (List.getElem?_eq_some.mp hoc).1
      have h2n : ((h.set top (ot.SetNext n)).set n (oc.SetPrev top))[n]? =
          some (oc.SetPrev top) := by
        simp [hnlt]
      have h2top : ((h.set top (ot.SetNext n)).set n (oc.SetPrev top))[top]? =
          some (ot.SetNext n) := by
        rw [List.getElem?_set_ne (Ne.symm hne)]
        simp [(List.getElem?_eq_some.mp hot).1]
      have h2q : ∀ q : Nat, q ≠ top → q ≠ n →
          ((h.set top (ot.SetNext n)).set n (oc.SetPrev top))[q]? = h[q]? := by
        intro q hq1 hq2
        rw [List.getElem?_set_ne (Ne.symm hq2), List.getElem?_set_ne (Ne.symm hq1)]
      have h2len : ((h.set top (ot.SetNext n)).set n (oc.SetPrev top)).length = h.length := by
        simp
      generalize (h.set top (ot.SetNext n)).set n (oc.SetPrev top) = h2 at hres h2n h2top h2q h2len
      rw [h2n] at hres
      cases oc with
      | enter e =>
        simp only [Obj.SetPrev, Option.some.injEq, Prod.mk.injEq] at hres
        obtain ⟨rfl, rfl⟩ := hres
        refine ⟨rfl, by simp [h2len], ?_, ⟨ot, rfl, ?_⟩,
          .enter e, .enter { e with prev := some top, parent := t.where_ }, rfl, ?_, rfl, rfl, ?_⟩
        · intro q hq1 hq2
          rw [List.getElem?_set_ne (Ne.symm hq2)]
          exact h2q q hq1 hq2
        · rw [List.getElem?_set_ne (Ne.symm hne)]
          exact h2top
        · simp [h2len, hnlt]
        · intro hc
          exact absurd rfl (hc e)
      | exit x =>
        simp only [Obj.SetPrev] at hres
        split at hres
        · simp at hres
        · split at hres
          · simp only [Option.some.injEq, Prod.mk.injEq] at hres
            obtain ⟨rfl, rfl⟩ := hres
            exact ⟨rfl, h2len, h2q, ⟨ot, rfl, h2top⟩, .exit x, (Obj.exit x).SetPrev top, rfl, h2n,
              rfl, rfl, fun _ => rfl⟩
          · simp at hres
      | message m =>
        simp only [Obj.SetPrev, Option.some.injEq, Prod.mk.injEq] at hres
        obtain ⟨rfl, rfl⟩ := hres
        exact ⟨rfl, h2len, h2q, ⟨ot, rfl, h2top⟩, .message m, (Obj.message m).SetPrev top, rfl,
          h2n, rfl, rfl, fun _ => rfl⟩

theorem Linked_snoc {h h1 : Heap} {stack : List Node} {top n : Nat}
    (hl : Linked h stack) (hnd : stack.Nodup) (hlast : stack.getLast? = some top)
    (hn : n ∉ stack)
    (hkeep : ∀ (q : Nat) (o : Obj), q ∈ stack → q ≠ top → h[q]? = some o → h1[q]? = some o)
    (htop : ∃ ot : Obj, h[top]? = some ot ∧ h1[top]? = some (ot.SetNext n))
    (hnew : ∃ o1 : Obj, h1[n]? = some o1 ∧ o1.Next = none ∧ o1.Prev = some top) :
    Linked h1 (stack ++ [n]) := by
  have hlast1 : stack[stack.length - 1]? = some top := by
    rw [← List.getLast?_eq_getElem?]
    exact hlast
  have hpos : 0 < stack.length := by
    cases stack with
    | nil => simp at hlast
    | cons a l => simp
  intro i p hp
  by_cases hi : i < stack.length
  · rw [List.getElem?_append_left hi] at hp
    obtain ⟨o, ho, hnext, hprev⟩ := hl i p hp
    have hpm : p ∈ stack := List.mem_iff_getElem?.mpr ⟨i, hp⟩
    have hprev1 : (if i = 0 then none else (stack ++ [n])[i - 1]?) =
        if i = 0 then none else stack[i - 1]? := by
      rw [List.getElem?_append_left (by omega)]
    by_cases hi1 : i + 1 < stack.length
    · have hpt : p ≠ top := by
        intro hc
        subst hc
        have := List.getElem?_inj hi hnd (hp.trans hlast1.symm)
        omega
      refine ⟨o, hkeep p o hpm hpt ho, ?_, ?_⟩
      · rw [List.getElem?_append_left hi1]
        exact hnext
      · rw [hprev1]
        exact hprev
    · have hie : i = stack.length - 1 := by omega
      have hpt : p = top := by
        rw [hie, hlast1] at hp
        exact (Option.some.inj hp).symm
      subst hpt
      obtain ⟨ot, hot, hot1⟩ := htop
      have hoo : ot = o := Option.some.inj (hot.symm.trans ho)
      subst hoo
      refine ⟨ot.SetNext n, hot1, ?_, ?_⟩
      · rw [Next_SetNext]
        have : i + 1 = stack.length := by omega
        rw [this]
        simp
      · rw [Prev_SetNext, hprev1]
        exact hprev
  · by_cases hi2 : i = stack.length
    · subst hi2
      have hpn : p = n := by simpa using hp.symm
      subst hpn
      obtain ⟨o1, ho1, hnx, hpv⟩ := hnew
      refine ⟨o1, ho1, ?_, ?_⟩
      · rw [hnx]
        simp
      · rw [hpv, if_neg (by omega), List.getElem?_append_left (by omega), hlast1]
    · have : (stack ++ [n])[i]? = none := by
        apply List.getElem?_eq_none
        simp
        omega
      rw [this] at hp
      cases hp

theorem fresh_append_cells {h h2 : Heap} {t t2 : tracer} {top : Nat} (cell : Obj)
    (hlast : t.stack.getLast? = some top) (htop : top < h.length)
    (hres : t.append1 (h ++ [cell]) h.length = some (h2, t2)) :
    t2.stack = t.stack ++ [h.length] ∧ h2.length = h.length + 1 ∧
    (∀ (q : Nat) (o : Obj), h[q]? = some o →
      h2[q]? = some (if q = top then o.SetNext h.length
        else if q = h.length then o.SetPrev top else o)) ∧
    ∃ o1 : Obj, h2[h.length]? = some o1 ∧ o1.Next = cell.Next ∧ o1.Prev = some top := by
  obtain ⟨hst, hlen, hkeep, ⟨ot, hot, hot1⟩, oc, o1, hoc, ho1, hnx, hpv, _⟩ :=
    append1_cells hlast (Nat.ne_of_lt htop) hres
  refine ⟨hst, by simp [hlen], ?_, o1, ho1, ?_, hpv⟩
  · intro q o hq
    have hql : q < h.length := (List.getElem?_eq_some.mp hq).1
    by_cases hqt : q = top
    · subst hqt
      rw [List.getElem?_append_left hql, hq] at hot
      cases hot
      rw [if_pos rfl]
      exact hot1
    · rw [if_neg hqt, if_neg (Nat.ne_of_lt hql), hkeep q hqt (Nat.ne_of_lt hql),
        List.getElem?_append_left hql]
      exact hq
  · have : oc = cell := by simpa using hoc.symm
    rw [hnx, this]

theorem step_cells (fmt : Fmt) {s s1 : Sys} (c : Call) (hs : s.Inv)
    (hun : ∀ k x : Nat, c = .Un k → s.tokens[k]? = some x → x ∉ s.t.stack)
    (hstep : s.step fmt c = some s1) :
    ∃ top n : Nat, s.t.stack.getLast? = some top ∧ s1.t.stack = s.t.stack ++ [n] ∧
      n ∉ s.t.stack ∧ s.heap.length ≤ s1.heap.length ∧
      (∀ (q : Nat) (o : Obj), s.heap[q]? = some o →
        s1.heap[q]? =
          some (if q = top then o.SetNext n else if q = n then o.SetPrev top else o)) ∧
      (∀ q : Nat, s.heap.length ≤ q → q < s1.heap.length →
        ∃ o1 : Obj, s1.heap[q]? = some o1 ∧ o1.Next = none ∧
          o1.Prev = if q = n then some top else none) := by
  obtain ⟨top, hlast⟩ := hs.last
  have htop : top < s.heap.length := getLast?_lt hs.stack_lt hlast
  have hfresh : s.heap.length ∉ s.t.stack := fun hc => Nat.lt_irrefl _ (hs.stack_lt _ hc)
  have hone : ∀ (h2 : Heap) (q : Nat), h2.length = s.heap.length + 1 → s.heap.length ≤ q →
      q < h2.length → q = s.heap.length := by
    intro h2 q h2l h1 h3
    omega
  cases c with
  | Trace caller where_args =>
    simp only [Sys.step, tracer.Trace, new, tracer.append] at hstep
    cases hres : s.t.append1 (s.heap ++ [Obj.enter ⟨whereToString fmt caller where_args, none,
        none, none⟩]) s.heap.length with
    | none => simp [hres] at hstep
    | some r =>
      obtain ⟨h2, t2⟩ := r
      simp only [hres, Option.some.injEq] at hstep
      subst hstep
      obtain ⟨hst, hlen, hold, o1, ho1, hnx, hpv⟩ := fresh_append_cells _ hlast htop hres
      refine ⟨top, s.heap.length, hlast, hst, hfresh, ?_, ?_, ?_⟩
      · simp only [List.length_append, List.length_singleton, hlen]
        omega
      · intro q o hq
        have hql : q < h2.length := by
          rw [hlen]
          exact Nat.lt_succ_of_lt (List.getElem?_eq_some.mp hq).1
        simp only
        rw [List.getElem?_append_left hql]
        exact hold q o hq
      · intro q hq1 hq2
        simp only [List.length_append, List.length_singleton, hlen] at hq2
        by_cases hq : q = s.heap.length
        · subst hq
          rw [if_pos rfl]
          refine ⟨o1, ?_, hnx, hpv⟩
          simp only
          rw [List.getElem?_append_left (by omega)]
          exact ho1
        · have hq3 : q = h2.length := by omega
          subst hq3
          rw [if_neg hq]
          exact ⟨Obj.exit ⟨whereToString fmt caller where_args, none, none, some s.heap.length⟩,
            by simp, rfl, rfl⟩
  | Un k =>
    simp only [Sys.step, tracer.Un] at hstep
    cases hk : s.tokens[k]? with
    | none => simp [hk] at hstep
    | some x =>
      simp only [hk] at hstep
      have hx := hun k x rfl hk
      cases hcell : s.heap[x]? with
      | none => simp [hcell] at hstep
      | some oc =>
        cases oc with
        | enter e => simp [hcell] at hstep
        | message m => simp [hcell] at hstep
        | exit X =>
          simp only [hcell, tracer.append] at hstep
          cases hres : s.t.append1 s.heap x with
          | none => simp [hres] at hstep
          | some r =>
            obtain ⟨h2, t2⟩ := r
            simp only [hres, Option.some.injEq] at hstep
            subst hstep
            have hne : top ≠ x := fun hc =>
              hx (hc ▸ List.mem_of_getLast?_eq_some hlast)
            obtain ⟨hst, hlen, hkeep, ⟨ot, hot, hot1⟩, oc, o1, hoc, ho1, hnx, hpv, hex⟩ :=
              append1_cells hlast hne hres
            refine ⟨top, x, hlast, hst, hx, by simp [hlen], ?_, ?_⟩
            · intro q o hq
              simp only
              by_cases hqt : q = top
              · subst hqt
                rw [hq] at hot
                cases hot
                rw [if_pos rfl]
                exact hot1
              · rw [if_neg hqt]
                by_cases hqx : q = x
                · subst hqx
                  rw [if_pos rfl]
                  rw [hq] at hoc hcell
                  cases hoc
                  rw [ho1, hex (fun e he => by
                    rw [he] at hcell
                    cases hcell)]
                · rw [if_neg hqx, hkeep q hqt hqx]
                  exact hq
            · intro q hq1 hq2
              simp only [hlen] at hq2
              omega
  | Message args =>
    simp only [Sys.step, tracer.Message, new, tracer.append] at hstep
    cases hw : s.t.where_ with
    | none => simp [hw] at hstep
    | some w =>
      cases hcw : s.heap[w]? with
      | none => simp [hw, hcw] at hstep
      | some ow =>
        cases ow with
        | exit X => simp [hw, hcw] at hstep
        | message m => simp [hw, hcw] at hstep
        | enter e =>
          cases hres : s.t.append1 (s.heap ++ [Obj.message ⟨argsToMessage fmt args, none, none,
              s.t.where_⟩]) s.heap.length with
          | none =>
            rw [hres] at hstep
            simp [hw, hcw] at hstep
          | some r =>
            obtain ⟨h2, t2⟩ := r
            rw [hres] at hstep
            simp only [hw, hcw, Option.some.injEq] at hstep
            subst hstep
            obtain ⟨hst, hlen, hold, o1, ho1, hnx, hpv⟩ := fresh_append_cells _ hlast htop hres
            refine ⟨top, s.heap.length, hlast, hst, hfresh, by simp [hlen], hold, ?_⟩
            intro q hq1 hq2
            have hq := hone h2 q hlen hq1 hq2
            subst hq
            rw [if_pos rfl]
            exact ⟨o1, ho1, hnx, hpv⟩
  | Done =>
    simp only [Sys.step, tracer.Done, new, tracer.append] at hstep
    cases hh : s.t.stack.head? with
    | none => simp [hh] at hstep
    | some root =>
      cases hcw : s.heap[root]? with
      | none => simp [hh, hcw] at hstep
      | some ow =>
        cases ow with
        | exit X => simp [hh, hcw] at hstep
        | message m => simp [hh, hcw] at hstep
        | enter e =>
          simp only [hh, hcw] at hstep
          cases hres : s.t.append1 (s.heap ++ [Obj.exit ⟨END_NODE, none, none, some root⟩])
              s.heap.length with
          | none => simp [hres] at hstep
          | some r =>
            obtain ⟨h2, t2⟩ := r
            simp only [hres, Option.some.injEq] at hstep
            subst hstep
            obtain ⟨hst, hlen, hold, o1, ho1, hnx, hpv⟩ := fresh_append_cells _ hlast htop hres
            refine ⟨top, s.heap.length, hlast, hst, hfresh, by simp [hlen], hold, ?_⟩
            intro q hq1 hq2
            have hq := hone h2 q hlen hq1 hq2
            subst hq
            rw [if_pos rfl]
            exact ⟨o1, ho1, hnx, hpv⟩

theorem init_Chained : Sys.init.Chained [] := by
  refine ⟨Sys.init_Inv, by simp [Sys.init, NewTracer, new], ?_, by simp [Sys.init, NewTracer, new],
    ?_, ?_⟩
  · intro k x hk
    simp [Sys.init, NewTracer, new] at hk
  · intro i p hp
    have hstack : Sys.init.t.stack = [0] := rfl
    rw [hstack] at hp ⊢
    cases i with
    | zero =>
      simp only [List.getElem?_cons_zero, Option.some.injEq] at hp
      subst hp
      exact ⟨.enter ⟨START_NODE, none, none, none⟩, rfl, rfl, rfl⟩
    | succ j => simp at hp
  · intro q o hq hn
    have hstack : Sys.init.t.stack = [0] := rfl
    have hheap : Sys.init.heap = [.enter ⟨START_NODE, none, none, none⟩] := rfl
    rw [hstack] at hn
    rw [hheap] at hq
    cases q with
    | zero => simp at hn
    | succ j => simp at hq

theorem step_Chained (fmt : Fmt) {s s1 : Sys} (c : Call) (pre : List Call)
    (hc : s.Chained pre) (honce : (unArgs (pre ++ [c])).Nodup)
    (hstep : s.step fmt c = some s1) : s1.Chained (pre ++ [c]) := by
  obtain ⟨hnd2, hJ2⟩ := step_unredeemed fmt c pre hc.inv hc.toks hc.redeemed hstep
  have hun : ∀ k x : Nat, c = .Un k → s.tokens[k]? = some x → x ∉ s.t.stack := by
    intro k x hck hk hmem
    subst hck
    have h1 := ((hc.redeemed k x hk).1 hmem)
    rw [unArgs_append] at honce
    have h2 : k ∈ unArgs pre := (mem_unArgs pre k).mpr h1
    have h3 := List.disjoint_of_nodup_append honce h2
    simp [unArgs] at h3
  obtain ⟨top, n, hlast, hst, hn, hlen, hold, hfresh⟩ := step_cells fmt c hc.inv hun hstep
  have htopmem : top ∈ s.t.stack := List.mem_of_getLast?_eq_some hlast
  have hne : top ≠ n := fun h => hn (h ▸ htopmem)
  obtain ⟨ot, hot⟩ : ∃ ot : Obj, s.heap[top]? = some ot :=
    ⟨_, List.getElem?_eq_getElem (hc.inv.stack_lt top htopmem)⟩
  refine ⟨(step_Inv fmt c hc.inv hstep).1, hnd2, hJ2, ?_, ?_, ?_⟩
  · rw [hst]
    refine List.Nodup.append hc.nodup (List.nodup_singleton _) ?_
    intro x hx hx1
    simp only [List.mem_singleton] at hx1
    subst hx1
    exact hn hx
  · rw [hst]
    refine Linked_snoc hc.linked hc.nodup hlast hn ?_ ?_ ?_
    · intro q o hq hqt ho
      have hqn : q ≠ n := fun h => hn (h ▸ hq)
      rw [hold q o ho, if_neg hqt, if_neg hqn]
    · refine ⟨ot, hot, ?_⟩
      rw [hold top ot hot, if_pos rfl]
    · by_cases hnl : n < s.heap.length
      · obtain ⟨oc, hoc⟩ : ∃ oc : Obj, s.heap[n]? = some oc :=
          ⟨_, List.getElem?_eq_getElem hnl⟩
        obtain ⟨hnx, _⟩ := hc.free n oc hoc hn
        refine ⟨oc.SetPrev top, ?_, ?_, Prev_SetPrev _ _⟩
        · rw [hold n oc hoc, if_neg (Ne.symm hne), if_pos rfl]
        · rw [Next_SetPrev, hnx]
      · have hnl1 : n < s1.heap.length := by
          have := (step_Inv fmt c hc.inv hstep).1.stack_lt n (by rw [hst]; simp)
          exact this
        obtain ⟨o1, ho1, hnx, hpv⟩ := hfresh n (Nat.le_of_not_lt hnl) hnl1
        rw [if_pos rfl] at hpv
        exact ⟨o1, ho1, hnx, hpv⟩
  · intro q o hq hqs
    rw [hst] at hqs
    have hq1 : q ∉ s.t.stack := fun h => hqs (List.mem_append_left _ h)
    have hq2 : q ≠ n := fun h => hqs (by simp [h])
    have hq3 : q ≠ top := fun h => hq1 (h ▸ htopmem)
    by_cases hql : q < s.heap.length
    · obtain ⟨oc, hoc⟩ : ∃ oc : Obj, s.heap[q]? = some oc :=
        ⟨_, List.getElem?_eq_getElem hql⟩
      rw [hold q oc hoc, if_neg hq3, if_neg hq2] at hq
      have hoo : oc = o := Option.some.inj hq
      rw [← hoo]
      exact hc.free q oc hoc hq1
    · obtain ⟨o1, ho1, hnx, hpv⟩ := hfresh q (Nat.le_of_not_lt hql)
        (List.getElem?_eq_some.mp hq).1
      rw [ho1] at hq
      cases hq
      rw [if_neg hq2] at hpv
      exact ⟨hnx, hpv⟩

theorem run_Chained (fmt : Fmt) (cs : List Call) :
    ∀ (s s1 : Sys) (pre : List Call), s.Chained pre → (unArgs (pre ++ cs)).Nodup →
      s.run fmt cs = some s1 → s1.Chained (pre ++ cs) := by
  induction cs with
  | nil =>
    intro s s1 pre hc _ hrun
    simp only [Sys.run, Option.some.injEq] at hrun
    subst hrun
    simpa using hc
  | cons c cs ih =>
    intro s s1 pre hc honce hrun
    simp only [Sys.run] at hrun
    cases hstep : s.step fmt c with
    | none => simp [hstep] at hrun
    | some s2 =>
      simp only [hstep] at hrun
      have honce1 : (unArgs (pre ++ [c])).Nodup := by
        have : pre ++ c :: cs = (pre ++ [c]) ++ cs := by simp
        rw [this, unArgs_append] at honce
        exact (List.nodup_append.mp honce).1
      have := ih s2 s1 (pre ++ [c]) (step_Chained fmt c pre hc honce1 hstep)
        (by simpa using honce) hrun
      simpa using this

/-- Claim C16. After every sequence of `Trace`, `Un`, `Message` and `Done`
calls on a new tracer in which no token is passed to `Un` twice: any two
neighbours of the chain are linked both ways (the node at position `i + 1` is
`Next()` of the node at position `i`, which is its `Prev()`), the root `Enter`
at position 0 has no `Prev()` and the last node has no `Next()`. A further
call `c` (not passing a token to `Un` a second time) appends one node `n` that
is not yet in the chain, keeps the order of the chain, and leaves every cell
that existed before the call as it was, but for `next = n` in the old last
node and `prev = top` in `n` (when `n` is a token, whose links were nil until
then); in particular the name and parent of every such cell are unchanged. -/
theorem C16_chain_links (fmt : Fmt) (cs : List Call) (s : Sys)
    (hrun : Sys.init.run fmt cs = some s) (honce : (unArgs cs).Nodup) :
    (∀ i p q : Nat, s.t.stack[i]? = some p → s.t.stack[i + 1]? = some q →
      ∃ op oq : Obj, s.heap[p]? = some op ∧ s.heap[q]? = some oq ∧
        op.Next = some q ∧ oq.Prev = some p) ∧
    (∃ e : Enter, s.t.stack[0]? = some 0 ∧ s.heap[0]? = some (.enter e) ∧
      (Obj.enter e).Prev = none) ∧
    (∃ (last : Nat) (o : Obj), s.t.stack.getLast? = some last ∧ s.heap[last]? = some o ∧
      o.Next = none) ∧
    ∀ (c : Call) (s1 : Sys), (unArgs (cs ++ [c])).Nodup → s.step fmt c = some s1 →
      ∃ top n : Nat, s.t.stack.getLast? = some top ∧ s1.t.stack = s.t.stack ++ [n] ∧
        n ∉ s.t.stack ∧
        (∀ (q : Nat) (o : Obj), s.heap[q]? = some o →
          s1.heap[q]? =
            some (if q = top then o.SetNext n else if q = n then o.SetPrev top else o)) ∧
        (∀ o : Obj, s.heap[n]? = some o → o.Next = none ∧ o.Prev = none) ∧
        ∀ q : Nat, q < s.heap.length → viewAt s1.heap q = viewAt s.heap q := by
  have hc : s.Chained cs := by
    have := run_Chained fmt cs Sys.init s [] init_Chained (by simpa using honce) hrun
    simpa using this
  have hhead : s.t.stack[0]? = some 0 := by
    have := hc.inv.head
    rw [List.head?_eq_getElem?] at this
    exact this
  refine ⟨?_, ?_, ?_, ?_⟩
  · intro i p q hp hq
    obtain ⟨op, hop, hnx, _⟩ := hc.linked i p hp
    obtain ⟨oq, hoq, _, hpv⟩ := hc.linked (i + 1) q hq
    refine ⟨op, oq, hop, hoq, by rw [hnx, hq], ?_⟩
    rw [hpv, if_neg (Nat.succ_ne_zero i)]
    simpa using hp
  · obtain ⟨o, ho, _, hpv⟩ := hc.linked 0 0 hhead
    obtain ⟨e, he, _, _⟩ := viewAt_enter hc.inv.root
    rw [he] at ho
    cases ho
    exact ⟨e, hhead, he, by simpa using hpv⟩
  · obtain ⟨last, hlast⟩ := hc.inv.last
    have hl1 : s.t.stack[s.t.stack.length - 1]? = some last := by
      rw [← List.getLast?_eq_getElem?]
      exact hlast
    have hpos : 0 < s.t.stack.length := by
      cases hs : s.t.stack with
      | nil => simp [hs] at hhead
      | cons a l => simp
    obtain ⟨o, ho, hnx, _⟩ := hc.linked _ last hl1
    refine ⟨last, o, hlast, ho, ?_⟩
    rw [hnx]
    apply List.getElem?_eq_none
    omega
  · intro c s1 honce1 hstep
    have hun : ∀ k x : Nat, c = .Un k → s.tokens[k]? = some x → x ∉ s.t.stack := by
      intro k x hck hk hmem
      subst hck
      have h1 := ((hc.redeemed k x hk).1 hmem)
      rw [unArgs_append] at honce1
      have h2 : k ∈ unArgs cs := (mem_unArgs cs k).mpr h1
      have h3 := List.disjoint_of_nodup_append honce1 h2
      simp [unArgs] at h3
    obtain ⟨top, n, hlast, hst, hn, hlen, hold, hfresh⟩ := step_cells fmt c hc.inv hun hstep
    refine ⟨top, n, hlast, hst, hn, hold, fun o ho => hc.free n o ho hn, ?_⟩
    intro q hq
    obtain ⟨o, ho⟩ : ∃ o : Obj, s.heap[q]? = some o := ⟨_, List.getElem?_eq_getElem hq⟩
    simp only [viewAt, hold q o ho, ho, Option.map_some', Option.some.injEq]
    split
    · exact view_SetNext _ _
    · split
      · exact view_SetPrev _ _
      · rfl

/-- An instance of claim C16: `Trace a; Message m; Un; Done`. -/
theorem C16_chain_links_witness :
    ∃ (fmt : Fmt) (s : Sys),
      Sys.init.run fmt [.Trace "" ["a"], .Message [.str "m"], .Un 0, .Done] = some s ∧
      (unArgs [.Trace "" ["a"], .Message [.str "m"], .Un 0, .Done]).Nodup ∧
      s.t.stack = [0, 1, 3, 2, 4] ∧
      ∀ i p q : Nat, s.t.stack[i]? = some p → s.t.stack[i + 1]? = some q →
        ∃ op oq : Obj, s.heap[p]? = some op ∧ s.heap[q]? = some oq ∧
          op.Next = some q ∧ oq.Prev = some p :=
  ⟨⟨fun _ _ => "", fun _ => ""⟩,
    ⟨[.enter ⟨"<START>", some 1, none, none⟩, .enter ⟨"a", some 3, some 0, some 0⟩,
      .exit ⟨"a", some 4, some 3, some 1⟩, .message ⟨"m", some 2, some 1, some 1⟩,
      .exit ⟨"<END>", none, some 2, some 0⟩], ⟨[0, 1, 3, 2, 4], none⟩, [2]⟩,
    rfl, by decide, rfl,
    (C16_chain_links ⟨fun _ _ => "", fun _ => ""⟩
      [.Trace "" ["a"], .Message [.str "m"], .Un 0, .Done]
      ⟨[.enter ⟨"<START>", some 1, none, none⟩, .enter ⟨"a", some 3, some 0, some 0⟩,
        .exit ⟨"a", some 4, some 3, some 1⟩, .message ⟨"m", some 2, some 1, some 1⟩,
        .exit ⟨"<END>", none, some 2, some 0⟩], ⟨[0, 1, 3, 2, 4], none⟩, [2]⟩ rfl
      (by decide)).1⟩

end trace
